import Mathlib

set_option maxRecDepth 10000
set_option exponentiation.threshold 20000

/-!
Verification of the SimpleJSON library (src/include/simpleJSON/simpleJSON.hpp).

The C++ header is shallowly embedded as executable Lean definitions:

* `std::string` and the character stream are `List Char`; end of stream is the
  empty list.  C++ reads bytes; we restrict attention to code points below 256,
  which covers every input the claims mention.
* `long long int` (`JSONInteger`) is `Int`; the `strtoll` model saturates at
  the 64-bit bounds exactly as `strtoll` is specified to do.
* `long double` (`JSONFloating`) is modelled as an exact rational together
  with the two infinities that `strtold` produces on overflow.  Rounding of
  in-range literals to the nearest machine value is abstracted away: the model
  keeps the exact rational.  This preserves the order and equality structure
  used by the comparison operators.
* exceptions are `Except String`, carrying the exact message strings of the
  source (`{`/`}` appear as \x7b/\x7d escapes).
* `std::map<JSONString, JSONObject>` is an association list kept sorted by
  the key order of `std::string` (lexicographic on bytes, via
  `char_traits<char>::lt`, i.e. unsigned comparison).
* the mutually recursive parsing routines are given an explicit fuel
  parameter; the public entry point `parseFromString` supplies fuel computed
  from the input length, which is proved sufficient where success matters.
-/

namespace SimpleJSON

/-! ## Character predicates (internal helpers of the header) -/

/-- internal::isValidEscapedCharacter -/
def isValidEscapedCharacter (c : Char) : Bool :=
  c = '"' || c = '/' || c = '\\' ||
  c = 'b' || c = 'f' || c = 'n' ||
  c = 'r' || c = 't' || c = 'u'

/-- internal::isValidWhitespace -/
def isValidWhitespace (c : Char) : Bool :=
  c = ' ' || c = '\n' || c = '\r' || c = '\t'

/-- std::isxdigit on a byte: `0-9`, `a-f`, `A-F` (stated on code points) -/
def isHexDigit (c : Char) : Bool :=
  (48 ≤ c.toNat && c.toNat ≤ 57) || (97 ≤ c.toNat && c.toNat ≤ 102) ||
    (65 ≤ c.toNat && c.toNat ≤ 70)

/-- isdigit on a byte: `0-9` (stated on code points) -/
def isDigitChar (c : Char) : Bool :=
  48 ≤ c.toNat && c.toNat ≤ 57

/-- the control-character test of internal::parseString:
`0 <= (int)c && (int)c <= 31`.  Bytes above 127 are negative as C++ `char`
and fail the test, matching `c.toNat ≤ 31` on code points below 256. -/
def isControlChar (c : Char) : Bool :=
  c.toNat ≤ 31

/-- effect of internal::peekNextNonSpaceCharacter on the stream: the
whitespace in front is consumed, the next character is only peeked. -/
def skipWs (cs : List Char) : List Char :=
  cs.dropWhile isValidWhitespace

/-- the character class consumed greedily by internal::parseNumber -/
def isNumberChar (c : Char) : Bool :=
  isDigitChar c || c = '.' || c = '-' || c = 'e' || c = 'E' || c = '+'

/-! ## Numbers -/

/-- simpleJSON::JSONFloating (`long double`).  Finite values are exact
rationals; the infinities arise from `strtold` overflow.  NaN cannot be
produced by the library itself and is not modelled. -/
inductive JSONFloating where
  | finite (q : ℚ)
  | posInf
  | negInf
deriving DecidableEq

/-- simpleJSON::JSONInteger (`long long int`).  Values produced by the
library always lie in the 64-bit range. -/
abbrev JSONInteger := Int

/-- payload of simpleJSON::JSONNumber:
`std::variant<JSONFloating, JSONInteger>` -/
inductive JSONNumber where
  | floating (f : JSONFloating)
  | integer (i : JSONInteger)
deriving DecidableEq

/-- `<` on `long double` values (total on the modelled, NaN-free domain) -/
def JSONFloating.lt : JSONFloating → JSONFloating → Bool
  | .finite a, .finite b => a < b
  | .finite _, .posInf => true
  | .negInf, .finite _ => true
  | .negInf, .posInf => true
  | _, _ => false

/-- the `static_cast<JSONFloating>` widening of an integer operand; every
`long long` is exactly representable in the 64-bit significand of
`long double`, so the cast is exact. -/
def widen (i : JSONInteger) : JSONFloating :=
  .finite (i : ℚ)

/-- operator== on JSONNumber: `lhs.mValue == rhs.mValue` on the variant,
which is false whenever the two sides hold different alternatives. -/
def JSONNumber.eq : JSONNumber → JSONNumber → Bool
  | .floating a, .floating b => a = b
  | .integer a, .integer b => a = b
  | _, _ => false

/-- operator!= on JSONNumber -/
def JSONNumber.ne (a b : JSONNumber) : Bool :=
  !(a.eq b)

/-- operator< on JSONNumber: same-kind compares directly, cross-kind widens
the integer operand to floating point.  The defensive `throw` of the source
is unreachable because the variant always holds one of the two
alternatives, which the model type makes structural. -/
def JSONNumber.lt : JSONNumber → JSONNumber → Bool
  | .floating a, .floating b => a.lt b
  | .floating a, .integer b => a.lt (widen b)
  | .integer a, .floating b => (widen a).lt b
  | .integer a, .integer b => a < b

/-- operator<= on JSONNumber: `(lhs < rhs) || (lhs == rhs)` -/
def JSONNumber.le (a b : JSONNumber) : Bool :=
  a.lt b || a.eq b

/-- operator> on JSONNumber: `!(lhs <= rhs)` -/
def JSONNumber.gt (a b : JSONNumber) : Bool :=
  !(a.le b)

/-- operator>= on JSONNumber: `(lhs > rhs) || (lhs == rhs)` -/
def JSONNumber.ge (a b : JSONNumber) : Bool :=
  a.gt b || a.eq b

/-! ## Decimal reading (models of strtoll / strtold)

The lexemes handed to these functions by parseNumber consist only of digits,
`.`, `-`, `+`, `e`, `E`, so the whitespace skipping, base prefixes and the
`inf`/`nan` forms of the C functions can never trigger and are not modelled.
-/

/-- LLONG_MAX -/
def llongMax : Int := 9223372036854775807

/-- LLONG_MIN -/
def llongMin : Int := -9223372036854775808

/-- LDBL_MAX for the 80-bit extended format: (2^64 - 1) * 2^16320 -/
def ldblMax : ℚ := ((2 ^ 64 - 1 : ℕ) : ℚ) * ((2 ^ 16320 : ℕ) : ℚ)

/-- value of a most-significant-first digit string -/
def digitsToNat (ds : List Char) : ℕ :=
  ds.foldl (fun acc c => 10 * acc + (c.toNat - 48)) 0

/-- optional sign in front of a C number literal -/
def readSign : List Char → Int × List Char
  | '-' :: t => (-1, t)
  | '+' :: t => (1, t)
  | cs => (1, cs)

/-- model of `std::strtoll(str, &afterEnd, 10)`: longest `[sign]digits`
subject sequence, value saturated to the `long long` range on overflow
(which is exactly what `strtoll` returns; the `errno` outcome carries the
only distinction and the header never reads it).  Returns the value and the
unconsumed remainder (`afterEnd`).  With no digits there is no conversion:
the result is 0 and nothing is consumed. -/
def strtollModel (cs : List Char) : Int × List Char :=
  let (sgn, cs1) := readSign cs
  let ds := cs1.takeWhile isDigitChar
  if ds.isEmpty then
    (0, cs)
  else
    (max llongMin (min llongMax (sgn * (digitsToNat ds : Int))), cs1.dropWhile isDigitChar)

/-- 10^z as an exact rational -/
def ratPow10 (z : Int) : ℚ :=
  if 0 ≤ z then ((10 ^ z.toNat : ℕ) : ℚ) else 1 / ((10 ^ (-z).toNat : ℕ) : ℚ)

/-- overflow behaviour of strtold: values beyond LDBL_MAX become the
infinities (HUGE_VALL); in-range values stay exact in the model. -/
def clampLdbl (q : ℚ) : JSONFloating :=
  if ldblMax < q then .posInf
  else if q < -ldblMax then .negInf
  else .finite q

/-- model of `std::strtold(str, &afterEnd)` on the parseNumber alphabet:
longest `[sign](digits[.digits] | .digits)[(e|E)[sign]digits]` subject
sequence.  An `e`/`E` not followed by a digit sequence is not part of the
subject.  Returns the value and the unconsumed remainder; with no digits in
the significand there is no conversion. -/
def strtoldModel (cs : List Char) : JSONFloating × List Char :=
  let (sgn, cs1) := readSign cs
  let ip := cs1.takeWhile isDigitChar
  let cs2 := cs1.dropWhile isDigitChar
  let (fp, cs3) :=
    match cs2 with
    | '.' :: t => (t.takeWhile isDigitChar, t.dropWhile isDigitChar)
    | _ => ([], cs2)
  if ip.isEmpty && fp.isEmpty then
    (.finite 0, cs)
  else
    let mant : ℚ := (sgn : ℚ) * ((digitsToNat (ip ++ fp) : ℕ) : ℚ) * ratPow10 (-(fp.length : Int))
    match cs3 with
    | e :: t =>
      if e = 'e' || e = 'E' then
        let (esgn, t1) := readSign t
        let ed := t1.takeWhile isDigitChar
        if ed.isEmpty then
          (clampLdbl mant, cs3)
        else
          (clampLdbl (mant * ratPow10 (esgn * (digitsToNat ed : Int))), t1.dropWhile isDigitChar)
      else
        (clampLdbl mant, cs3)
    | [] => (clampLdbl mant, [])

/-- error message of strToJSONFloating's trailing-dot check -/
def errDotLast : String :=
  "Error while parsing number, decimal point cannot be the last character"

/-- error message of strToJSONFloating's exponent-placement check -/
def errEAfterDot : String :=
  "Error while parsing number, 'e' or 'E' cannot be the first character after decimal point"

/-- error message of strToJSONFloating's missing-integer-part check -/
def errNoDigitBeforeDot : String :=
  "Error while parsing number, missing digit before decimal point"

/-- error message of strToJSONFloating's whole-string check -/
def errInvalidFloating : String :=
  "Error while parsing number, invalid floating point number"

/-- error message of strToJSONInteger's leading-zero check -/
def errLeadingZero : String :=
  "Error while parsing number, integer cannot start with 0"

/-- error message of strToJSONInteger's whole-string check -/
def errInvalidInteger : String :=
  "Error while parsing number, invalid integer"

/-- index of the first `.` in the lexeme (`std::find`) -/
def firstDotIdx (cs : List Char) : Option ℕ :=
  cs.findIdx? (fun c => c = '.')

/-- index of the first `e`/`E` in the lexeme (`std::find_if`) -/
def firstExpIdx (cs : List Char) : Option ℕ :=
  cs.findIdx? (fun c => c = 'e' || c = 'E')

/-- the condition of strToJSONFloating's exponent-placement check: the
first `e`/`E` exactly one position after the first `.`
(`std::distance(dotIt, eIt) == 1`) -/
def floatDotEAdjacent (str : List Char) : Bool :=
  match firstDotIdx str, firstExpIdx str with
  | some di, some ei => ei = di + 1
  | _, _ => false

/-- the condition of strToJSONFloating's missing-integer-part check: a
leading `.`, also directly after a leading `-` -/
def floatLeadingDot (str : List Char) : Bool :=
  match str with
  | '.' :: _ => true
  | '-' :: '.' :: _ => true
  | _ => false

/-- the condition of strToJSONInteger's leading-zero check: `0` followed by
more characters, also after a leading `-` -/
def intLeadingZero (str : List Char) : Bool :=
  match str with
  | '0' :: _ :: _ => true
  | '-' :: '0' :: _ :: _ => true
  | _ => false

/-- internal::strToJSONFloating.  The checks appear in source order: a
trailing decimal point; the first `e`/`E` exactly one position after the
first `.`; a decimal point with no digit in front of it; then the strict
whole-string strtold conversion. -/
def strToJSONFloating (str : List Char) : Except String JSONFloating :=
  if str.getLast? = some '.' then
    .error errDotLast
  else if floatDotEAdjacent str then
    .error errEAfterDot
  else if floatLeadingDot str then
    .error errNoDigitBeforeDot
  else
    let (result, afterEnd) := strtoldModel str
    if afterEnd.isEmpty then
      .ok result
    else
      .error errInvalidFloating

/-- internal::strToJSONInteger: the leading-zero check, then the strict
whole-string strtoll conversion. -/
def strToJSONInteger (str : List Char) : Except String JSONInteger :=
  if intLeadingZero str then
    .error errLeadingZero
  else
    let (result, afterEnd) := strtollModel str
    if afterEnd.isEmpty then
      .ok result
    else
      .error errInvalidInteger

/-! ## The value model -/

/-- simpleJSON::JSONObject: the closed tagged union
`std::variant<JSONString, JSONNumber, JSONBool, JSONNull, JSONArray, JSONMap>`.
`JSONString` payloads are the raw `std::string` contents, `JSONArray` is a
`std::vector` in order, `JSONMap` is the `std::map` as its sorted entry
sequence. -/
inductive JSONObject where
  | str (s : List Char)
  | num (n : JSONNumber)
  | boolean (b : Bool)
  | null
  | array (elems : List JSONObject)
  | map (entries : List (List Char × JSONObject))

/-- `char_traits<char>::lt`-based `std::string` operator< (lexicographic,
bytes compared as unsigned) -/
def strLt : List Char → List Char → Bool
  | [], [] => false
  | [], _ :: _ => true
  | _ :: _, [] => false
  | a :: as, b :: bs =>
    if a.toNat < b.toNat then true
    else if b.toNat < a.toNat then false
    else strLt as bs

/-- default-constructed simpleJSON::JSONObject: an empty map -/
def JSONObject.default : JSONObject :=
  .map []

/-- lookup in the std::map model (`mValue.find`) -/
def mapFind? (m : List (List Char × JSONObject)) (k : List Char) : Option JSONObject :=
  match m with
  | [] => none
  | (k', v) :: t => if k' = k then some v else mapFind? t k

/-- insertion position respecting the sorted order of std::map; an existing
entry with an equal key is replaced.  This is the effect of
`mValue[key] = value` (subscript then assignment). -/
def mapAssign (m : List (List Char × JSONObject)) (k : List Char) (v : JSONObject) :
    List (List Char × JSONObject) :=
  match m with
  | [] => [(k, v)]
  | (k', v') :: t =>
    if strLt k k' then (k, v) :: (k', v') :: t
    else if k' = k then (k, v) :: t
    else (k', v') :: mapAssign t k v

/-- `std::map::insert` of one entry: a no-op when the key is already
present.  Range/initializer-list construction of `std::map` inserts the
entries one by one with these semantics, so the first occurrence of a
duplicated key wins. -/
def mapInsert (m : List (List Char × JSONObject)) (k : List Char) (v : JSONObject) :
    List (List Char × JSONObject) :=
  match m with
  | [] => [(k, v)]
  | (k', v') :: t =>
    if strLt k k' then (k, v) :: (k', v') :: t
    else if k' = k then (k', v') :: t
    else (k', v') :: mapInsert t k v

/-- JSONMap::JSONMap(initializer_list): `mValue{list}` constructs the
std::map from the listed pairs by successive insertion. -/
def JSONMap.ofList (l : List (List Char × JSONObject)) : List (List Char × JSONObject) :=
  l.foldl (fun m kv => mapInsert m kv.1 kv.2) []

/-- JSONMap::removeField: erase the entry if the key is found -/
def mapRemoveField (m : List (List Char × JSONObject)) (k : List Char) :
    List (List Char × JSONObject) :=
  match m with
  | [] => []
  | (k', v') :: t => if k' = k then t else (k', v') :: mapRemoveField t k

/-- mutable JSONMap::operator[]: `return mValue[key]` — the entry is
default-inserted (an empty-map JSONObject) when absent.  The model returns
the referenced value together with the updated map. -/
def mapSubscript (m : List (List Char × JSONObject)) (k : List Char) :
    JSONObject × List (List Char × JSONObject) :=
  match mapFind? m k with
  | some v => (v, m)
  | none => (JSONObject.default, mapInsert m k JSONObject.default)

/-! ## Serialization -/

/-- JSONString::toString: a double quote, the raw stored text with no
re-escaping, a double quote -/
def jsonStringToString (s : List Char) : List Char :=
  '"' :: s ++ ['"']

/-- digit character for a digit value -/
def digitChar (d : ℕ) : Char :=
  Char.ofNat (48 + d)

/-- decimal representation of a natural number, as std::to_string renders
the digits (most significant first, no leading zeros, "0" for zero) -/
def natToString (n : ℕ) : List Char :=
  if n = 0 then ['0'] else ((Nat.digits 10 n).map digitChar).reverse

/-- std::to_string on a long long -/
def intToString (i : Int) : List Char :=
  if i < 0 then '-' :: natToString i.natAbs else natToString i.toNat

/-- a natural below 10^6 padded to exactly six digits -/
def padSixDigits (n : ℕ) : List Char :=
  let ds := natToString n
  List.replicate (6 - ds.length) '0' ++ ds

/-- std::to_string on a long double: fixed %Lf format with six fractional
digits.  The tie-breaking of the printf rounding is abstracted by `round`;
no claim depends on the digits chosen for a floating value. -/
def floatToString : JSONFloating → List Char
  | .posInf => ('i' :: 'n' :: 'f' :: [])
  | .negInf => ('-' :: 'i' :: 'n' :: 'f' :: [])
  | .finite q =>
    let m : ℕ := (round (|q| * 1000000) : ℤ).toNat
    (if q < 0 then ['-'] else []) ++ natToString (m / 1000000) ++ '.' :: padSixDigits (m % 1000000)

/-- JSONNumber::toString: std::to_string of whichever alternative is held -/
def JSONNumber.toString : JSONNumber → List Char
  | .floating f => floatToString f
  | .integer i => intToString i

mutual

/-- size measure used for the recursion of the serializers and for
structural induction over the nested value type -/
def JSONObject.size : JSONObject → ℕ
  | .str _ => 1
  | .num _ => 1
  | .boolean _ => 1
  | .null => 1
  | .array es => 1 + sizeList es
  | .map kvs => 1 + sizeEntries kvs

/-- combined size of the elements of an array -/
def JSONObject.sizeList : List JSONObject → ℕ
  | [] => 0
  | e :: t => JSONObject.size e + sizeList t + 1

/-- combined size of the entries of a map -/
def JSONObject.sizeEntries : List (List Char × JSONObject) → ℕ
  | [] => 0
  | (_, v) :: t => JSONObject.size v + sizeEntries t + 1

end

mutual

/-- JSONObject::toString (compact serialization), dispatched on the active
variant exactly as the std::visit does -/
def JSONObject.toString : JSONObject → List Char
  | .str s => jsonStringToString s
  | .num n => n.toString
  | .boolean b => if b then ('t' :: 'r' :: 'u' :: 'e' :: []) else ('f' :: 'a' :: 'l' :: 's' :: 'e' :: [])
  | .null => ('n' :: 'u' :: 'l' :: 'l' :: [])
  | .array [] => ('[' :: ']' :: [])
  | .array (e :: es) =>
    ('[' :: (JSONObject.arrayBodyString (e :: es))).dropLast ++ [']']
  | .map [] => ('{' :: '}' :: [])
  | .map (kv :: kvs) =>
    ('{' :: (JSONObject.mapBodyString (kv :: kvs))).dropLast ++ ['}']

/-- JSONArray::toString loop body: each element's compact form followed by
a comma (the final comma is overwritten by `]` in the caller) -/
def JSONObject.arrayBodyString : List JSONObject → List Char
  | [] => []
  | e :: es => JSONObject.toString e ++ ',' :: JSONObject.arrayBodyString es

/-- JSONMap::toString loop body: `key:value,` per entry in stored (i.e.
ascending key) order -/
def JSONObject.mapBodyString : List (List Char × JSONObject) → List Char
  | [] => []
  | (k, v) :: kvs =>
    jsonStringToString k ++ ':' :: JSONObject.toString v ++ ',' :: JSONObject.mapBodyString kvs

end

mutual

/-- JSONObject::toIndentedString.  Scalars render as in compact form; a
non-empty array opens with `[\n`, indents every element one level deeper,
and closes on its own line; maps likewise with `key : value` pairs; empty
containers collapse to `[]`/`\x7b\x7d`. -/
def JSONObject.toIndentedString (v : JSONObject) (cur ind : List Char) : List Char :=
  match v with
  | .str s => jsonStringToString s
  | .num n => n.toString
  | .boolean b => if b then ('t' :: 'r' :: 'u' :: 'e' :: []) else ('f' :: 'a' :: 'l' :: 's' :: 'e' :: [])
  | .null => ('n' :: 'u' :: 'l' :: 'l' :: [])
  | .array [] => ('[' :: ']' :: [])
  | .array (e :: es) =>
    (('[' :: '\n' :: []) ++ JSONObject.arrayBodyIndented (e :: es) (cur ++ ind) ind).dropLast.dropLast
      ++ '\n' :: cur ++ [']']
  | .map [] => ('{' :: '}' :: [])
  | .map (kv :: kvs) =>
    (('{' :: '\n' :: []) ++ JSONObject.mapBodyIndented (kv :: kvs) (cur ++ ind) ind).dropLast.dropLast
      ++ '\n' :: cur ++ ['}']

/-- JSONArray::toIndentedString loop body: indentation, the element one
level deeper, `,\n` (the final `,\n` is erased by the caller) -/
def JSONObject.arrayBodyIndented (es : List JSONObject) (cur ind : List Char) : List Char :=
  match es with
  | [] => []
  | e :: t =>
    cur ++ JSONObject.toIndentedString e cur ind ++ ',' :: '\n' :: JSONObject.arrayBodyIndented t cur ind

/-- JSONMap::toIndentedString loop body: indentation, `key : value`, `,\n` -/
def JSONObject.mapBodyIndented (kvs : List (List Char × JSONObject)) (cur ind : List Char) :
    List Char :=
  match kvs with
  | [] => []
  | (k, v) :: t =>
    cur ++ jsonStringToString k ++ ' ' :: ':' :: ' ' :: JSONObject.toIndentedString v cur ind
      ++ ',' :: '\n' :: JSONObject.mapBodyIndented t cur ind

end

/-- simpleJSON::dumpToString -/
def dumpToString (v : JSONObject) : List Char :=
  v.toString

/-- simpleJSON::dumpToPrettyString (current indentation starts empty) -/
def dumpToPrettyString (v : JSONObject) (indentString : List Char) : List Char :=
  v.toIndentedString [] indentString

/-- simpleJSON::defaultIndentString (one tab) -/
def defaultIndentString : List Char :=
  ['\t']

/-! ## Type-guarded JSONObject operations -/

/-- whether the active variant is JSONArray -/
def JSONObject.isArray : JSONObject → Bool
  | .array _ => true
  | _ => false

/-- whether the active variant is JSONMap -/
def JSONObject.isMap : JSONObject → Bool
  | .map _ => true
  | _ => false

/-- JSONObject::append: `emplace_back` on the held array, otherwise a
type-mismatch exception -/
def JSONObject.append (v : JSONObject) (arg : JSONObject) : Except String JSONObject :=
  match v with
  | .array es => .ok (.array (es ++ [arg]))
  | _ => .error ("Cannot append. Current object is not an array")

/-- JSONObject::pop: `pop_back` on the held array, otherwise a type-mismatch
exception.  (`pop_back` on an empty vector is undefined behaviour in the
source; the model's `dropLast` stands in for it and no claim relies on that
case.) -/
def JSONObject.pop (v : JSONObject) : Except String JSONObject :=
  match v with
  | .array es => .ok (.array es.dropLast)
  | _ => .error ("Cannot pop. Current JSONObject does not hold an array")

/-- JSONObject::removeField: erase from the held map, otherwise a
type-mismatch exception -/
def JSONObject.removeField (v : JSONObject) (key : List Char) : Except String JSONObject :=
  match v with
  | .map kvs => .ok (.map (mapRemoveField kvs key))
  | _ => .error ("Removing field failed, this JSONObject is not a map")

/-- JSONObject::size: element count of the held array or map, otherwise a
type-mismatch exception -/
def JSONObject.sizeOp (v : JSONObject) : Except String ℕ :=
  match v with
  | .array es => .ok es.length
  | .map kvs => .ok kvs.length
  | _ => .error ("Current JSONObject is not an array or map, cannot call size()")

/-- JSONObject::clear: empty the held array or map, otherwise a
type-mismatch exception -/
def JSONObject.clear (v : JSONObject) : Except String JSONObject :=
  match v with
  | .array _ => .ok (.array [])
  | .map _ => .ok (.map [])
  | _ => .error ("Current JSONObject is not an array or map, cannot call clear()")

/-- JSONObject::operator[](size_t) (both overloads behave alike): bounds
check inside JSONArray::operator[], type check in JSONObject -/
def JSONObject.atIndex (v : JSONObject) (index : ℕ) : Except String JSONObject :=
  match v with
  | .array es =>
    if h : index < es.length then .ok (es.get ⟨index, h⟩)
    else .error ("JSONArray operator[] index out of range")
  | _ => .error ("Operator[] failed, this JSONObject is not an array")

/-- mutable JSONObject::operator[](const JSONString&): subscript into the
held map (default-inserting on an absent key), otherwise a type-mismatch
exception.  Returns the referenced value and the updated object. -/
def JSONObject.atKey (v : JSONObject) (key : List Char) :
    Except String (JSONObject × JSONObject) :=
  match v with
  | .map kvs =>
    let (r, kvs') := mapSubscript kvs key
    .ok (r, .map kvs')
  | _ => .error ("Operator[] failed, this JSONObject is not a map")

/-- const JSONObject::operator[](const JSONString&): `mValue.at(key)` on the
held map — `std::map::at` raises std::out_of_range on an absent key (the
message below marks that library exception) — otherwise the type-mismatch
exception -/
def JSONObject.atKeyConst (v : JSONObject) (key : List Char) : Except String JSONObject :=
  match v with
  | .map kvs =>
    match mapFind? kvs key with
    | some r => .ok r
    | none => .error ("std::out_of_range: map::at")
  | _ => .error ("Operator[] failed, this JSONObject is not a map")

/-! ## The parser -/

/-- internal::NextJsonType -/
inductive NextJsonType where
  | jsonString
  | jsonNumber
  | jsonBool
  | jsonNull
  | jsonArray
  | jsonObject
  | endOfStream
  | jsonError
deriving DecidableEq

/-- internal::detectNextType on the peeked character (`none` is end of
stream; a literal 0xFF byte would alias the EOF sentinel in the C++ switch,
a corner outside the claims and outside this model) -/
def detectNextType : Option Char → NextJsonType
  | none => .endOfStream
  | some c =>
    if c = '"' then .jsonString
    else if c = '-' || isDigitChar c then .jsonNumber
    else if c = 't' || c = 'f' then .jsonBool
    else if c = 'n' then .jsonNull
    else if c = '[' then .jsonArray
    else if c = '{' then .jsonObject
    else .jsonError

/-- the value a `char` variable keeps when `stream.get` fails at end of
stream (the variables are value-initialized to 0 before the reads) -/
def getOr0 : List Char → Char × List Char
  | [] => ('\x00', [])
  | c :: t => (c, t)

/-- the EOF sentinel as it appears inside error messages:
`static_cast<char>(std::istream::traits_type::eof())` -/
def eofChar : Char :=
  Char.ofNat 255

/-- one-character string used when splicing a character into a message -/
def charStr (c : Char) : String :=
  String.mk [c]

/-- parseString error: wrong leading character -/
def errStringExpectedQuote : String :=
  "Error while parsing string, expected '\"'"

/-- parseString error: a `\u` escape without 4 hex digits -/
def errHexEscape : String :=
  "\\u must be followed by 4 hex characters"

/-- parseString error: raw control character -/
def errUnescapedControl : String :=
  "Error while parsing string, unescaped control character"

/-- parseString error: invalid escaped character -/
def errInvalidEscape : String :=
  "Error while parsing string, invalid escaped character"

/-- parseString error: end of stream before the closing quote -/
def errStringEos : String :=
  "Error while parsing string, unexpected end of stream"

/-- parseBool error -/
def boolErrMsg (out : List Char) : String :=
  "Error while parsing bool, expected \"true\" or \"false\", got \"" ++ String.mk out ++ "\""

/-- parseNull error -/
def nullErrMsg (out : List Char) : String :=
  "Error while parsing null, expected \"null\", got \"" ++ String.mk out ++ "\""

/-- parseArray error: wrong leading character -/
def errArrayExpectedBracket (c : Char) : String :=
  "Error while parsing array, expected '[', got '" ++ charStr c ++ "'"

/-- parseArray error: comma with no element before it -/
def errUnexpectedComma : String :=
  "Unexpected comma when parsing array"

/-- parseArray error: trailing comma -/
def errTrailingCommaArray : String :=
  "Trailing comma not allowed in array"

/-- parseArray error: two elements with no comma between them -/
def errEntriesComma : String :=
  "Entries in array must be separated by a comma"

/-- parseArray error: dispatch found no production -/
def errArrayUnexpected (c : Char) : String :=
  "Error while parsing array, unexpected next character '" ++ charStr c ++ "'"

/-- parseObject error: wrong leading character -/
def errObjectExpectedBrace (c : Char) : String :=
  "Error while parsing object, expected '\x7b', got '" ++ charStr c ++ "'"

/-- parseObject error: trailing comma -/
def errTrailingCommaObject : String :=
  "Trailing comma not allowed in object"

/-- parseObject error: key is not a string -/
def errObjectExpectedQuote (c : Char) : String :=
  "Error while parsing object, expected '\"', got '" ++ charStr c ++ "'"

/-- parseObject error: missing separator -/
def errObjectExpectedColon (c : Char) : String :=
  "Error while parsing object, expected ':', got '" ++ charStr c ++ "'"

/-- parseObject (and top-level dispatch) error: no production matches -/
def errObjectUnexpected (c : Char) : String :=
  "Error while parsing object, unexpected next character '" ++ charStr c ++ "'"

/-- beginParseFromStream error: empty or whitespace-only source -/
def errEmptyFile : String :=
  "Cannot parse empty file or file containing only whitespace"

/-- beginParseFromStream error: trailing content after the value -/
def errExpectedEof (c : Char) : String :=
  "Error after reading a valid json object. Expected EOF but found '" ++ charStr c ++ "'"

/-- marker for the model-only case of exhausted recursion fuel; the entry
point supplies enough fuel for it never to arise -/
def errOutOfFuel : String :=
  "recursion fuel exhausted"

/-- loop body of internal::parseString.  State: the escape flag and the
count of outstanding `\u` hex digits.  Per character, in source order: an
outstanding hex digit is checked and counted down, an unescaped `"` closes
the string, a control character is fatal, an unescaped `\` sets the escape
flag, an escaped character must be one of the valid escapes (with `u`
requiring 4 hex digits next); every non-closing character is appended
verbatim.  End of stream before the closing quote is fatal. -/
def parseStringAux : List Char → Bool → ℕ → Except String (List Char × List Char)
  | [], _, _ => .error errStringEos
  | c :: rest, escaped, hexLeft =>
    if hexLeft > 0 && !(isHexDigit c) then
      .error errHexEscape
    else
      let hexLeft' := if hexLeft > 0 then hexLeft - 1 else hexLeft
      if c = '"' && !escaped then
        .ok ([], rest)
      else if isControlChar c then
        .error errUnescapedControl
      else if c = '\\' && !escaped then
        match parseStringAux rest true hexLeft' with
        | .error e => .error e
        | .ok (s, r) => .ok (c :: s, r)
      else if escaped then
        if !(isValidEscapedCharacter c) then
          .error errInvalidEscape
        else
          match parseStringAux rest false (if c = 'u' then 4 else hexLeft') with
          | .error e => .error e
          | .ok (s, r) => .ok (c :: s, r)
      else
        match parseStringAux rest false hexLeft' with
        | .error e => .error e
        | .ok (s, r) => .ok (c :: s, r)

/-- internal::parseString: a leading `"`, then the character loop -/
def parseString : List Char → Except String (List Char × List Char)
  | [] => .error errStringExpectedQuote
  | c :: rest => if c = '"' then parseStringAux rest false 0 else .error errStringExpectedQuote

/-- internal::parseNumber: greedily take the number alphabet, classify by
the presence of `.`/`e`/`E`, convert -/
def parseNumber (cs : List Char) : Except String (JSONNumber × List Char) :=
  let lexeme := cs.takeWhile isNumberChar
  let rest := cs.dropWhile isNumberChar
  if (lexeme.any fun c => c = '.') || (lexeme.any fun c => c = 'e' || c = 'E') then
    match strToJSONFloating lexeme with
    | .error e => .error e
    | .ok f => .ok (.floating f, rest)
  else
    match strToJSONInteger lexeme with
    | .error e => .error e
    | .ok i => .ok (.integer i, rest)

/-- internal::parseBool: four characters, `true` succeeds; on an `f` a fifth
character is read and `false` checked; anything else is fatal -/
def parseBool (cs : List Char) : Except String (Bool × List Char) :=
  let (c1, r1) := getOr0 cs
  let (c2, r2) := getOr0 r1
  let (c3, r3) := getOr0 r2
  let (c4, r4) := getOr0 r3
  let out := [c1, c2, c3, c4]
  if out = ['t', 'r', 'u', 'e'] then
    .ok (true, r4)
  else if c1 = 'f' then
    let (c5, r5) := getOr0 r4
    if out ++ [c5] = ['f', 'a', 'l', 's', 'e'] then
      .ok (false, r5)
    else
      .error (boolErrMsg (out ++ [c5]))
  else
    .error (boolErrMsg out)

/-- internal::parseNull: exactly the four characters `null` -/
def parseNull (cs : List Char) : Except String (Unit × List Char) :=
  let (c1, r1) := getOr0 cs
  let (c2, r2) := getOr0 r1
  let (c3, r3) := getOr0 r2
  let (c4, r4) := getOr0 r3
  let out := [c1, c2, c3, c4]
  if out = ['n', 'u', 'l', 'l'] then
    .ok ((), r4)
  else
    .error (nullErrMsg out)

mutual

/-- internal::parseArray: a leading `[`, then the element loop -/
def parseArray : ℕ → List Char → Except String (List JSONObject × List Char)
  | 0, _ => .error errOutOfFuel
  | fuel + 1, cs =>
    let (c, rest) := getOr0 cs
    if c = '[' then parseArrayLoop fuel rest false false []
    else .error (errArrayExpectedBracket c)

/-- loop of internal::parseArray.  Per iteration: skip whitespace; a comma
is consumed only when an element was just read; `]` closes unless it follows
a comma; otherwise an element is parsed by first-character dispatch and
appended.  The end-of-stream dispatch case leaves the stream untouched so
the following iteration reports the missing comma/element, exactly as the
source falls through its switch. -/
def parseArrayLoop (fuel : ℕ) (cs : List Char) (expectingComma lastReadWasComma : Bool)
    (acc : List JSONObject) : Except String (List JSONObject × List Char) :=
  match fuel with
  | 0 => .error errOutOfFuel
  | fuel + 1 =>
    let cs1 := skipWs cs
    match cs1 with
    | ',' :: t =>
      if expectingComma then parseArrayLoop fuel t false true acc
      else .error errUnexpectedComma
    | ']' :: t =>
      if lastReadWasComma then .error errTrailingCommaArray
      else .ok (acc, t)
    | _ =>
      if expectingComma then .error errEntriesComma
      else
        match detectNextType cs1.head? with
        | .jsonString =>
          match parseString cs1 with
          | .error e => .error e
          | .ok (s, r) => parseArrayLoop fuel r true false (acc ++ [.str s])
        | .jsonNumber =>
          match parseNumber cs1 with
          | .error e => .error e
          | .ok (n, r) => parseArrayLoop fuel r true false (acc ++ [.num n])
        | .jsonBool =>
          match parseBool cs1 with
          | .error e => .error e
          | .ok (b, r) => parseArrayLoop fuel r true false (acc ++ [.boolean b])
        | .jsonNull =>
          match parseNull cs1 with
          | .error e => .error e
          | .ok (_, r) => parseArrayLoop fuel r true false (acc ++ [.null])
        | .jsonArray =>
          match parseArray fuel cs1 with
          | .error e => .error e
          | .ok (es, r) => parseArrayLoop fuel r true false (acc ++ [.array es])
        | .jsonObject =>
          match parseObject fuel cs1 with
          | .error e => .error e
          | .ok (o, r) => parseArrayLoop fuel r true false (acc ++ [o])
        | .endOfStream => parseArrayLoop fuel cs1 true false acc
        | .jsonError => .error (errArrayUnexpected (cs1.head?.getD eofChar))

/-- internal::parseObject: a leading `\x7b`, then the member loop -/
def parseObject : ℕ → List Char → Except String (JSONObject × List Char)
  | 0, _ => .error errOutOfFuel
  | fuel + 1, cs =>
    let (c, rest) := getOr0 cs
    if c = '{' then parseObjectLoop fuel rest false []
    else .error (errObjectExpectedBrace c)

/-- loop of internal::parseObject.  Per iteration: skip whitespace; `\x7d`
closes unless it follows a comma; otherwise the key must be a string, a `:`
must follow (whitespace-tolerant), the value is parsed by dispatch and
stored with `result[key] = value` (so a repeated key is overwritten), and
the entry must be followed by `,` or `\x7d`.  The end-of-stream dispatch
case stores nothing and falls to the separator check, which then reports
the EOF sentinel. -/
def parseObjectLoop (fuel : ℕ) (cs : List Char) (lastReadWasComma : Bool)
    (acc : List (List Char × JSONObject)) : Except String (JSONObject × List Char) :=
  match fuel with
  | 0 => .error errOutOfFuel
  | fuel + 1 =>
    let cs1 := skipWs cs
    match cs1 with
    | '}' :: t =>
      if lastReadWasComma then .error errTrailingCommaObject
      else .ok (.map acc, t)
    | '"' :: _ =>
      match parseString cs1 with
      | .error e => .error e
      | .ok (key, r1) =>
        match skipWs r1 with
        | [] => .error (errObjectExpectedColon eofChar)
        | c2 :: r2 =>
          if c2 = ':' then
            let r3 := skipWs r2
            match detectNextType r3.head? with
            | .jsonString =>
              match parseString r3 with
              | .error e => .error e
              | .ok (s, r) => parseObjectContinue fuel r (mapAssign acc key (.str s))
            | .jsonNumber =>
              match parseNumber r3 with
              | .error e => .error e
              | .ok (n, r) => parseObjectContinue fuel r (mapAssign acc key (.num n))
            | .jsonBool =>
              match parseBool r3 with
              | .error e => .error e
              | .ok (b, r) => parseObjectContinue fuel r (mapAssign acc key (.boolean b))
            | .jsonNull =>
              match parseNull r3 with
              | .error e => .error e
              | .ok (_, r) => parseObjectContinue fuel r (mapAssign acc key .null)
            | .jsonArray =>
              match parseArray fuel r3 with
              | .error e => .error e
              | .ok (es, r) => parseObjectContinue fuel r (mapAssign acc key (.array es))
            | .jsonObject =>
              match parseObject fuel r3 with
              | .error e => .error e
              | .ok (o, r) => parseObjectContinue fuel r (mapAssign acc key o)
            | .endOfStream => parseObjectContinue fuel r3 acc
            | .jsonError => .error (errObjectUnexpected (r3.head?.getD eofChar))
          else .error (errObjectExpectedColon c2)
    | [] => .error (errObjectExpectedQuote eofChar)
    | c :: _ => .error (errObjectExpectedQuote c)

/-- separator handling after a member of internal::parseObject: a comma
continues the loop, `\x7d` returns the object, anything else (including the
EOF sentinel) is fatal -/
def parseObjectContinue : ℕ → List Char → List (List Char × JSONObject) →
    Except String (JSONObject × List Char)
  | 0, _, _ => .error errOutOfFuel
  | fuel + 1, cs, acc =>
    match skipWs cs with
    | [] => .error (errObjectUnexpected eofChar)
    | ',' :: t => parseObjectLoop fuel t true acc
    | '}' :: t => .ok (.map acc, t)
    | c :: _ => .error (errObjectUnexpected c)

end

/-- first-character dispatch of internal::beginParseFromStream, producing
the value and the remaining stream -/
def topDispatch (fuel : ℕ) (cs : List Char) : Except String (JSONObject × List Char) :=
  let cs1 := skipWs cs
  match detectNextType cs1.head? with
  | .jsonString =>
    match parseString cs1 with
    | .error e => .error e
    | .ok (s, r) => .ok (.str s, r)
  | .jsonNumber =>
    match parseNumber cs1 with
    | .error e => .error e
    | .ok (n, r) => .ok (.num n, r)
  | .jsonBool =>
    match parseBool cs1 with
    | .error e => .error e
    | .ok (b, r) => .ok (.boolean b, r)
  | .jsonNull =>
    match parseNull cs1 with
    | .error e => .error e
    | .ok (_, r) => .ok (.null, r)
  | .jsonArray =>
    match parseArray fuel cs1 with
    | .error e => .error e
    | .ok (es, r) => .ok (.array es, r)
  | .jsonObject => parseObject fuel cs1
  | .endOfStream => .error errEmptyFile
  | .jsonError => .error (errObjectUnexpected (cs1.head?.getD eofChar))

/-- internal::beginParseFromStream: the dispatch switch, then the
end-of-stream requirement on what remains -/
def beginParseFromStream (fuel : ℕ) (cs : List Char) : Except String JSONObject :=
  match topDispatch fuel cs with
  | .error e => .error e
  | .ok (v, rest) =>
    match skipWs rest with
    | [] => .ok v
    | c :: _ => .error (errExpectedEof c)

/-- simpleJSON::parseFromString.  The fuel is a model artefact: one unit is
spent per loop iteration or nested container, each of which consumes at
least one input character, so the linear budget below never runs out. -/
def parseFromString (s : List Char) : Except String JSONObject :=
  beginParseFromStream (4 * s.length + 4) s

/-! ## Specification-side definitions

These follow the wording of the specification and of the claims, to be
compared against the embedded source functions. -/

mutual

/-- Modelled from the spec (section 4.2 step 2 / claim C5): the string rule
for one body, stated as a grammar.  An item is either an ordinary character
(not a quote, not a backslash, not a raw control character) or a backslash
followed by one of the escape characters, where `u` additionally requires
exactly four hexadecimal digits. -/
def specValidStringBody : List Char → Bool
  | [] => true
  | c :: rest =>
    if c = '\\' then specEscapeTail rest
    else !(c = '"') && !isControlChar c && specValidStringBody rest

/-- what may follow a backslash: one of the escape characters, with `u`
requiring four hexadecimal digits -/
def specEscapeTail : List Char → Bool
  | [] => false
  | e :: rest2 =>
    if e = 'u' then specHexQuad rest2
    else isValidEscapedCharacter e && specValidStringBody rest2

/-- exactly four hexadecimal digits, then the body continues -/
def specHexQuad : List Char → Bool
  | h1 :: h2 :: h3 :: h4 :: rest3 =>
    isHexDigit h1 && isHexDigit h2 && isHexDigit h3 && isHexDigit h4 &&
      specValidStringBody rest3
  | _ => false

end

/-- generalisation of `specValidStringBody` to the in-flight states of the
parseString loop (escape flag, outstanding hex digits); a body is valid at
a state when the machine started in that state accepts it and then closes
at the quote.  The states with both the flag set and hex digits pending are
unreachable and excluded by hypothesis where this predicate is related to
the machine. -/
def specValidStringAux : List Char → Bool → ℕ → Bool
  | [], false, 0 => true
  | [], _, _ => false
  | c :: rest, escaped, hexLeft + 1 => isHexDigit c && specValidStringAux rest escaped hexLeft
  | c :: rest, true, 0 =>
    isValidEscapedCharacter c && specValidStringAux rest false (if c = 'u' then 4 else 0)
  | c :: rest, false, 0 =>
    if c = '\\' then specValidStringAux rest true 0
    else (!(c = '"') && !isControlChar c) && specValidStringAux rest false 0

/-- characters that may appear verbatim in a string (or key) without the
serializer's missing re-escaping breaking the round trip: not a quote, not
a backslash, not a control character -/
def safeChar (c : Char) : Bool :=
  !(c = '"') && !(c = '\\') && !isControlChar c

/-- strings whose raw emission parses back unchanged -/
def safeStr (s : List Char) : Bool :=
  s.all safeChar

/-- the std::map invariant on the modelled entry list: keys strictly
ascending in the std::string order -/
def keysSortedB : List (List Char × JSONObject) → Bool
  | [] => true
  | [_] => true
  | (k1, _) :: (k2, v2) :: t => strLt k1 k2 && keysSortedB ((k2, v2) :: t)

mutual

/-- value trees for which the round trip is claimed: maps carry the
std::map invariant, strings and keys contain only `safeChar` characters,
and numbers hold the integer alternative within the long long range (a
floating value is re-emitted by `%Lf` with six fixed fractional digits,
which does not preserve the value in general). -/
def Safe : JSONObject → Bool
  | .str s => safeStr s
  | .num (.integer i) => decide (llongMin ≤ i) && decide (i ≤ llongMax)
  | .num (.floating _) => false
  | .boolean _ => true
  | .null => true
  | .array es => SafeList es
  | .map kvs => keysSortedB kvs && SafeEntries kvs

/-- all elements safe -/
def SafeList : List JSONObject → Bool
  | [] => true
  | e :: t => Safe e && SafeList t

/-- all keys and values safe -/
def SafeEntries : List (List Char × JSONObject) → Bool
  | [] => true
  | (k, v) :: t => safeStr k && Safe v && SafeEntries t

end

/-- whitespace-only character lists (legal indentation units) -/
def wsOnly (s : List Char) : Bool :=
  s.all isValidWhitespace

mutual

/-- fuel sufficient for parsing the serialization of a value: one unit for
entering a container plus the needs of its member loop -/
def needFuel : JSONObject → ℕ
  | .str _ => 0
  | .num _ => 0
  | .boolean _ => 0
  | .null => 0
  | .array es => 1 + needFuelList es
  | .map kvs => 1 + needFuelEntries kvs

/-- fuel for the array loop over the remaining elements: one iteration for
the closing bracket, and per element one parsing iteration, one comma
iteration and the element's own need -/
def needFuelList : List JSONObject → ℕ
  | [] => 1
  | e :: t => 2 + needFuel e + needFuelList t

/-- fuel for the object loop over the remaining entries -/
def needFuelEntries : List (List Char × JSONObject) → ℕ
  | [] => 1
  | (_, v) :: t => 2 + needFuel v + needFuelEntries t

end

/-- no number lexeme continues into `rest`: serialized values are always
followed by a separator, a closing bracket, whitespace or the end of the
stream -/
def numStopper (rest : List Char) : Bool :=
  match rest with
  | [] => true
  | c :: _ => !isNumberChar c

/-- the sub-parser for a value succeeds on its compact serialization
followed by anything a serialized structure can put after it -/
def SubParseOkC (v : JSONObject) (fuel : ℕ) : Prop :=
  ∀ rest, numStopper rest = true →
    match v with
    | .str s => parseString (JSONObject.toString (.str s) ++ rest) = .ok (s, rest)
    | .num n => parseNumber (JSONObject.toString (.num n) ++ rest) = .ok (n, rest)
    | .boolean b => parseBool (JSONObject.toString (.boolean b) ++ rest) = .ok (b, rest)
    | .null => parseNull (JSONObject.toString .null ++ rest) = .ok ((), rest)
    | .array es => parseArray fuel (JSONObject.toString (.array es) ++ rest) = .ok (es, rest)
    | .map kvs => parseObject fuel (JSONObject.toString (.map kvs) ++ rest) = .ok (.map kvs, rest)

/-- the sub-parser for a value succeeds on its indented serialization -/
def SubParseOkI (v : JSONObject) (fuel : ℕ) (cur ind : List Char) : Prop :=
  ∀ rest, numStopper rest = true →
    match v with
    | .str s => parseString (JSONObject.toIndentedString (.str s) cur ind ++ rest) = .ok (s, rest)
    | .num n => parseNumber (JSONObject.toIndentedString (.num n) cur ind ++ rest) = .ok (n, rest)
    | .boolean b => parseBool (JSONObject.toIndentedString (.boolean b) cur ind ++ rest) = .ok (b, rest)
    | .null => parseNull (JSONObject.toIndentedString .null cur ind ++ rest) = .ok ((), rest)
    | .array es => parseArray fuel (JSONObject.toIndentedString (.array es) cur ind ++ rest) = .ok (es, rest)
    | .map kvs => parseObject fuel (JSONObject.toIndentedString (.map kvs) cur ind ++ rest) = .ok (.map kvs, rest)

/-- comma-joined concatenation, as the spec describes the container bodies -/
def commaJoin : List (List Char) → List Char
  | [] => []
  | [x] => x
  | x :: xs => x ++ ',' :: commaJoin xs

/-- the production a value's first serialized character dispatches to -/
def typeTag : JSONObject → NextJsonType
  | .str _ => .jsonString
  | .num _ => .jsonNumber
  | .boolean _ => .jsonBool
  | .null => .jsonNull
  | .array _ => .jsonArray
  | .map _ => .jsonObject

/-- the remainder of a compact array body after its first element: a comma
and the next element, repeated -/
def arrayTailString : List JSONObject → List Char
  | [] => []
  | e :: t => ',' :: JSONObject.toString e ++ arrayTailString t

/-- the remainder of a compact object body after its first entry -/
def mapTailString : List (List Char × JSONObject) → List Char
  | [] => []
  | (k, v) :: t =>
    ',' :: jsonStringToString k ++ ':' :: JSONObject.toString v ++ mapTailString t

/-- the remainder of an indented array body after its first element -/
def arrayTailIndented : List JSONObject → List Char → List Char → List Char
  | [], _, _ => []
  | e :: t, cur, ind =>
    ',' :: '\n' :: cur ++ JSONObject.toIndentedString e cur ind ++ arrayTailIndented t cur ind

/-- the remainder of an indented object body after its first entry -/
def mapTailIndented : List (List Char × JSONObject) → List Char → List Char → List Char
  | [], _, _ => []
  | (k, v) :: t, cur, ind =>
    ',' :: '\n' :: cur ++ jsonStringToString k ++ ' ' :: ':' :: ' '
      :: JSONObject.toIndentedString v cur ind ++ mapTailIndented t cur ind

/-! # Theorems -/

/-! ## Order facts about the std::string comparison -/

theorem strLt_irrefl (s : List Char) : strLt s s = false := by
  induction s with
  | nil => rfl
  | cons c t ih => simp [strLt, ih]

theorem strLt_asymm {a b : List Char} (h : strLt a b = true) : strLt b a = false := by
  induction a generalizing b with
  | nil =>
    cases b with
    | nil => simp [strLt] at h
    | cons y ys => simp [strLt]
  | cons x xs ih =>
    cases b with
    | nil => simp [strLt] at h
    | cons y ys =>
      by_cases hxy : x.toNat < y.toNat
      · simp [strLt, hxy, Nat.lt_asymm hxy, Nat.ne_of_gt hxy]
      · by_cases hyx : y.toNat < x.toNat
        · simp [strLt, hxy, hyx] at h
        · have hr : strLt xs ys = true := by simpa [strLt, hxy, hyx] using h
          simp [strLt, hxy, hyx, ih hr]

theorem strLt_ne {a b : List Char} (h : strLt a b = true) : a ≠ b := by
  intro hab
  rw [hab, strLt_irrefl] at h
  exact Bool.noConfusion h

theorem strLt_trans {a b c : List Char} (hab : strLt a b = true) (hbc : strLt b c = true) :
    strLt a c = true := by
  induction a generalizing b c with
  | nil =>
    cases c with
    | nil =>
      cases b with
      | nil => simp [strLt] at hab
      | cons y ys => simp [strLt] at hbc
    | cons z zs => simp [strLt]
  | cons x xs ih =>
    cases b with
    | nil => simp [strLt] at hab
    | cons y ys =>
      cases c with
      | nil => simp [strLt] at hbc
      | cons z zs =>
        by_cases hxy : x.toNat < y.toNat
        · by_cases hyz : y.toNat < z.toNat
          · have : x.toNat < z.toNat := Nat.lt_trans hxy hyz
            simp [strLt, this]
          · by_cases hzy : z.toNat < y.toNat
            · simp [strLt, hyz, hzy] at hbc
            · have hyzeq : y.toNat = z.toNat := Nat.le_antisymm (Nat.le_of_not_lt hzy) (Nat.le_of_not_lt hyz)
              have : x.toNat < z.toNat := hyzeq ▸ hxy
              simp [strLt, this]
        · by_cases hyx : y.toNat < x.toNat
          · simp [strLt, hxy, hyx] at hab
          · have hxyeq : x.toNat = y.toNat := Nat.le_antisymm (Nat.le_of_not_lt hyx) (Nat.le_of_not_lt hxy)
            have hab' : strLt xs ys = true := by simpa [strLt, hxy, hyx] using hab
            by_cases hyz : y.toNat < z.toNat
            · have : x.toNat < z.toNat := hxyeq ▸ hyz
              simp [strLt, this]
            · by_cases hzy : z.toNat < y.toNat
              · simp [strLt, hyz, hzy] at hbc
              · have hbc' : strLt ys zs = true := by simpa [strLt, hyz, hzy] using hbc
                have hyzeq : y.toNat = z.toNat := Nat.le_antisymm (Nat.le_of_not_lt hzy) (Nat.le_of_not_lt hyz)
                have hxz : ¬ x.toNat < z.toNat := by omega
                have hzx : ¬ z.toNat < x.toNat := by omega
                simp [strLt, hxz, hzx, ih hab' hbc']

/-! ## Claim C4: type guards on the aggregate operations -/

/-- C4: on a JSONObject whose active variant is not an array, append, pop
and indexed access (both overloads behave alike) fail with the
type-mismatch error; on one not holding a map, keyed access (mutable and
const) and removeField fail; and on one holding neither, size and clear
fail. -/
theorem claim_C4_guards :
    (∀ v arg i, v.isArray = false →
      JSONObject.append v arg = .error ("Cannot append. Current object is not an array") ∧
      JSONObject.pop v = .error ("Cannot pop. Current JSONObject does not hold an array") ∧
      JSONObject.atIndex v i = .error ("Operator[] failed, this JSONObject is not an array")) ∧
    (∀ v key, v.isMap = false →
      JSONObject.atKey v key = .error ("Operator[] failed, this JSONObject is not a map") ∧
      JSONObject.atKeyConst v key = .error ("Operator[] failed, this JSONObject is not a map") ∧
      JSONObject.removeField v key = .error ("Removing field failed, this JSONObject is not a map")) ∧
    (∀ v, v.isArray = false → v.isMap = false →
      JSONObject.sizeOp v = .error ("Current JSONObject is not an array or map, cannot call size()") ∧
      JSONObject.clear v = .error ("Current JSONObject is not an array or map, cannot call clear()")) := by
  refine ⟨?_, ?_, ?_⟩
  · intro v arg i h
    cases v <;> simp [JSONObject.isArray] at h <;>
      simp [JSONObject.append, JSONObject.pop, JSONObject.atIndex]
  · intro v key h
    cases v <;> simp [JSONObject.isMap] at h <;>
      simp [JSONObject.atKey, JSONObject.atKeyConst, JSONObject.removeField]
  · intro v h1 h2
    cases v <;> simp [JSONObject.isArray] at h1 <;> simp [JSONObject.isMap] at h2 <;>
      simp [JSONObject.sizeOp, JSONObject.clear]

/-- C4 witness: the guards fire on a string-holding value -/
theorem claim_C4_guards_witness :
    JSONObject.append (.str ['x']) .null = .error ("Cannot append. Current object is not an array") ∧
    JSONObject.atKey (.str ['x']) ['k'] = .error ("Operator[] failed, this JSONObject is not a map") ∧
    JSONObject.sizeOp (.str ['x']) = .error ("Current JSONObject is not an array or map, cannot call size()") :=
  ⟨(claim_C4_guards.1 (.str ['x']) .null 0 rfl).1,
   (claim_C4_guards.2.1 (.str ['x']) ['k'] rfl).1,
   (claim_C4_guards.2.2 (.str ['x']) rfl rfl).1⟩

/-! ## Claim C9: auto-vivification of absent keys -/

theorem mapFind?_mapInsert_absent {m : List (List Char × JSONObject)} {k : List Char}
    (h : mapFind? m k = none) (v : JSONObject) :
    mapFind? (mapInsert m k v) k = some v := by
  induction m with
  | nil => simp [mapInsert, mapFind?]
  | cons kv t ih =>
    obtain ⟨k', v'⟩ := kv
    by_cases hk : k' = k
    · simp [mapFind?, hk] at h
    · have h' : mapFind? t k = none := by simpa [mapFind?, hk] using h
      by_cases hlt : strLt k k' = true
      · simp [mapInsert, hlt, mapFind?]
      · simp [mapInsert, hlt, hk, mapFind?, ih h']

/-- C9: on a map-holding JSONObject, mutable subscript access with an
absent key creates the entry bound to a default-constructed JSONObject
(which is an empty map, i.e. an empty Object), returning that value; const
subscript access with the same absent key fails (std::map::at) and creates
nothing. -/
theorem claim_C9_autovivify :
    ∀ kvs key, mapFind? kvs key = none →
      JSONObject.atKey (.map kvs) key =
        .ok (JSONObject.default, .map (mapInsert kvs key JSONObject.default)) ∧
      JSONObject.default = .map [] ∧
      mapFind? (mapInsert kvs key JSONObject.default) key = some JSONObject.default ∧
      JSONObject.atKeyConst (.map kvs) key = .error ("std::out_of_range: map::at") := by
  intro kvs key h
  refine ⟨?_, rfl, mapFind?_mapInsert_absent h _, ?_⟩
  · simp [JSONObject.atKey, mapSubscript, h]
  · simp [JSONObject.atKeyConst, h]

/-- C9 witness: subscripting the singleton map \x7b"a": null\x7d with the
absent key "b" -/
theorem claim_C9_autovivify_witness :
    JSONObject.atKey (.map [(['a'], .null)]) ['b'] =
      .ok (JSONObject.default, .map (mapInsert [(['a'], .null)] ['b'] JSONObject.default)) ∧
    JSONObject.atKeyConst (.map [(['a'], .null)]) ['b'] = .error ("std::out_of_range: map::at") :=
  ⟨(claim_C9_autovivify [(['a'], .null)] ['b'] rfl).1,
   (claim_C9_autovivify [(['a'], .null)] ['b'] rfl).2.2.2⟩

/-! ## Claim C2: cross-kind number comparisons -/

/-- C2 counterexample: at i = 1, f = 1.0 the claimed law
`Number(i) == Number(f) iff (float)i == f` fails: the widened operands are
equal, but operator== compares the variant alternatives and returns false
for mixed kinds. -/
theorem claim_C2_counterexample :
    ¬ (JSONNumber.eq (.integer 1) (.floating (.finite 1)) = true ↔ widen 1 = JSONFloating.finite 1) := by
  decide

/-- C2 amended: for mixed-representation operands, strict `<` behaves as if
the integer operand were widened to floating point (in both orders), but
`==` is constantly false and `!=` constantly true, so `<=` coincides with
the widened `<`, and `>`/`>=` coincide with the negation of the widened `<`
(the widened `≥`), rather than each operator following the widening rule. -/
theorem claim_C2_amended :
    ∀ (i : JSONInteger) (f : JSONFloating),
      (JSONNumber.lt (.integer i) (.floating f) = JSONFloating.lt (widen i) f) ∧
      (JSONNumber.lt (.floating f) (.integer i) = JSONFloating.lt f (widen i)) ∧
      (JSONNumber.eq (.integer i) (.floating f) = false) ∧
      (JSONNumber.eq (.floating f) (.integer i) = false) ∧
      (JSONNumber.ne (.integer i) (.floating f) = true) ∧
      (JSONNumber.ne (.floating f) (.integer i) = true) ∧
      (JSONNumber.le (.integer i) (.floating f) = JSONFloating.lt (widen i) f) ∧
      (JSONNumber.le (.floating f) (.integer i) = JSONFloating.lt f (widen i)) ∧
      (JSONNumber.gt (.integer i) (.floating f) = !(JSONFloating.lt (widen i) f)) ∧
      (JSONNumber.gt (.floating f) (.integer i) = !(JSONFloating.lt f (widen i))) ∧
      (JSONNumber.ge (.integer i) (.floating f) = !(JSONFloating.lt (widen i) f)) ∧
      (JSONNumber.ge (.floating f) (.integer i) = !(JSONFloating.lt f (widen i))) := by
  intro i f
  simp [JSONNumber.lt, JSONNumber.eq, JSONNumber.ne, JSONNumber.le, JSONNumber.gt, JSONNumber.ge]

/-! ## Claim C3: duplicate keys -/

theorem keysSortedB_cons {k' : List Char} {v' : JSONObject}
    {t : List (List Char × JSONObject)} (h : keysSortedB ((k', v') :: t) = true) :
    keysSortedB t = true ∧ ∀ kv ∈ t, strLt k' kv.1 = true := by
  induction t generalizing k' v' with
  | nil => exact ⟨rfl, by simp⟩
  | cons kv2 t2 ih =>
    obtain ⟨k2, v2⟩ := kv2
    have h1 : strLt k' k2 = true := by
      have := h
      simp [keysSortedB] at this
      exact this.1
    have h2 : keysSortedB ((k2, v2) :: t2) = true := by
      have := h
      simp [keysSortedB] at this
      exact this.2
    refine ⟨h2, ?_⟩
    intro kv hkv
    rcases List.mem_cons.mp hkv with hkv | hkv
    · rw [hkv]
      exact h1
    · exact strLt_trans h1 ((ih h2).2 kv hkv)

theorem mapFind?_eq_none_of_all_lt {m : List (List Char × JSONObject)} {k : List Char}
    (h : ∀ kv ∈ m, strLt k kv.1 = true) : mapFind? m k = none := by
  induction m with
  | nil => rfl
  | cons kv t ih =>
    obtain ⟨k', v'⟩ := kv
    have hne : k' ≠ k := fun he => strLt_ne (h (k', v') (by simp)) he.symm
    simp [mapFind?, hne]
    exact ih fun kv hkv => h kv (List.mem_cons_of_mem _ hkv)

theorem mapAssign_length {m : List (List Char × JSONObject)} (hs : keysSortedB m = true)
    (k : List Char) (v : JSONObject) :
    (mapAssign m k v).length = if (mapFind? m k).isSome then m.length else m.length + 1 := by
  induction m with
  | nil => simp [mapAssign, mapFind?]
  | cons kv t ih =>
    obtain ⟨k', v'⟩ := kv
    obtain ⟨hst, hall⟩ := keysSortedB_cons hs
    by_cases hlt : strLt k k' = true
    · have hnone : mapFind? ((k', v') :: t) k = none := by
        refine mapFind?_eq_none_of_all_lt ?_
        intro kv hkv
        rcases List.mem_cons.mp hkv with hkv | hkv
        · rw [hkv]
          exact hlt
        · exact strLt_trans hlt (hall kv hkv)
      simp [mapAssign, hlt, hnone]
    · by_cases heq : k' = k
      · simp [mapAssign, hlt, heq, mapFind?, strLt_irrefl]
      · have hfind : mapFind? ((k', v') :: t) k = mapFind? t k := by simp [mapFind?, heq]
        simp only [mapAssign, if_neg hlt, if_neg heq, List.length_cons, hfind, ih hst]
        split <;> rfl

/-- C3 counterexample: the initializer-list Object literal
`\x7b\x7b"a", 1\x7d, \x7b"a", 2\x7d\x7d` retains the FIRST value for the
repeated key, not the last: `std::map` range construction inserts each pair
and `insert` is a no-op on a present key. -/
theorem claim_C3_counterexample :
    mapFind? (JSONMap.ofList [(['a'], .num (.integer 1)), (['a'], .num (.integer 2))]) ['a'] =
      some (.num (.integer 1)) ∧
    JSONNumber.integer 1 ≠ JSONNumber.integer 2 := by
  constructor
  · rfl
  · decide

/-- C3 amended: constructing an Object from an initializer list with a
repeated key retains the FIRST value written for that key (std::map
insertion does not overwrite), while parsing JSON text with a duplicate key
in one object retains the LAST value (the parser stores through
`result[key] = value`, which overwrites); in both cases each distinct key
is counted exactly once by size(): the literal yields one entry, and the
parser's store grows the entry count only when the key is new. -/
theorem claim_C3_amended :
    (∀ k v1 v2, JSONMap.ofList [(k, v1), (k, v2)] = [(k, v1)]) ∧
    (∀ m k v, keysSortedB m = true →
      (mapAssign m k v).length = if (mapFind? m k).isSome then m.length else m.length + 1) ∧
    (parseFromString "\x7b\"a\":1,\"a\":2\x7d".data = .ok (.map [(['a'], .num (.integer 2))])) := by
  refine ⟨?_, ?_, ?_⟩
  · intro k v1 v2
    simp [JSONMap.ofList, mapInsert, strLt_irrefl]
  · intro m k v hs
    exact mapAssign_length hs k v
  · rfl

/-- C3 amended witness: last write wins through the parser on
`\x7b"a":1,"a":2\x7d`, and the slot count after an overwriting store on the
sorted singleton produced by the first write stays one -/
theorem claim_C3_amended_witness :
    (mapAssign [(['a'], JSONObject.num (.integer 1))] ['a'] (.num (.integer 2))).length = 1 :=
  (claim_C3_amended.2.1 [(['a'], JSONObject.num (.integer 1))] ['a'] (.num (.integer 2)) rfl).trans
    (by rfl)

/-! ## Claim C8: compact container serialization -/

theorem dropLast_append_single (l : List Char) (a : Char) : (l ++ [a]).dropLast = l := by
  simp

theorem arrayBody_commaJoin (e : JSONObject) (es : List JSONObject) :
    JSONObject.arrayBodyString (e :: es) = commaJoin ((e :: es).map JSONObject.toString) ++ [','] := by
  induction es generalizing e with
  | nil => simp [JSONObject.arrayBodyString, commaJoin]
  | cons e2 t ih =>
    show JSONObject.toString e ++ ',' :: JSONObject.arrayBodyString (e2 :: t) =
      commaJoin (JSONObject.toString e :: (e2 :: t).map JSONObject.toString) ++ [',']
    rw [ih e2]
    simp [commaJoin]

theorem mapBody_commaJoin (kv : List Char × JSONObject) (kvs : List (List Char × JSONObject)) :
    JSONObject.mapBodyString (kv :: kvs) =
      commaJoin ((kv :: kvs).map fun p => jsonStringToString p.1 ++ ':' :: JSONObject.toString p.2)
        ++ [','] := by
  induction kvs generalizing kv with
  | nil => simp [JSONObject.mapBodyString, commaJoin]
  | cons kv2 t ih =>
    obtain ⟨k, v⟩ := kv
    show jsonStringToString k ++ ':' :: JSONObject.toString v
        ++ ',' :: JSONObject.mapBodyString (kv2 :: t) =
      commaJoin ((jsonStringToString k ++ ':' :: JSONObject.toString v) ::
        (kv2 :: t).map fun p => jsonStringToString p.1 ++ ':' :: JSONObject.toString p.2) ++ [',']
    rw [ih kv2]
    simp [commaJoin]

/-- C8: the compact form of an array is `[` plus the comma-joined compact
forms of its elements in order plus `]`, and exactly `[]` when empty; the
compact form of an object is `\x7b` plus comma-joined `key:value` pairs in
the stored — i.e. ascending — key order plus `\x7d`, and exactly
`\x7b\x7d` when empty; empty containers also serialize to exactly
`[]`/`\x7b\x7d` in indented mode, and `[]`/`\x7b\x7d` parse back to the
size-0 containers. -/
theorem claim_C8_compactContainers :
    (JSONObject.toString (.array []) = "[]".data) ∧
    (∀ es, es ≠ [] → JSONObject.toString (.array es) =
      '[' :: commaJoin (es.map JSONObject.toString) ++ [']']) ∧
    (JSONObject.toString (.map []) = "\x7b\x7d".data) ∧
    (∀ kvs, kvs ≠ [] → keysSortedB kvs = true → JSONObject.toString (.map kvs) =
      '{' :: commaJoin (kvs.map fun p => jsonStringToString p.1 ++ ':' :: JSONObject.toString p.2)
        ++ ['}']) ∧
    (∀ cur ind, JSONObject.toIndentedString (.array []) cur ind = "[]".data) ∧
    (∀ cur ind, JSONObject.toIndentedString (.map []) cur ind = "\x7b\x7d".data) ∧
    (parseFromString "[]".data = .ok (.array [])) ∧
    (parseFromString "\x7b\x7d".data = .ok (.map [])) ∧
    (JSONObject.sizeOp (.array []) = .ok 0) ∧
    (JSONObject.sizeOp (.map []) = .ok 0) := by
  refine ⟨rfl, ?_, rfl, ?_, fun _ _ => rfl, fun _ _ => rfl, rfl, rfl, rfl, rfl⟩
  · intro es h
    match es with
    | e :: t =>
      show ('[' :: JSONObject.arrayBodyString (e :: t)).dropLast ++ [']'] = _
      rw [arrayBody_commaJoin]
      rw [show ('[' :: (commaJoin ((e :: t).map JSONObject.toString) ++ [','])) =
        ('[' :: commaJoin ((e :: t).map JSONObject.toString)) ++ [','] by simp]
      rw [dropLast_append_single]
  · intro kvs h _
    match kvs with
    | kv :: t =>
      show ('{' :: JSONObject.mapBodyString (kv :: t)).dropLast ++ ['}'] = _
      rw [mapBody_commaJoin]
      rw [show ('{' :: (commaJoin ((kv :: t).map fun p =>
            jsonStringToString p.1 ++ ':' :: JSONObject.toString p.2) ++ [','])) =
        ('{' :: commaJoin ((kv :: t).map fun p =>
            jsonStringToString p.1 ++ ':' :: JSONObject.toString p.2)) ++ [','] by simp]
      rw [dropLast_append_single]

/-- C8 witness: a one-element array and a sorted two-entry object -/
theorem claim_C8_compactContainers_witness :
    JSONObject.toString (.array [.null]) = '[' :: commaJoin [JSONObject.toString .null] ++ [']'] ∧
    JSONObject.toString (.map [(['a'], .null), (['b'], .boolean true)]) =
      '{' :: commaJoin ([(['a'], JSONObject.null), (['b'], JSONObject.boolean true)].map
        fun p => jsonStringToString p.1 ++ ':' :: JSONObject.toString p.2) ++ ['}'] := by
  constructor
  · exact (claim_C8_compactContainers.2.1 [.null] (by simp)).trans (by simp)
  · exact (claim_C8_compactContainers.2.2.2.1 [(['a'], .null), (['b'], .boolean true)]
      (by simp) (by rfl)).trans (by simp)


/-! ## Claim C5: the accepted string language -/

theorem isHexDigit_toNat {c : Char} (h : isHexDigit c = true) :
    ((48 ≤ c.toNat ∧ c.toNat ≤ 57) ∨ (97 ≤ c.toNat ∧ c.toNat ≤ 102)) ∨
      (65 ≤ c.toNat ∧ c.toNat ≤ 70) := by
  simpa [isHexDigit] using h

theorem isHexDigit_props {c : Char} (h : isHexDigit c = true) :
    c ≠ '"' ∧ c ≠ '\\' ∧ isControlChar c = false := by
  have hb := isHexDigit_toNat h
  refine ⟨?_, ?_, ?_⟩
  · intro heq
    have h34 : c.toNat = 34 := by subst heq; rfl
    rcases hb with (⟨h1, h2⟩ | ⟨h1, h2⟩) | ⟨h1, h2⟩ <;> omega
  · intro heq
    have h92 : c.toNat = 92 := by subst heq; rfl
    rcases hb with (⟨h1, h2⟩ | ⟨h1, h2⟩) | ⟨h1, h2⟩ <;> omega
  · have hn : ¬ c.toNat ≤ 31 := by
      rcases hb with (⟨h1, h2⟩ | ⟨h1, h2⟩) | ⟨h1, h2⟩ <;> omega
    simpa [isControlChar] using hn

theorem escape_toNat {c : Char} (h : isValidEscapedCharacter c = true) : 34 ≤ c.toNat := by
  simp [isValidEscapedCharacter] at h
  rcases h with ((((((((h | h) | h) | h) | h) | h) | h) | h) | h) <;> subst h
  · exact le_refl _
  · have : ('/').toNat = 47 := rfl
    omega
  · have : ('\\').toNat = 92 := rfl
    omega
  · have : ('b').toNat = 98 := rfl
    omega
  · have : ('f').toNat = 102 := rfl
    omega
  · have : ('n').toNat = 110 := rfl
    omega
  · have : ('r').toNat = 114 := rfl
    omega
  · have : ('t').toNat = 116 := rfl
    omega
  · have : ('u').toNat = 117 := rfl
    omega

theorem ctrl_not_escape {c : Char} (h : isControlChar c = true) :
    isValidEscapedCharacter c = false := by
  cases hb : isValidEscapedCharacter c
  · rfl
  · have h1 := escape_toNat hb
    have h2 : c.toNat ≤ 31 := by simpa [isControlChar] using h
    omega

theorem ctrl_not_backslash {c : Char} (h : isControlChar c = true) : c ≠ '\\' := by
  intro heq
  have h92 : c.toNat = 92 := by subst heq; rfl
  have h2 : c.toNat ≤ 31 := by simpa [isControlChar] using h
  omega

theorem prepend_ok_iff {x : Except String (List Char × List Char)} {c : Char}
    {body rest : List Char} :
    (match x with
     | .error e => (.error e : Except String (List Char × List Char))
     | .ok (s, r) => .ok (c :: s, r)) = .ok (body, rest) ↔
      ∃ s, x = .ok (s, rest) ∧ body = c :: s := by
  cases x with
  | error e => simp
  | ok sr =>
    obtain ⟨s, r⟩ := sr
    constructor
    · intro h
      have h' : c :: s = body ∧ r = rest := by
        simpa only [Except.ok.injEq, Prod.mk.injEq] using h
      refine ⟨s, ?_, h'.1.symm⟩
      rw [h'.2]
    · rintro ⟨s', hs', hb⟩
      have h' : s = s' ∧ r = rest := by
        simpa only [Except.ok.injEq, Prod.mk.injEq] using hs'
      simp [hb, h'.1, h'.2]
theorem parseStringAux_ok_iff :
    ∀ (cs : List Char) (escaped : Bool) (hexLeft : ℕ) (body rest : List Char),
      (escaped = false ∨ hexLeft = 0) →
      (parseStringAux cs escaped hexLeft = .ok (body, rest) ↔
        (cs = body ++ '"' :: rest ∧ specValidStringAux body escaped hexLeft = true)) := by
  intro cs
  induction cs with
  | nil =>
    intro escaped hexLeft body rest _
    constructor
    · intro h
      simp [parseStringAux] at h
    · rintro ⟨h, _⟩
      exact absurd h (by cases body <;> simp)
  | cons c cs' ih =>
    intro escaped hexLeft body rest hstate
    cases hexLeft with
    | succ hx =>
      have hesc : escaped = false := by
        rcases hstate with h | h
        · exact h
        · exact absurd h (by omega)
      subst hesc
      by_cases hhex : isHexDigit c = true
      · obtain ⟨hq, hbs, hctrl⟩ := isHexDigit_props hhex
        have hmach : parseStringAux (c :: cs') false (hx + 1) =
            (match parseStringAux cs' false hx with
             | .error e => .error e
             | .ok (s, r) => .ok (c :: s, r)) := by
          simp [parseStringAux, hhex, hq, hctrl, hbs]
        rw [hmach, prepend_ok_iff]
        cases body with
        | nil =>
          constructor
          · rintro ⟨s, _, hb⟩
            exact absurd hb (by simp)
          · rintro ⟨_, hval⟩
            exact absurd hval (by simp [specValidStringAux])
        | cons b body' =>
          constructor
          · rintro ⟨s, hs, hb⟩
            injection hb with hb1 hb2
            subst hb1
            subst hb2
            obtain ⟨hd, hv⟩ := (ih false hx body' rest (Or.inl rfl)).mp hs
            exact ⟨by simp [hd], by simp [specValidStringAux, hhex, hv]⟩
          · rintro ⟨hdec, hval⟩
            injection hdec with h1 h2
            subst h1
            have hval' : specValidStringAux body' false hx = true := by
              simp only [specValidStringAux, hhex, Bool.true_and] at hval
              exact hval
            exact ⟨body', (ih false hx body' rest (Or.inl rfl)).mpr ⟨h2, hval'⟩, rfl⟩
      · have hmach : parseStringAux (c :: cs') false (hx + 1) = .error errHexEscape := by
          simp [parseStringAux, hhex]
        rw [hmach]
        constructor
        · intro h
          exact absurd h (by simp)
        · rintro ⟨hdec, hval⟩
          exfalso
          cases body with
          | nil => simp [specValidStringAux] at hval
          | cons b body' =>
            injection hdec with h1 h2
            subst h1
            simp [specValidStringAux, hhex] at hval
    | zero =>
      cases escaped with
      | true =>
        by_cases hctrl : isControlChar c = true
        · have hmach : parseStringAux (c :: cs') true 0 = .error errUnescapedControl := by
            simp [parseStringAux, hctrl]
          rw [hmach]
          constructor
          · intro h
            exact absurd h (by simp)
          · rintro ⟨hdec, hval⟩
            exfalso
            cases body with
            | nil => simp [specValidStringAux] at hval
            | cons b body' =>
              injection hdec with h1 h2
              subst h1
              simp [specValidStringAux, ctrl_not_escape hctrl] at hval
        · by_cases hvalid : isValidEscapedCharacter c = true
          · have hmach : parseStringAux (c :: cs') true 0 =
                (match parseStringAux cs' false (if c = 'u' then 4 else 0) with
                 | .error e => .error e
                 | .ok (s, r) => .ok (c :: s, r)) := by
              simp [parseStringAux, hctrl, hvalid]
            rw [hmach, prepend_ok_iff]
            cases body with
            | nil =>
              constructor
              · rintro ⟨s, _, hb⟩
                exact absurd hb (by simp)
              · rintro ⟨_, hval⟩
                exact absurd hval (by simp [specValidStringAux])
            | cons b body' =>
              constructor
              · rintro ⟨s, hs, hb⟩
                injection hb with hb1 hb2
                subst hb2
                obtain ⟨hd, hv⟩ := (ih false (if c = 'u' then 4 else 0) body' rest (Or.inl rfl)).mp hs
                exact ⟨by simp [hb1, hd], by simp [hb1, specValidStringAux, hvalid, hv]⟩
              · rintro ⟨hdec, hval⟩
                injection hdec with h1 h2
                subst h1
                have hval' : specValidStringAux body' false (if c = 'u' then 4 else 0) = true := by
                  simp only [specValidStringAux, hvalid, Bool.true_and] at hval
                  exact hval
                exact ⟨body',
                  (ih false (if c = 'u' then 4 else 0) body' rest (Or.inl rfl)).mpr ⟨h2, hval'⟩, rfl⟩
          · have hmach : parseStringAux (c :: cs') true 0 = .error errInvalidEscape := by
              simp [parseStringAux, hctrl, hvalid]
            rw [hmach]
            constructor
            · intro h
              exact absurd h (by simp)
            · rintro ⟨hdec, hval⟩
              exfalso
              cases body with
              | nil => simp [specValidStringAux] at hval
              | cons b body' =>
                injection hdec with h1 h2
                subst h1
                simp [specValidStringAux, hvalid] at hval
      | false =>
        by_cases hq : c = '"'
        · subst hq
          have hmach : parseStringAux ('"' :: cs') false 0 = .ok ([], cs') := by
            simp [parseStringAux]
          rw [hmach]
          cases body with
          | nil =>
            constructor
            · intro h
              have h' : ([] : List Char) = [] ∧ cs' = rest := by
                simpa only [Except.ok.injEq, Prod.mk.injEq] using h
              exact ⟨by simp [h'.2], by simp [specValidStringAux]⟩
            · rintro ⟨hdec, _⟩
              injection hdec with _ h2
              rw [h2]
          | cons b body' =>
            constructor
            · intro h
              have h' : ([] : List Char) = b :: body' ∧ cs' = rest := by
                simpa only [Except.ok.injEq, Prod.mk.injEq] using h
              exact absurd h'.1 (by simp)
            · rintro ⟨hdec, hval⟩
              injection hdec with h1 h2
              subst h1
              exact absurd hval (by simp [specValidStringAux])
        · by_cases hctrl : isControlChar c = true
          · have hmach : parseStringAux (c :: cs') false 0 = .error errUnescapedControl := by
              simp [parseStringAux, hq, hctrl]
            rw [hmach]
            constructor
            · intro h
              exact absurd h (by simp)
            · rintro ⟨hdec, hval⟩
              exfalso
              cases body with
              | nil =>
                injection hdec with h1 _
                exact hq h1
              | cons b body' =>
                injection hdec with h1 h2
                subst h1
                simp [specValidStringAux, ctrl_not_backslash hctrl, hctrl] at hval
          · by_cases hbs : c = '\\'
            · subst hbs
              have hmach : parseStringAux ('\\' :: cs') false 0 =
                  (match parseStringAux cs' true 0 with
                   | .error e => .error e
                   | .ok (s, r) => .ok ('\\' :: s, r)) := by
                simp [parseStringAux, hctrl]
              rw [hmach, prepend_ok_iff]
              cases body with
              | nil =>
                constructor
                · rintro ⟨s, _, hb⟩
                  exact absurd hb (by simp)
                · rintro ⟨hdec, _⟩
                  injection hdec with h1 _
                  exact absurd h1 hq
              | cons b body' =>
                constructor
                · rintro ⟨s, hs, hb⟩
                  injection hb with hb1 hb2
                  subst hb1
                  subst hb2
                  obtain ⟨hd, hv⟩ := (ih true 0 body' rest (Or.inr rfl)).mp hs
                  exact ⟨by simp [hd], by simp [specValidStringAux, hv]⟩
                · rintro ⟨hdec, hval⟩
                  injection hdec with h1 h2
                  subst h1
                  have hval' : specValidStringAux body' true 0 = true := by
                    simp only [specValidStringAux, if_pos rfl] at hval
                    exact hval
                  exact ⟨body', (ih true 0 body' rest (Or.inr rfl)).mpr ⟨h2, hval'⟩, rfl⟩
            · have hmach : parseStringAux (c :: cs') false 0 =
                  (match parseStringAux cs' false 0 with
                   | .error e => .error e
                   | .ok (s, r) => .ok (c :: s, r)) := by
                simp [parseStringAux, hq, hctrl, hbs]
              rw [hmach, prepend_ok_iff]
              cases body with
              | nil =>
                constructor
                · rintro ⟨s, _, hb⟩
                  exact absurd hb (by simp)
                · rintro ⟨hdec, _⟩
                  injection hdec with h1 _
                  exact absurd h1 hq
              | cons b body' =>
                constructor
                · rintro ⟨s, hs, hb⟩
                  injection hb with hb1 hb2
                  subst hb1
                  subst hb2
                  obtain ⟨hd, hv⟩ := (ih false 0 body' rest (Or.inl rfl)).mp hs
                  exact ⟨by simp [hd], by simp [specValidStringAux, hq, hctrl, hbs, hv]⟩
                · rintro ⟨hdec, hval⟩
                  injection hdec with h1 h2
                  subst h1
                  have hval' : specValidStringAux body' false 0 = true := by
                    simp only [specValidStringAux, if_neg hbs, Bool.and_eq_true,
                      Bool.not_eq_true', decide_eq_false_iff_not] at hval
                    exact hval.2
                  exact ⟨body', (ih false 0 body' rest (Or.inl rfl)).mpr ⟨h2, hval'⟩, rfl⟩

theorem specBody_eq_aux : ∀ (n : ℕ) (body : List Char), body.length ≤ n →
    specValidStringBody body = specValidStringAux body false 0 := by
  intro n
  induction n with
  | zero =>
    intro body hlen
    have hb : body = [] := List.eq_nil_of_length_eq_zero (by omega)
    subst hb
    rfl
  | succ n ih =>
    intro body hlen
    cases body with
    | nil => rfl
    | cons c rest =>
      by_cases hbs : c = '\\'
      · subst hbs
        rw [specValidStringBody]
        cases rest with
        | nil => simp [specEscapeTail, specValidStringAux]
        | cons c2 rest' =>
          by_cases hu : c2 = 'u'
          · subst hu
            have hue : isValidEscapedCharacter 'u' = true := rfl
            match rest' with
            | [] => simp [specEscapeTail, specHexQuad, specValidStringAux, hue]
            | [h1] => simp [specEscapeTail, specHexQuad, specValidStringAux, hue]
            | [h1, h2] => simp [specEscapeTail, specHexQuad, specValidStringAux, hue]
            | [h1, h2, h3] => simp [specEscapeTail, specHexQuad, specValidStringAux, hue]
            | h1 :: h2 :: h3 :: h4 :: rest'' =>
              have hrec := ih rest'' (by simp at hlen; omega)
              simp [specEscapeTail, specHexQuad, specValidStringAux, hrec, hue, Bool.and_assoc]
          · have hrec := ih rest' (by simp at hlen; omega)
            simp [specEscapeTail, specValidStringAux, hu, hrec]
      · have hrec := ih rest (by simp at hlen; omega)
        rw [specValidStringBody]
        simp [specValidStringAux, hbs, hrec]

theorem specValidStringBody_eq (body : List Char) :
    specValidStringBody body = specValidStringAux body false 0 :=
  specBody_eq_aux body.length body le_rfl

/-- C5: parseString accepts exactly the string rule language: after the
opening quote it succeeds precisely on a body deriving from the grammar of
`specValidStringBody` — every backslash is followed by one of the escape
characters `" \ / b f n r t u`, every `\u` by exactly 4 hexadecimal
digits, no unescaped raw control character (code points 0-31) appears —
followed by the closing quote, returning that body and the remaining
stream; an input not opening with a quote is rejected, end of stream
before the closing quote is rejected (no decomposition with a closing
quote exists), and the spec's example `"bad\xescape"` fails with the
invalid-escape error. -/
theorem claim_C5_stringLanguage :
    (∀ cs body rest, parseString ('"' :: cs) = .ok (body, rest) ↔
        (cs = body ++ '"' :: rest ∧ specValidStringBody body = true)) ∧
    (∀ c cs, c ≠ '"' → parseString (c :: cs) = .error errStringExpectedQuote) ∧
    (parseString [] = .error errStringExpectedQuote) ∧
    (parseFromString "\"bad\\xescape\"".data = .error errInvalidEscape) := by
  refine ⟨?_, ?_, rfl, rfl⟩
  · intro cs body rest
    have h := parseStringAux_ok_iff cs false 0 body rest (Or.inl rfl)
    rw [specValidStringBody_eq]
    simpa [parseString] using h
  · intro c cs hc
    simp [parseString, hc]

/-- C5 witness: a plain two-character string parses (and the grammar side
agrees), and a non-quote opening character is rejected -/
theorem claim_C5_stringLanguage_witness :
    parseString ('a' :: []) = .error errStringExpectedQuote ∧
    (parseString ('"' :: 'a' :: 'b' :: '"' :: 'z' :: []) = .ok (['a', 'b'], ['z']) ↔
      (['a', 'b', '"', 'z'] = ['a', 'b'] ++ '"' :: ['z'] ∧
        specValidStringBody ['a', 'b'] = true)) := by
  constructor
  · exact claim_C5_stringLanguage.2.1 'a' [] (by decide)
  · exact claim_C5_stringLanguage.1 ['a', 'b', '"', 'z'] ['a', 'b'] ['z']

/-! ## Claim C6: the number lexical rules -/

/-- C6: the two converters reject exactly the named invalid lexemes, in
source order — a floating lexeme ending in `.`; the first `e`/`E`
immediately after the first `.`; a `.` with no preceding digit (also after
a leading `-`); an integer lexeme with a leading zero (`0` or `-0` followed
by more characters) — and otherwise reduce to the strict whole-string
conversion, which fails exactly when the conversion leaves characters of
the lexeme unconsumed; the spec's top-level input `01` fails with the
leading-zero error. -/
theorem claim_C6_numberLexicalRules :
    (∀ s, s.getLast? = some '.' → strToJSONFloating s = .error errDotLast) ∧
    (∀ s, s.getLast? ≠ some '.' → floatDotEAdjacent s = true →
      strToJSONFloating s = .error errEAfterDot) ∧
    (∀ s, s.getLast? ≠ some '.' → floatDotEAdjacent s = false → floatLeadingDot s = true →
      strToJSONFloating s = .error errNoDigitBeforeDot) ∧
    (∀ s, s.getLast? ≠ some '.' → floatDotEAdjacent s = false → floatLeadingDot s = false →
      strToJSONFloating s =
        (if (strtoldModel s).2.isEmpty then .ok (strtoldModel s).1
         else .error errInvalidFloating)) ∧
    (∀ c cs, strToJSONInteger ('0' :: c :: cs) = .error errLeadingZero) ∧
    (∀ c cs, strToJSONInteger ('-' :: '0' :: c :: cs) = .error errLeadingZero) ∧
    (∀ s, intLeadingZero s = false → strToJSONInteger s =
      (if (strtollModel s).2.isEmpty then .ok (strtollModel s).1
       else .error errInvalidInteger)) ∧
    (parseFromString "01".data = .error errLeadingZero) := by
  refine ⟨?_, ?_, ?_, ?_, ?_, ?_, ?_, rfl⟩
  · intro s h
    simp [strToJSONFloating, h]
  · intro s h1 h2
    simp [strToJSONFloating, h1, h2]
  · intro s h1 h2 h3
    simp [strToJSONFloating, h1, h2, h3]
  · intro s h1 h2 h3
    simp [strToJSONFloating, h1, h2, h3]
  · intro c cs
    simp [strToJSONInteger, intLeadingZero]
  · intro c cs
    simp [strToJSONInteger, intLeadingZero]
  · intro s h
    simp [strToJSONInteger, h]

/-- C6 witness: `1.` ends in a dot, `1.e5` has the exponent right after the
dot, `-.5` has no digit before the dot, `1-2` survives the checks but fails
the strict whole-string integer conversion, and `12` converts whole -/
theorem claim_C6_numberLexicalRules_witness :
    strToJSONFloating "1.".data = .error errDotLast ∧
    strToJSONFloating "1.e5".data = .error errEAfterDot ∧
    strToJSONFloating "-.5".data = .error errNoDigitBeforeDot ∧
    strToJSONInteger "1-2".data = .error errInvalidInteger ∧
    strToJSONInteger "12".data = .ok 12 :=
  ⟨claim_C6_numberLexicalRules.1 "1.".data (by rfl),
   claim_C6_numberLexicalRules.2.1 "1.e5".data (by decide) (by rfl),
   claim_C6_numberLexicalRules.2.2.1 "-.5".data (by decide) (by rfl) (by rfl),
   ((claim_C6_numberLexicalRules.2.2.2.2.2.2.1 "1-2".data (by rfl)).trans (by rfl)),
   ((claim_C6_numberLexicalRules.2.2.2.2.2.2.1 "12".data (by rfl)).trans (by rfl))⟩

/-! ## Claim C7: exactly one value, then end of stream -/

theorem skipWs_eq_nil_of_wsOnly {cs : List Char} (h : wsOnly cs = true) : skipWs cs = [] := by
  rw [skipWs, List.dropWhile_eq_nil_iff]
  intro x hx
  exact List.all_eq_true.mp h x hx

/-- C7: an entirely empty or whitespace-only source fails with its own
error (before any structural parsing, for every fuel); when the dispatched
value parse succeeds and non-whitespace content remains, the top level
fails with the expected-EOF error naming the offending character; when
nothing but whitespace remains it returns the value; the spec's input
`123 456` fails with the expected-EOF error at `4`, and that error differs
from the empty-input error. -/
theorem claim_C7_expectedEof :
    (∀ cs, wsOnly cs = true → ∀ fuel, beginParseFromStream fuel cs = .error errEmptyFile) ∧
    (∀ fuel cs v rest c rest2, topDispatch fuel cs = .ok (v, rest) → skipWs rest = c :: rest2 →
      beginParseFromStream fuel cs = .error (errExpectedEof c)) ∧
    (∀ fuel cs v rest, topDispatch fuel cs = .ok (v, rest) → skipWs rest = [] →
      beginParseFromStream fuel cs = .ok v) ∧
    (parseFromString "123 456".data = .error (errExpectedEof '4')) ∧
    (parseFromString "".data = .error errEmptyFile) ∧
    (errExpectedEof '4' ≠ errEmptyFile) := by
  refine ⟨?_, ?_, ?_, rfl, rfl, by decide⟩
  · intro cs h fuel
    have hnil : skipWs cs = [] := skipWs_eq_nil_of_wsOnly h
    simp [beginParseFromStream, topDispatch, hnil, detectNextType]
  · intro fuel cs v rest c rest2 h1 h2
    simp [beginParseFromStream, h1, h2]
  · intro fuel cs v rest h1 h2
    simp [beginParseFromStream, h1, h2]

/-- C7 witness: `1 x` parses the number then fails at `x`; `5 ` parses the
number and accepts the trailing whitespace; `  ` is whitespace-only -/
theorem claim_C7_expectedEof_witness :
    beginParseFromStream 16 "1 x".data = .error (errExpectedEof 'x') ∧
    beginParseFromStream 16 "5 ".data = .ok (.num (.integer 5)) ∧
    beginParseFromStream 3 "  ".data = .error errEmptyFile :=
  ⟨claim_C7_expectedEof.2.1 16 "1 x".data (.num (.integer 1)) [' ', 'x'] 'x' [] rfl rfl,
   claim_C7_expectedEof.2.2.1 16 "5 ".data (.num (.integer 5)) [' '] rfl rfl,
   claim_C7_expectedEof.1 "  ".data (by decide) 3⟩

/-! ## Claim C10: out-of-range literals convert silently -/

theorem clampLdbl_of_big {q : ℚ} (h : ldblMax < q) : clampLdbl q = .posInf := by
  simp [clampLdbl, h]

theorem ldblMax_lt_pow10_5000 : ldblMax < (((10 : ℕ) ^ 5000 : ℕ) : ℚ) := by
  have hnat : ((2 ^ 64 - 1) * 2 ^ 16320 : ℕ) < ((10 : ℕ) ^ 5000 : ℕ) := by norm_num
  calc ldblMax = ((2 ^ 64 - 1 : ℕ) : ℚ) * ((2 ^ 16320 : ℕ) : ℚ) := rfl
    _ = (((2 ^ 64 - 1) * 2 ^ 16320 : ℕ) : ℚ) := by push_cast; ring
    _ < (((10 : ℕ) ^ 5000 : ℕ) : ℚ) := by exact_mod_cast hnat

theorem readSign_of_digit {c : Char} (t : List Char) (h : isDigitChar c = true) :
    readSign (c :: t) = (1, c :: t) := by
  have h1 : c ≠ '-' := by
    rintro rfl
    exact absurd h (by decide)
  have h2 : c ≠ '+' := by
    rintro rfl
    exact absurd h (by decide)
  rw [readSign.eq_def]
  split <;> simp_all

theorem takeWhile_eq_self_of_all {p : Char → Bool} {s : List Char}
    (h : ∀ c ∈ s, p c = true) : s.takeWhile p = s := by
  induction s with
  | nil => rfl
  | cons c t ih =>
    rw [List.takeWhile_cons_of_pos (h c (by simp))]
    rw [ih fun c hc => h c (List.mem_cons_of_mem _ hc)]

theorem dropWhile_eq_nil_of_all {p : Char → Bool} {s : List Char}
    (h : ∀ c ∈ s, p c = true) : s.dropWhile p = [] :=
  List.dropWhile_eq_nil_iff.mpr h

/-- C10: a numeric literal that passes the lexical checks but whose value
lies outside the representable range converts without any error: the
integer conversion returns the saturated LLONG_MAX/LLONG_MIN that strtoll
produces on overflow (the errno outcome is never read), and the floating
conversion returns an infinity beyond LDBL_MAX; in particular a 28-digit
integer literal parses to LLONG_MAX, its negation to LLONG_MIN, and
`1e5000` parses to positive infinity. -/
theorem claim_C10_overflowSilent :
    (∀ s, s ≠ [] → (∀ c ∈ s, isDigitChar c = true) → intLeadingZero s = false →
      llongMax < (digitsToNat s : Int) → strToJSONInteger s = .ok llongMax) ∧
    (∀ s, s ≠ [] → (∀ c ∈ s, isDigitChar c = true) → intLeadingZero ('-' :: s) = false →
      -llongMin < (digitsToNat s : Int) → strToJSONInteger ('-' :: s) = .ok llongMin) ∧
    (∀ q : ℚ, ldblMax < q → clampLdbl q = .posInf) ∧
    (∀ q : ℚ, q < -ldblMax → clampLdbl q = .negInf) ∧
    (parseFromString "9999999999999999999999999999".data = .ok (.num (.integer llongMax))) ∧
    (parseFromString "-9999999999999999999999999999".data = .ok (.num (.integer llongMin))) ∧
    (parseFromString "1e5000".data = .ok (.num (.floating .posInf))) := by
  refine ⟨?_, ?_, ?_, ?_, rfl, rfl, ?_⟩
  · intro s hne hdig hlz hbig
    match s, hne with
    | c :: t, _ =>
      have hr := readSign_of_digit t (hdig c (by simp))
      have htw := takeWhile_eq_self_of_all hdig
      have hdw := dropWhile_eq_nil_of_all hdig
      rw [strToJSONInteger, if_neg (by simp [hlz])]
      rw [strtollModel, hr]
      simp only [htw, hdw, List.isEmpty_cons, List.isEmpty_nil]
      have hmm : max llongMin (min llongMax ((digitsToNat (c :: t) : Int))) = llongMax := by
        have h0 : (0 : Int) ≤ (digitsToNat (c :: t) : Int) := Int.ofNat_nonneg _
        have hM : llongMax = 9223372036854775807 := rfl
        have hm : llongMin = -9223372036854775808 := rfl
        rw [hM] at hbig
        rw [hM, hm]
        omega
      simp [hmm]
  · intro s hne hdig hlz hbig
    match s, hne with
    | c :: t, _ =>
      have htw := takeWhile_eq_self_of_all hdig
      have hdw := dropWhile_eq_nil_of_all hdig
      rw [strToJSONInteger, if_neg (by simp [hlz])]
      have hr : readSign ('-' :: c :: t) = (-1, c :: t) := rfl
      rw [strtollModel, hr]
      simp only [htw, hdw, List.isEmpty_cons, List.isEmpty_nil]
      have hmm : max llongMin (min llongMax (-(digitsToNat (c :: t) : Int))) = llongMin := by
        have h0 : (0 : Int) ≤ (digitsToNat (c :: t) : Int) := Int.ofNat_nonneg _
        have hM : llongMax = 9223372036854775807 := rfl
        have hm : llongMin = -9223372036854775808 := rfl
        rw [hm] at hbig
        rw [hM, hm]
        omega
      simp [hmm]
  · intro q h
    simp [clampLdbl, h]
  · intro q h
    have h2 : ¬ ldblMax < q := by
      have hpos : (0 : ℚ) < ldblMax := by
        rw [ldblMax]
        positivity
      intro hc
      linarith
    simp [clampLdbl, h2, h]
  · have h1 : parseFromString "1e5000".data =
        .ok (.num (.floating (strtoldModel "1e5000".data).1)) := rfl
    have h3 : (strtoldModel "1e5000".data).1 =
        clampLdbl (((1 : Int) : ℚ) * ((digitsToNat ['1'] : ℕ) : ℚ) * ratPow10 (-((0 : ℕ) : Int))
          * ratPow10 ((1 : Int) * ((digitsToNat ['5', '0', '0', '0'] : ℕ) : Int))) := rfl
    have h4 : ((1 : Int) : ℚ) * ((digitsToNat ['1'] : ℕ) : ℚ) * ratPow10 (-((0 : ℕ) : Int))
        * ratPow10 ((1 : Int) * ((digitsToNat ['5', '0', '0', '0'] : ℕ) : Int)) =
        (((10 : ℕ) ^ 5000 : ℕ) : ℚ) := by
      have hd1 : digitsToNat ['1'] = 1 := rfl
      have hd2 : digitsToNat ['5', '0', '0', '0'] = 5000 := rfl
      rw [hd1, hd2]
      have h5 : Int.toNat (5000 : ℤ) = 5000 := rfl
      norm_num [ratPow10, h5]
    rw [h1, h3, h4, clampLdbl_of_big ldblMax_lt_pow10_5000]

/-- C10 witness: the saturation and overflow facts applied at a 20-digit
literal and just past LDBL_MAX -/
theorem claim_C10_overflowSilent_witness :
    strToJSONInteger "99999999999999999999".data = .ok llongMax ∧
    clampLdbl (ldblMax + 1) = .posInf :=
  ⟨claim_C10_overflowSilent.1 "99999999999999999999".data (by decide) (by decide) (by rfl)
      (by decide),
   claim_C10_overflowSilent.2.2.1 (ldblMax + 1) (lt_add_one _)⟩

/-! ## Claim C1: round trip.  Character-class and whitespace facts -/

theorem isDigitChar_toNat {c : Char} (h : isDigitChar c = true) :
    48 ≤ c.toNat ∧ c.toNat ≤ 57 := by
  simpa [isDigitChar] using h

theorem digit_char_facts {c : Char} (h : isDigitChar c = true) :
    detectNextType (some c) = .jsonNumber ∧ isValidWhitespace c = false ∧
      c ≠ ',' ∧ c ≠ ']' ∧ c ≠ '}' ∧ c ≠ '.' ∧ c ≠ 'e' ∧ c ≠ 'E' := by
  obtain ⟨h1, h2⟩ := isDigitChar_toNat h
  have hq : c ≠ '"' := by
    intro he
    have : c.toNat = 34 := by subst he; rfl
    omega
  have hco : c ≠ ',' := by
    intro he
    have : c.toNat = 44 := by subst he; rfl
    omega
  have hrb : c ≠ ']' := by
    intro he
    have : c.toNat = 93 := by subst he; rfl
    omega
  have hcb : c ≠ '}' := by
    intro he
    have : c.toNat = 125 := by subst he; rfl
    omega
  have hdot : c ≠ '.' := by
    intro he
    have : c.toNat = 46 := by subst he; rfl
    omega
  have hel : c ≠ 'e' := by
    intro he
    have : c.toNat = 101 := by subst he; rfl
    omega
  have heu : c ≠ 'E' := by
    intro he
    have : c.toNat = 69 := by subst he; rfl
    omega
  have hsp : c ≠ ' ' := by
    intro he
    have : c.toNat = 32 := by subst he; rfl
    omega
  have hnl : c ≠ '\n' := by
    intro he
    have : c.toNat = 10 := by subst he; rfl
    omega
  have hcr : c ≠ '\r' := by
    intro he
    have : c.toNat = 13 := by subst he; rfl
    omega
  have htb : c ≠ '\t' := by
    intro he
    have : c.toNat = 9 := by subst he; rfl
    omega
  refine ⟨?_, ?_, hco, hrb, hcb, hdot, hel, heu⟩
  · simp [detectNextType, hq, h]
  · simp [isValidWhitespace, hsp, hnl, hcr, htb]

theorem skipWs_cons {c : Char} (t : List Char) (h : isValidWhitespace c = false) :
    skipWs (c :: t) = c :: t := by
  simp [skipWs, List.dropWhile_cons, h]

theorem skipWs_append {w : List Char} (h : wsOnly w = true) (cs : List Char) :
    skipWs (w ++ cs) = skipWs cs := by
  induction w with
  | nil => rfl
  | cons c t ih =>
    have hc : isValidWhitespace c = true := List.all_eq_true.mp h c (by simp)
    have ht : wsOnly t = true := by
      apply List.all_eq_true.mpr
      intro x hx
      exact List.all_eq_true.mp h x (List.mem_cons_of_mem _ hx)
    simp only [List.cons_append, skipWs, List.dropWhile_cons, hc, if_true]
    exact ih ht

theorem wsOnly_append {a b : List Char} (ha : wsOnly a = true) (hb : wsOnly b = true) :
    wsOnly (a ++ b) = true := by
  apply List.all_eq_true.mpr
  intro x hx
  rcases List.mem_append.mp hx with h | h
  · exact List.all_eq_true.mp ha x h
  · exact List.all_eq_true.mp hb x h

/-! ## Claim C1: digit strings -/

theorem digitChar_isDigit {d : ℕ} (h : d < 10) : isDigitChar (digitChar d) = true := by
  interval_cases d <;> decide

theorem digitChar_toNat_sub {d : ℕ} (h : d < 10) : (digitChar d).toNat - 48 = d := by
  interval_cases d <;> decide

theorem digitChar_ne_zero {d : ℕ} (h : d < 10) (h0 : d ≠ 0) : digitChar d ≠ '0' := by
  interval_cases d
  · exact absurd rfl h0
  all_goals decide

theorem natToString_ne_nil (n : ℕ) : natToString n ≠ [] := by
  by_cases hn : n = 0
  · subst hn
    decide
  · simp only [natToString, if_neg hn]
    have hd : Nat.digits 10 n ≠ [] := Nat.digits_ne_nil_iff_ne_zero.mpr hn
    simp [hd]

theorem natToString_all_digits (n : ℕ) : ∀ c ∈ natToString n, isDigitChar c = true := by
  intro c hc
  by_cases hn : n = 0
  · subst hn
    simp only [natToString, if_pos rfl] at hc
    rcases List.mem_singleton.mp hc with rfl
    decide
  · simp only [natToString, if_neg hn, List.mem_reverse, List.mem_map] at hc
    obtain ⟨d, hd, rfl⟩ := hc
    exact digitChar_isDigit (Nat.digits_lt_base (by norm_num) hd)

theorem natToString_head_ne_zero {n : ℕ} (hn : n ≠ 0) {c : Char} {t : List Char}
    (heq : natToString n = c :: t) : c ≠ '0' := by
  have hhead : (natToString n).head? = some c := by rw [heq]; rfl
  simp only [natToString, if_neg hn] at hhead
  rw [← List.map_reverse, List.head?_map, List.head?_reverse] at hhead
  have hne : Nat.digits 10 n ≠ [] := Nat.digits_ne_nil_iff_ne_zero.mpr hn
  rw [List.getLast?_eq_getLast _ hne] at hhead
  simp only [Option.map_some'] at hhead
  have hd10 : (Nat.digits 10 n).getLast hne < 10 :=
    Nat.digits_lt_base (by norm_num) (List.getLast_mem hne)
  have hd0 : (Nat.digits 10 n).getLast hne ≠ 0 := Nat.getLast_digit_ne_zero 10 hn
  have := digitChar_ne_zero hd10 hd0
  injection hhead with hh
  rw [← hh]
  exact this

theorem digitsToNat_foldl (L : List ℕ) (hL : ∀ d ∈ L, d < 10) (acc : ℕ) :
    List.foldl (fun a c => 10 * a + (c.toNat - 48)) acc ((L.map digitChar).reverse) =
      acc * 10 ^ L.length + Nat.ofDigits 10 L := by
  induction L generalizing acc with
  | nil => simp [Nat.ofDigits]
  | cons d L' ih =>
    have hd : d < 10 := hL d (by simp)
    have hL' : ∀ x ∈ L', x < 10 := fun x hx => hL x (List.mem_cons_of_mem _ hx)
    simp only [List.map_cons, List.reverse_cons, List.foldl_append, ih hL', List.foldl_cons,
      List.foldl_nil, Nat.ofDigits_cons, List.length_cons]
    rw [digitChar_toNat_sub hd, pow_succ]
    ring

theorem digitsToNat_natToString (n : ℕ) : digitsToNat (natToString n) = n := by
  by_cases hn : n = 0
  · subst hn
    decide
  · have hlt : ∀ d ∈ Nat.digits 10 n, d < 10 :=
      fun d hd => Nat.digits_lt_base (by norm_num) hd
    simp only [digitsToNat, natToString, if_neg hn]
    rw [digitsToNat_foldl _ hlt 0]
    simp [Nat.ofDigits_digits]

/-! ## Claim C1: number round trip -/

theorem numStopper_head {rest : List Char} (h : numStopper rest = true) :
    ∀ c, rest.head? = some c → isNumberChar c = false := by
  intro c hc
  cases rest with
  | nil => exact absurd hc (by simp)
  | cons x t =>
    injection hc with hx
    subst hx
    simpa [numStopper] using h

theorem takeWhile_append_stop {p : Char → Bool} {xs rest : List Char}
    (hall : ∀ c ∈ xs, p c = true)
    (hr : ∀ c, rest.head? = some c → p c = false) :
    (xs ++ rest).takeWhile p = xs ∧ (xs ++ rest).dropWhile p = rest := by
  induction xs with
  | nil =>
    cases rest with
    | nil => simp
    | cons c t =>
      have hc := hr c rfl
      simp [List.takeWhile_cons, List.dropWhile_cons, hc]
  | cons x xs ih =>
    have hx : p x = true := hall x (by simp)
    obtain ⟨h1, h2⟩ := ih (fun c hc => hall c (List.mem_cons_of_mem _ hc))
    simp [List.takeWhile_cons, List.dropWhile_cons, hx, h1, h2]

theorem intLeadingZero_ne {c : Char} {t : List Char} (h0 : c ≠ '0') (hm : c ≠ '-') :
    intLeadingZero (c :: t) = false := by
  rw [intLeadingZero.eq_def]
  split <;> simp_all

theorem intLeadingZero_minus {c2 : Char} {t2 : List Char} (h : c2 ≠ '0') :
    intLeadingZero ('-' :: c2 :: t2) = false := by
  rw [intLeadingZero.eq_def]
  split <;> simp_all

theorem natToString_shape (n : ℕ) :
    ∃ c t, natToString n = c :: t ∧ isDigitChar c = true := by
  cases h : natToString n with
  | nil => exact absurd h (natToString_ne_nil n)
  | cons c t => exact ⟨c, t, rfl, natToString_all_digits n c (by rw [h]; simp)⟩

theorem intLeadingZero_natToString (n : ℕ) : intLeadingZero (natToString n) = false := by
  by_cases hn : n = 0
  · subst hn
    decide
  · obtain ⟨c, t, heq, hcd⟩ := natToString_shape n
    rw [heq]
    have h0 := natToString_head_ne_zero hn heq
    have hm : c ≠ '-' := by
      intro he
      have h1 := (isDigitChar_toNat hcd).1
      have : c.toNat = 45 := by subst he; rfl
      omega
    exact intLeadingZero_ne h0 hm

theorem intLeadingZero_intToString (i : Int) : intLeadingZero (intToString i) = false := by
  by_cases hi : i < 0
  · simp only [intToString, if_pos hi]
    have hn : i.natAbs ≠ 0 := by omega
    obtain ⟨c, t, heq, _⟩ := natToString_shape i.natAbs
    rw [heq]
    exact intLeadingZero_minus (natToString_head_ne_zero hn heq)
  · simp only [intToString, if_neg hi]
    exact intLeadingZero_natToString i.toNat

theorem intToString_chars (i : Int) :
    ∀ c ∈ intToString i, isDigitChar c = true ∨ c = '-' := by
  intro c hc
  by_cases hi : i < 0
  · simp only [intToString, if_pos hi, List.mem_cons] at hc
    rcases hc with rfl | hc
    · exact Or.inr rfl
    · exact Or.inl (natToString_all_digits _ c hc)
  · simp only [intToString, if_neg hi] at hc
    exact Or.inl (natToString_all_digits _ c hc)

theorem intToString_numberChars (i : Int) :
    ∀ c ∈ intToString i, isNumberChar c = true := by
  intro c hc
  rcases intToString_chars i c hc with h | rfl
  · simp [isNumberChar, h]
  · decide

theorem intToString_any_dot (i : Int) :
    ((intToString i).any fun c => c = '.') = false := by
  rw [List.any_eq_false]
  intro c hc hmem
  have hcc : c = '.' := by simpa using hmem
  rcases intToString_chars i c hc with h | h
  · exact (digit_char_facts h).2.2.2.2.2.1 hcc
  · rw [h] at hcc
    exact absurd hcc (by decide)

theorem intToString_any_e (i : Int) :
    ((intToString i).any fun c => c = 'e' || c = 'E') = false := by
  rw [List.any_eq_false]
  intro c hc hmem
  have hcc : c = 'e' ∨ c = 'E' := by simpa using hmem
  rcases intToString_chars i c hc with h | h
  · rcases hcc with rfl | rfl
    · exact (digit_char_facts h).2.2.2.2.2.2.1 rfl
    · exact (digit_char_facts h).2.2.2.2.2.2.2 rfl
  · subst h
    rcases hcc with h2 | h2 <;> exact absurd h2 (by decide)

theorem strtollModel_natToString {n : ℕ} (hn : (n : Int) ≤ llongMax) (rest : List Char)
    (hr : ∀ c, rest.head? = some c → isDigitChar c = false) :
    strtollModel (natToString n ++ rest) = ((n : Int), rest) := by
  obtain ⟨c, t, heq, hcd⟩ := natToString_shape n
  obtain ⟨htw, hdw⟩ := takeWhile_append_stop (natToString_all_digits n) hr
  have hsign : readSign (natToString n ++ rest) = (1, natToString n ++ rest) := by
    rw [heq, List.cons_append]
    exact readSign_of_digit _ hcd
  have hne : (natToString n).isEmpty = false := by rw [heq]; rfl
  have hmin : llongMin ≤ (n : Int) :=
    le_trans (by norm_num [llongMin]) (Int.natCast_nonneg n)
  simp [strtollModel, hsign, htw, hdw, hne, digitsToNat_natToString, one_mul,
    min_eq_right hn, max_eq_right hmin]

theorem strtollModel_negToString {n : ℕ} (hn : llongMin ≤ -(n : Int)) (rest : List Char)
    (hr : ∀ c, rest.head? = some c → isDigitChar c = false) :
    strtollModel (('-' :: natToString n) ++ rest) = (-(n : Int), rest) := by
  obtain ⟨c, t, heq, hcd⟩ := natToString_shape n
  obtain ⟨htw, hdw⟩ := takeWhile_append_stop (natToString_all_digits n) hr
  have hsign : readSign ('-' :: (natToString n ++ rest)) = (-1, natToString n ++ rest) := rfl
  have hne : (natToString n).isEmpty = false := by rw [heq]; rfl
  have hmax : -(n : Int) ≤ llongMax :=
    le_trans (neg_nonpos.mpr (Int.natCast_nonneg n)) (by norm_num [llongMax])
  have hval : -1 * ((n : ℕ) : Int) = -(n : Int) := by ring
  simp [strtollModel, hsign, htw, hdw, hne, digitsToNat_natToString, hval,
    min_eq_right hmax, max_eq_right hn]

theorem strToJSONInteger_intToString {i : Int} (h1 : llongMin ≤ i) (h2 : i ≤ llongMax) :
    strToJSONInteger (intToString i) = .ok i := by
  have hlz := intLeadingZero_intToString i
  have hnohead : ∀ c, ([] : List Char).head? = some c → isDigitChar c = false :=
    fun c hc => absurd hc (by simp)
  by_cases hi : i < 0
  · have hmin : llongMin ≤ -((i.natAbs : ℕ) : Int) := by
      have : ((i.natAbs : ℕ) : Int) = -i := by omega
      rw [this]
      omega
    have hconv := strtollModel_negToString hmin [] hnohead
    rw [List.append_nil] at hconv
    have hstr : intToString i = '-' :: natToString i.natAbs := by
      rw [intToString, if_pos hi]
    have hval : -((i.natAbs : ℕ) : Int) = i := by omega
    rw [hval] at hconv
    rw [hstr] at hlz ⊢
    simp [strToJSONInteger, hlz, hconv]
  · have hcast : ((i.toNat : ℕ) : Int) = i := by omega
    have hconv := strtollModel_natToString (n := i.toNat) (by rw [hcast]; exact h2) [] hnohead
    rw [List.append_nil, hcast] at hconv
    have hstr : intToString i = natToString i.toNat := by
      rw [intToString, if_neg hi]
    rw [hstr] at hlz ⊢
    simp [strToJSONInteger, hlz, hconv]

theorem parseNumber_intToString {i : Int} (h1 : llongMin ≤ i) (h2 : i ≤ llongMax)
    (rest : List Char) (hstop : numStopper rest = true) :
    parseNumber (intToString i ++ rest) = .ok (.integer i, rest) := by
  obtain ⟨htw, hdw⟩ := takeWhile_append_stop (intToString_numberChars i) (numStopper_head hstop)
  simp [parseNumber, htw, hdw, intToString_any_dot, intToString_any_e,
    strToJSONInteger_intToString h1 h2]

/-! ## Claim C1: scalar sub-parsers on their serialized forms -/

theorem safeStr_validAux {s : List Char} (h : safeStr s = true) :
    specValidStringAux s false 0 = true := by
  induction s with
  | nil => rfl
  | cons c t ih =>
    have hc : safeChar c = true := List.all_eq_true.mp h c (by simp)
    have ht : safeStr t = true := by
      apply List.all_eq_true.mpr
      intro x hx
      exact List.all_eq_true.mp h x (List.mem_cons_of_mem _ hx)
    simp only [safeChar, Bool.and_eq_true, Bool.not_eq_true', decide_eq_false_iff_not] at hc
    obtain ⟨⟨hq, hb⟩, hctl⟩ := hc
    simp [specValidStringAux, hq, hb, hctl, ih ht]

theorem parseString_safe {s : List Char} (h : safeStr s = true) (rest : List Char) :
    parseString ('"' :: s ++ '"' :: rest) = .ok (s, rest) := by
  have hvalid := safeStr_validAux h
  have hmain := (parseStringAux_ok_iff (s ++ '"' :: rest) false 0 s rest (Or.inl rfl)).mpr
    ⟨rfl, hvalid⟩
  simp [parseString, hmain]

theorem parseBool_true_ok (rest : List Char) :
    parseBool ('t' :: 'r' :: 'u' :: 'e' :: rest) = .ok (true, rest) := rfl

theorem parseBool_false_ok (rest : List Char) :
    parseBool ('f' :: 'a' :: 'l' :: 's' :: 'e' :: rest) = .ok (false, rest) := rfl

theorem parseNull_ok (rest : List Char) :
    parseNull ('n' :: 'u' :: 'l' :: 'l' :: rest) = .ok ((), rest) := rfl

/-! ## Claim C1: serialized container shapes -/

theorem numStopper_cons {c : Char} (hc : isNumberChar c = false) (t : List Char) :
    numStopper (c :: t) = true := by
  simp [numStopper, hc]

theorem mapAssign_append_of_gt {acc : List (List Char × JSONObject)} {k : List Char}
    (v : JSONObject) (h : ∀ p ∈ acc, strLt p.1 k = true) :
    mapAssign acc k v = acc ++ [(k, v)] := by
  induction acc with
  | nil => rfl
  | cons p t ih =>
    obtain ⟨k', v'⟩ := p
    have h1 : strLt k' k = true := h (k', v') (by simp)
    have hlt : strLt k k' = false := strLt_asymm h1
    have hne : k' ≠ k := fun he => strLt_ne h1 he
    simp [mapAssign, hlt, hne, ih (fun p hp => h p (List.mem_cons_of_mem _ hp))]

theorem arrayBodyString_eq (e : JSONObject) (t : List JSONObject) :
    JSONObject.arrayBodyString (e :: t) =
      (JSONObject.toString e ++ arrayTailString t) ++ [','] := by
  induction t generalizing e with
  | nil =>
    show JSONObject.toString e ++ ',' :: JSONObject.arrayBodyString [] = _
    simp [JSONObject.arrayBodyString, arrayTailString]
  | cons e2 t2 ih =>
    show JSONObject.toString e ++ ',' :: JSONObject.arrayBodyString (e2 :: t2) = _
    rw [ih e2]
    simp [arrayTailString]

theorem toString_array_shape (e : JSONObject) (t : List JSONObject) :
    JSONObject.toString (.array (e :: t)) =
      '[' :: ((JSONObject.toString e ++ arrayTailString t) ++ [']']) := by
  show ('[' :: JSONObject.arrayBodyString (e :: t)).dropLast ++ [']'] = _
  rw [arrayBodyString_eq]
  rw [show ('[' :: ((JSONObject.toString e ++ arrayTailString t) ++ [','])) =
    ('[' :: (JSONObject.toString e ++ arrayTailString t)) ++ [','] by simp]
  rw [dropLast_append_single]
  simp

theorem mapBodyString_eq (k : List Char) (v : JSONObject) (t : List (List Char × JSONObject)) :
    JSONObject.mapBodyString ((k, v) :: t) =
      (jsonStringToString k ++ ':' :: JSONObject.toString v ++ mapTailString t) ++ [','] := by
  induction t generalizing k v with
  | nil =>
    show jsonStringToString k ++ ':' :: JSONObject.toString v
        ++ ',' :: JSONObject.mapBodyString [] = _
    simp [JSONObject.mapBodyString, mapTailString]
  | cons kv2 t2 ih =>
    obtain ⟨k2, v2⟩ := kv2
    show jsonStringToString k ++ ':' :: JSONObject.toString v
        ++ ',' :: JSONObject.mapBodyString ((k2, v2) :: t2) = _
    rw [ih k2 v2]
    simp [mapTailString]

theorem toString_map_shape (k : List Char) (v : JSONObject)
    (t : List (List Char × JSONObject)) :
    JSONObject.toString (.map ((k, v) :: t)) =
      '{' :: ((jsonStringToString k ++ ':' :: JSONObject.toString v ++ mapTailString t)
        ++ ['}']) := by
  show ('{' :: JSONObject.mapBodyString ((k, v) :: t)).dropLast ++ ['}'] = _
  rw [mapBodyString_eq]
  rw [show ('{' :: ((jsonStringToString k ++ ':' :: JSONObject.toString v ++ mapTailString t)
      ++ [','])) =
    ('{' :: (jsonStringToString k ++ ':' :: JSONObject.toString v ++ mapTailString t))
      ++ [','] by simp]
  rw [dropLast_append_single]
  simp

theorem dropLast2_append (x : List Char) (a b : Char) :
    ((x ++ [a, b]).dropLast).dropLast = x := by
  rw [show x ++ [a, b] = (x ++ [a]) ++ [b] by simp]
  rw [dropLast_append_single, dropLast_append_single]

theorem arrayBodyIndented_eq (e : JSONObject) (t : List JSONObject) (cur ind : List Char) :
    JSONObject.arrayBodyIndented (e :: t) cur ind =
      (cur ++ JSONObject.toIndentedString e cur ind ++ arrayTailIndented t cur ind)
        ++ [',', '\n'] := by
  induction t generalizing e with
  | nil =>
    show cur ++ JSONObject.toIndentedString e cur ind
        ++ ',' :: '\n' :: JSONObject.arrayBodyIndented [] cur ind = _
    simp [JSONObject.arrayBodyIndented, arrayTailIndented]
  | cons e2 t2 ih =>
    show cur ++ JSONObject.toIndentedString e cur ind
        ++ ',' :: '\n' :: JSONObject.arrayBodyIndented (e2 :: t2) cur ind = _
    rw [ih e2]
    simp [arrayTailIndented]

theorem toIndented_array_shape (e : JSONObject) (t : List JSONObject) (cur ind : List Char) :
    JSONObject.toIndentedString (.array (e :: t)) cur ind =
      '[' :: ('\n' :: ((cur ++ ind) ++ JSONObject.toIndentedString e (cur ++ ind) ind
        ++ arrayTailIndented t (cur ++ ind) ind) ++ '\n' :: cur ++ [']']) := by
  show List.dropLast (List.dropLast (('[' :: '\n' :: [])
      ++ JSONObject.arrayBodyIndented (e :: t) (cur ++ ind) ind)) ++ '\n' :: cur ++ [']'] = _
  rw [arrayBodyIndented_eq]
  rw [show ('[' :: '\n' :: []) ++ (((cur ++ ind) ++ JSONObject.toIndentedString e (cur ++ ind) ind
      ++ arrayTailIndented t (cur ++ ind) ind) ++ [',', '\n']) =
    ('[' :: '\n' :: ((cur ++ ind) ++ JSONObject.toIndentedString e (cur ++ ind) ind
      ++ arrayTailIndented t (cur ++ ind) ind)) ++ [',', '\n'] by simp]
  rw [dropLast2_append]
  simp

theorem mapBodyIndented_eq (k : List Char) (v : JSONObject)
    (t : List (List Char × JSONObject)) (cur ind : List Char) :
    JSONObject.mapBodyIndented ((k, v) :: t) cur ind =
      (cur ++ jsonStringToString k ++ ' ' :: ':' :: ' '
        :: JSONObject.toIndentedString v cur ind ++ mapTailIndented t cur ind)
        ++ [',', '\n'] := by
  induction t generalizing k v with
  | nil =>
    show cur ++ jsonStringToString k ++ ' ' :: ':' :: ' ' :: JSONObject.toIndentedString v cur ind
        ++ ',' :: '\n' :: JSONObject.mapBodyIndented [] cur ind = _
    simp [JSONObject.mapBodyIndented, mapTailIndented]
  | cons kv2 t2 ih =>
    obtain ⟨k2, v2⟩ := kv2
    show cur ++ jsonStringToString k ++ ' ' :: ':' :: ' ' :: JSONObject.toIndentedString v cur ind
        ++ ',' :: '\n' :: JSONObject.mapBodyIndented ((k2, v2) :: t2) cur ind = _
    rw [ih k2 v2]
    simp [mapTailIndented]

theorem toIndented_map_shape (k : List Char) (v : JSONObject)
    (t : List (List Char × JSONObject)) (cur ind : List Char) :
    JSONObject.toIndentedString (.map ((k, v) :: t)) cur ind =
      '{' :: ('\n' :: ((cur ++ ind) ++ jsonStringToString k ++ ' ' :: ':' :: ' '
        :: JSONObject.toIndentedString v (cur ++ ind) ind
        ++ mapTailIndented t (cur ++ ind) ind) ++ '\n' :: cur ++ ['}']) := by
  show List.dropLast (List.dropLast (('{' :: '\n' :: [])
      ++ JSONObject.mapBodyIndented ((k, v) :: t) (cur ++ ind) ind)) ++ '\n' :: cur ++ ['}'] = _
  rw [mapBodyIndented_eq]
  rw [show ('{' :: '\n' :: []) ++ (((cur ++ ind) ++ jsonStringToString k ++ ' ' :: ':' :: ' '
      :: JSONObject.toIndentedString v (cur ++ ind) ind
      ++ mapTailIndented t (cur ++ ind) ind) ++ [',', '\n']) =
    ('{' :: '\n' :: ((cur ++ ind) ++ jsonStringToString k ++ ' ' :: ':' :: ' '
      :: JSONObject.toIndentedString v (cur ++ ind) ind
      ++ mapTailIndented t (cur ++ ind) ind)) ++ [',', '\n'] by simp]
  rw [dropLast2_append]
  simp

/-! ## Claim C1: leading characters of serialized values -/

theorem serial_heads (v : JSONObject) (hs : Safe v = true) (cur ind : List Char) :
    ∃ c s1 s2, JSONObject.toString v = c :: s1 ∧
      JSONObject.toIndentedString v cur ind = c :: s2 ∧
      detectNextType (some c) = typeTag v ∧ isValidWhitespace c = false ∧
      c ≠ ',' ∧ c ≠ ']' ∧ c ≠ '}' := by
  cases v with
  | str s =>
    exact ⟨'"', s ++ ['"'], s ++ ['"'], rfl, rfl, rfl, by decide, by decide, by decide,
      by decide⟩
  | num n =>
    cases n with
    | floating f => simp [Safe] at hs
    | integer i =>
      by_cases hi : i < 0
      · have hstr : intToString i = '-' :: natToString i.natAbs := by
          rw [intToString, if_pos hi]
        refine ⟨'-', natToString i.natAbs, natToString i.natAbs, ?_, ?_, rfl, by decide,
          by decide, by decide, by decide⟩
        · show intToString i = _
          rw [hstr]
        · show intToString i = _
          rw [hstr]
      · obtain ⟨c, t, heq, hcd⟩ := natToString_shape i.toNat
        have hstr : intToString i = c :: t := by rw [intToString, if_neg hi, heq]
        obtain ⟨hdet, hws, hcm, hrb, hcb, _, _, _⟩ := digit_char_facts hcd
        exact ⟨c, t, t, hstr, hstr, hdet, hws, hcm, hrb, hcb⟩
  | boolean b =>
    cases b with
    | false =>
      exact ⟨'f', ['a', 'l', 's', 'e'], ['a', 'l', 's', 'e'], rfl, rfl, rfl, by decide,
        by decide, by decide, by decide⟩
    | true =>
      exact ⟨'t', ['r', 'u', 'e'], ['r', 'u', 'e'], rfl, rfl, rfl, by decide, by decide,
        by decide, by decide⟩
  | null =>
    exact ⟨'n', ['u', 'l', 'l'], ['u', 'l', 'l'], rfl, rfl, rfl, by decide, by decide,
      by decide, by decide⟩
  | array es =>
    cases es with
    | nil =>
      exact ⟨'[', [']'], [']'], rfl, rfl, rfl, by decide, by decide, by decide, by decide⟩
    | cons e t =>
      exact ⟨'[', _, _, toString_array_shape e t, toIndented_array_shape e t cur ind, rfl,
        by decide, by decide, by decide, by decide⟩
  | map kvs =>
    cases kvs with
    | nil =>
      exact ⟨'{', ['}'], ['}'], rfl, rfl, rfl, by decide, by decide, by decide, by decide⟩
    | cons kv t =>
      obtain ⟨k, v⟩ := kv
      exact ⟨'{', _, _, toString_map_shape k v t, toIndented_map_shape k v t cur ind, rfl,
        by decide, by decide, by decide, by decide⟩

/-! ## Claim C1: size facts -/

theorem size_pos (v : JSONObject) : 1 ≤ JSONObject.size v := by
  cases v <;> simp [JSONObject.size]

theorem size_le_sizeList_of_mem {x : JSONObject} :
    ∀ {l : List JSONObject}, x ∈ l → JSONObject.size x ≤ JSONObject.sizeList l := by
  intro l
  induction l with
  | nil => intro h; exact absurd h (List.not_mem_nil x)
  | cons e t ih =>
    intro h
    rcases List.mem_cons.mp h with rfl | h
    · show JSONObject.size x ≤ JSONObject.size x + JSONObject.sizeList t + 1
      omega
    · have := ih h
      show JSONObject.size x ≤ JSONObject.size e + JSONObject.sizeList t + 1
      omega

theorem size_le_sizeEntries_of_mem {x : JSONObject} {k : List Char} :
    ∀ {l : List (List Char × JSONObject)},
      (k, x) ∈ l → JSONObject.size x ≤ JSONObject.sizeEntries l := by
  intro l
  induction l with
  | nil => intro h; exact absurd h (List.not_mem_nil _)
  | cons p t ih =>
    obtain ⟨k', v'⟩ := p
    intro h
    rcases List.mem_cons.mp h with heq | h
    · have hx : x = v' := congrArg Prod.snd heq
      subst hx
      show JSONObject.size x ≤ JSONObject.size x + JSONObject.sizeEntries t + 1
      omega
    · have := ih h
      show JSONObject.size x ≤ JSONObject.size v' + JSONObject.sizeEntries t + 1
      omega

/-! ## Claim C1: one-step reductions of the parser loops -/

theorem parseArray_succ (fuel : ℕ) (cs : List Char) :
    parseArray (fuel + 1) cs =
      (match getOr0 cs with
       | (c, rest) =>
         if c = '[' then parseArrayLoop fuel rest false false []
         else .error (errArrayExpectedBracket c)) := rfl

theorem parseObject_succ (fuel : ℕ) (cs : List Char) :
    parseObject (fuel + 1) cs =
      (match getOr0 cs with
       | (c, rest) =>
         if c = '{' then parseObjectLoop fuel rest false []
         else .error (errObjectExpectedBrace c)) := rfl

theorem parseArrayLoop_succ (fuel : ℕ) (cs : List Char) (expectingComma lastReadWasComma : Bool)
    (acc : List JSONObject) :
    parseArrayLoop (fuel + 1) cs expectingComma lastReadWasComma acc =
      (match skipWs cs with
       | ',' :: t =>
         if expectingComma then parseArrayLoop fuel t false true acc
         else .error errUnexpectedComma
       | ']' :: t =>
         if lastReadWasComma then .error errTrailingCommaArray
         else .ok (acc, t)
       | _ =>
         if expectingComma then .error errEntriesComma
         else
           match detectNextType (skipWs cs).head? with
           | .jsonString =>
             match parseString (skipWs cs) with
             | .error e => .error e
             | .ok (s, r) => parseArrayLoop fuel r true false (acc ++ [.str s])
           | .jsonNumber =>
             match parseNumber (skipWs cs) with
             | .error e => .error e
             | .ok (n, r) => parseArrayLoop fuel r true false (acc ++ [.num n])
           | .jsonBool =>
             match parseBool (skipWs cs) with
             | .error e => .error e
             | .ok (b, r) => parseArrayLoop fuel r true false (acc ++ [.boolean b])
           | .jsonNull =>
             match parseNull (skipWs cs) with
             | .error e => .error e
             | .ok (_, r) => parseArrayLoop fuel r true false (acc ++ [.null])
           | .jsonArray =>
             match parseArray fuel (skipWs cs) with
             | .error e => .error e
             | .ok (es, r) => parseArrayLoop fuel r true false (acc ++ [.array es])
           | .jsonObject =>
             match parseObject fuel (skipWs cs) with
             | .error e => .error e
             | .ok (o, r) => parseArrayLoop fuel r true false (acc ++ [o])
           | .endOfStream => parseArrayLoop fuel (skipWs cs) true false acc
           | .jsonError => .error (errArrayUnexpected ((skipWs cs).head?.getD eofChar))) := rfl

theorem parseObjectLoop_succ (fuel : ℕ) (cs : List Char) (lastReadWasComma : Bool)
    (acc : List (List Char × JSONObject)) :
    parseObjectLoop (fuel + 1) cs lastReadWasComma acc =
      (match skipWs cs with
       | '}' :: t =>
         if lastReadWasComma then .error errTrailingCommaObject
         else .ok (.map acc, t)
       | '"' :: _ =>
         match parseString (skipWs cs) with
         | .error e => .error e
         | .ok (key, r1) =>
           match skipWs r1 with
           | [] => .error (errObjectExpectedColon eofChar)
           | c2 :: r2 =>
             if c2 = ':' then
               match detectNextType (skipWs r2).head? with
               | .jsonString =>
                 match parseString (skipWs r2) with
                 | .error e => .error e
                 | .ok (s, r) => parseObjectContinue fuel r (mapAssign acc key (.str s))
               | .jsonNumber =>
                 match parseNumber (skipWs r2) with
                 | .error e => .error e
                 | .ok (n, r) => parseObjectContinue fuel r (mapAssign acc key (.num n))
               | .jsonBool =>
                 match parseBool (skipWs r2) with
                 | .error e => .error e
                 | .ok (b, r) => parseObjectContinue fuel r (mapAssign acc key (.boolean b))
               | .jsonNull =>
                 match parseNull (skipWs r2) with
                 | .error e => .error e
                 | .ok (_, r) => parseObjectContinue fuel r (mapAssign acc key .null)
               | .jsonArray =>
                 match parseArray fuel (skipWs r2) with
                 | .error e => .error e
                 | .ok (es, r) => parseObjectContinue fuel r (mapAssign acc key (.array es))
               | .jsonObject =>
                 match parseObject fuel (skipWs r2) with
                 | .error e => .error e
                 | .ok (o, r) => parseObjectContinue fuel r (mapAssign acc key o)
               | .endOfStream => parseObjectContinue fuel (skipWs r2) acc
               | .jsonError => .error (errObjectUnexpected ((skipWs r2).head?.getD eofChar))
             else .error (errObjectExpectedColon c2)
       | [] => .error (errObjectExpectedQuote eofChar)
       | c :: _ => .error (errObjectExpectedQuote c)) := rfl

theorem parseObjectContinue_succ (fuel : ℕ) (cs : List Char)
    (acc : List (List Char × JSONObject)) :
    parseObjectContinue (fuel + 1) cs acc =
      (match skipWs cs with
       | [] => .error (errObjectUnexpected eofChar)
       | ',' :: t => parseObjectLoop fuel t true acc
       | '}' :: t => .ok (.map acc, t)
       | c :: _ => .error (errObjectUnexpected c)) := rfl

/-! ## Claim C1: the top-level dispatch on a serialized value -/

theorem topDispatch_ok (v : JSONObject) (fuel : ℕ) (rest : List Char)
    (hs : Safe v = true) (hC : SubParseOkC v fuel) (hr : numStopper rest = true) :
    topDispatch fuel (JSONObject.toString v ++ rest) = .ok (v, rest) := by
  obtain ⟨c, s1, s2, h1, _, hdet, hws, _, _, _⟩ := serial_heads v hs [] []
  have hsk : skipWs (JSONObject.toString v ++ rest) = JSONObject.toString v ++ rest := by
    rw [h1, List.cons_append]
    exact skipWs_cons _ hws
  have hhead : (JSONObject.toString v ++ rest).head? = some c := by
    rw [h1]
    rfl
  simp only [topDispatch]
  rw [hsk, hhead, hdet]
  cases v with
  | str s =>
    have hps : parseString (JSONObject.toString (.str s) ++ rest) = .ok (s, rest) := hC rest hr
    simp [typeTag, hps]
  | num n =>
    have hps : parseNumber (JSONObject.toString (.num n) ++ rest) = .ok (n, rest) := hC rest hr
    simp [typeTag, hps]
  | boolean b =>
    have hps : parseBool (JSONObject.toString (.boolean b) ++ rest) = .ok (b, rest) := hC rest hr
    simp [typeTag, hps]
  | null =>
    have hps : parseNull (JSONObject.toString .null ++ rest) = .ok ((), rest) := hC rest hr
    simp [typeTag, hps]
  | array es =>
    have hps : parseArray fuel (JSONObject.toString (.array es) ++ rest) = .ok (es, rest) :=
      hC rest hr
    simp [typeTag, hps]
  | map kvs =>
    have hps : parseObject fuel (JSONObject.toString (.map kvs) ++ rest) = .ok (.map kvs, rest) :=
      hC rest hr
    simp [typeTag, hps]

theorem topDispatch_okI (v : JSONObject) (fuel : ℕ) (cur ind rest : List Char)
    (hs : Safe v = true) (hI : SubParseOkI v fuel cur ind) (hr : numStopper rest = true) :
    topDispatch fuel (JSONObject.toIndentedString v cur ind ++ rest) = .ok (v, rest) := by
  obtain ⟨c, s1, s2, _, h2, hdet, hws, _, _, _⟩ := serial_heads v hs cur ind
  have hsk : skipWs (JSONObject.toIndentedString v cur ind ++ rest) =
      JSONObject.toIndentedString v cur ind ++ rest := by
    rw [h2, List.cons_append]
    exact skipWs_cons _ hws
  have hhead : (JSONObject.toIndentedString v cur ind ++ rest).head? = some c := by
    rw [h2]
    rfl
  simp only [topDispatch]
  rw [hsk, hhead, hdet]
  cases v with
  | str s =>
    have hps : parseString (JSONObject.toIndentedString (.str s) cur ind ++ rest) =
        .ok (s, rest) := hI rest hr
    simp [typeTag, hps]
  | num n =>
    have hps : parseNumber (JSONObject.toIndentedString (.num n) cur ind ++ rest) =
        .ok (n, rest) := hI rest hr
    simp [typeTag, hps]
  | boolean b =>
    have hps : parseBool (JSONObject.toIndentedString (.boolean b) cur ind ++ rest) =
        .ok (b, rest) := hI rest hr
    simp [typeTag, hps]
  | null =>
    have hps : parseNull (JSONObject.toIndentedString .null cur ind ++ rest) =
        .ok ((), rest) := hI rest hr
    simp [typeTag, hps]
  | array es =>
    have hps : parseArray fuel (JSONObject.toIndentedString (.array es) cur ind ++ rest) =
        .ok (es, rest) := hI rest hr
    simp [typeTag, hps]
  | map kvs =>
    have hps : parseObject fuel (JSONObject.toIndentedString (.map kvs) cur ind ++ rest) =
        .ok (.map kvs, rest) := hI rest hr
    simp [typeTag, hps]

/-- the common dispatch-and-continue pattern of the two container loops,
abstracted over the continuation and the two failure branches -/
theorem dispatch_continue {α : Type} (fuel : ℕ) (mid : List Char)
    (v : JSONObject) (r : List Char) (hmid : skipWs mid = mid)
    (hd : topDispatch fuel mid = .ok (v, r))
    (k : JSONObject → List Char → Except String α) (d1 d2 : Except String α) :
    (match detectNextType mid.head? with
     | .jsonString =>
       match parseString mid with
       | .error e => .error e
       | .ok (s, r') => k (.str s) r'
     | .jsonNumber =>
       match parseNumber mid with
       | .error e => .error e
       | .ok (n, r') => k (.num n) r'
     | .jsonBool =>
       match parseBool mid with
       | .error e => .error e
       | .ok (b, r') => k (.boolean b) r'
     | .jsonNull =>
       match parseNull mid with
       | .error e => .error e
       | .ok (_, r') => k .null r'
     | .jsonArray =>
       match parseArray fuel mid with
       | .error e => .error e
       | .ok (es, r') => k (.array es) r'
     | .jsonObject =>
       match parseObject fuel mid with
       | .error e => .error e
       | .ok (o, r') => k o r'
     | .endOfStream => d1
     | .jsonError => d2) = k v r := by
  simp only [topDispatch, hmid] at hd
  cases hdt : detectNextType mid.head? with
  | jsonString =>
    rw [hdt] at hd
    cases hps : parseString mid with
    | error e =>
      rw [hps] at hd
      simp at hd
    | ok p =>
      obtain ⟨s0, r0⟩ := p
      rw [hps] at hd
      simp at hd
      obtain ⟨h1, h2⟩ := hd
      subst h1
      subst h2
      simp [hps]
  | jsonNumber =>
    rw [hdt] at hd
    cases hps : parseNumber mid with
    | error e =>
      rw [hps] at hd
      simp at hd
    | ok p =>
      obtain ⟨n0, r0⟩ := p
      rw [hps] at hd
      simp at hd
      obtain ⟨h1, h2⟩ := hd
      subst h1
      subst h2
      simp [hps]
  | jsonBool =>
    rw [hdt] at hd
    cases hps : parseBool mid with
    | error e =>
      rw [hps] at hd
      simp at hd
    | ok p =>
      obtain ⟨b0, r0⟩ := p
      rw [hps] at hd
      simp at hd
      obtain ⟨h1, h2⟩ := hd
      subst h1
      subst h2
      simp [hps]
  | jsonNull =>
    rw [hdt] at hd
    cases hps : parseNull mid with
    | error e =>
      rw [hps] at hd
      simp at hd
    | ok p =>
      obtain ⟨u0, r0⟩ := p
      rw [hps] at hd
      simp at hd
      obtain ⟨h1, h2⟩ := hd
      subst h1
      subst h2
      simp [hps]
  | jsonArray =>
    rw [hdt] at hd
    cases hps : parseArray fuel mid with
    | error e =>
      rw [hps] at hd
      simp at hd
    | ok p =>
      obtain ⟨es0, r0⟩ := p
      rw [hps] at hd
      simp at hd
      obtain ⟨h1, h2⟩ := hd
      subst h1
      subst h2
      simp [hps]
  | jsonObject =>
    rw [hdt] at hd
    cases hps : parseObject fuel mid with
    | error e =>
      rw [hps] at hd
      simp at hd
    | ok p =>
      obtain ⟨o0, r0⟩ := p
      rw [hps] at hd
      simp at hd
      obtain ⟨h1, h2⟩ := hd
      subst h1
      subst h2
      simp [hps]
  | endOfStream =>
    rw [hdt] at hd
    simp at hd
  | jsonError =>
    rw [hdt] at hd
    simp at hd

/-! ## Claim C1: loop step lemmas -/

theorem parseArray_open (fuel : ℕ) (t : List Char) :
    parseArray (fuel + 1) ('[' :: t) = parseArrayLoop fuel t false false [] := rfl

theorem parseObject_open (fuel : ℕ) (t : List Char) :
    parseObject (fuel + 1) ('{' :: t) = parseObjectLoop fuel t false [] := rfl

theorem parseArrayLoop_comma (fuel : ℕ) (t : List Char) (b : Bool) (acc : List JSONObject) :
    parseArrayLoop (fuel + 1) (',' :: t) true b acc = parseArrayLoop fuel t false true acc := rfl

theorem parseObjectContinue_comma (fuel : ℕ) (t : List Char)
    (acc : List (List Char × JSONObject)) :
    parseObjectContinue (fuel + 1) (',' :: t) acc = parseObjectLoop fuel t true acc := rfl

theorem parseArrayLoop_close (fuel : ℕ) (pre : List Char) (hpre : wsOnly pre = true)
    (rest : List Char) (ec : Bool) (acc : List JSONObject) :
    parseArrayLoop (fuel + 1) (pre ++ ']' :: rest) ec false acc = .ok (acc, rest) := by
  have hsk : skipWs (pre ++ ']' :: rest) = ']' :: rest := by
    rw [skipWs_append hpre]
    exact skipWs_cons _ (by decide)
  rw [parseArrayLoop_succ, hsk]
  rfl

theorem parseObjectLoop_close (fuel : ℕ) (pre : List Char) (hpre : wsOnly pre = true)
    (rest : List Char) (acc : List (List Char × JSONObject)) :
    parseObjectLoop (fuel + 1) (pre ++ '}' :: rest) false acc = .ok (.map acc, rest) := by
  have hsk : skipWs (pre ++ '}' :: rest) = '}' :: rest := by
    rw [skipWs_append hpre]
    exact skipWs_cons _ (by decide)
  rw [parseObjectLoop_succ, hsk]
  rfl

theorem parseObjectContinue_close (fuel : ℕ) (pre : List Char) (hpre : wsOnly pre = true)
    (rest : List Char) (acc : List (List Char × JSONObject)) :
    parseObjectContinue (fuel + 1) (pre ++ '}' :: rest) acc = .ok (.map acc, rest) := by
  have hsk : skipWs (pre ++ '}' :: rest) = '}' :: rest := by
    rw [skipWs_append hpre]
    exact skipWs_cons _ (by decide)
  rw [parseObjectContinue_succ, hsk]
  rfl

theorem parseArrayLoop_elem_step (fuel : ℕ) (pre : List Char) (hpre : wsOnly pre = true)
    (c : Char) (cs : List Char) (hws : isValidWhitespace c = false)
    (hc1 : c ≠ ',') (hc2 : c ≠ ']') (b : Bool) (acc : List JSONObject)
    (v : JSONObject) (r : List Char)
    (hd : topDispatch fuel (c :: cs) = .ok (v, r)) :
    parseArrayLoop (fuel + 1) (pre ++ c :: cs) false b acc =
      parseArrayLoop fuel r true false (acc ++ [v]) := by
  have hmid : skipWs (c :: cs) = c :: cs := skipWs_cons _ hws
  have hsk : skipWs (pre ++ c :: cs) = c :: cs := by
    rw [skipWs_append hpre]
    exact hmid
  have hred := dispatch_continue fuel (c :: cs) v r hmid hd
    (fun w r' => parseArrayLoop fuel r' true false (acc ++ [w]))
    (parseArrayLoop fuel (c :: cs) true false acc)
    (.error (errArrayUnexpected ((c :: cs).head?.getD eofChar)))
  rw [parseArrayLoop_succ, hsk]
  split
  · rename_i t heq
    rw [List.cons.injEq] at heq
    exact absurd heq.1 hc1
  · rename_i t heq
    rw [List.cons.injEq] at heq
    exact absurd heq.1 hc2
  · exact hred

theorem parseObjectLoop_step (fuel : ℕ) (pre : List Char) (hpre : wsOnly pre = true)
    (key : List Char) (hkey : safeStr key = true)
    (ws1 ws2 : List Char) (hws1 : wsOnly ws1 = true) (hws2 : wsOnly ws2 = true)
    (mid : List Char) (hmid : skipWs mid = mid)
    (v : JSONObject) (r : List Char)
    (hd : topDispatch fuel mid = .ok (v, r))
    (b : Bool) (acc : List (List Char × JSONObject)) :
    parseObjectLoop (fuel + 1)
      (pre ++ ('"' :: (key ++ ('"' :: (ws1 ++ (':' :: (ws2 ++ mid))))))) b acc =
      parseObjectContinue fuel r (mapAssign acc key v) := by
  have hsk : skipWs (pre ++ ('"' :: (key ++ ('"' :: (ws1 ++ (':' :: (ws2 ++ mid))))))) =
      '"' :: (key ++ ('"' :: (ws1 ++ (':' :: (ws2 ++ mid))))) := by
    rw [skipWs_append hpre]
    exact skipWs_cons _ (by decide)
  have hstr : parseString ('"' :: (key ++ ('"' :: (ws1 ++ (':' :: (ws2 ++ mid)))))) =
      .ok (key, ws1 ++ (':' :: (ws2 ++ mid))) := by
    have := parseString_safe hkey (ws1 ++ (':' :: (ws2 ++ mid)))
    simpa using this
  have h2 : skipWs (ws1 ++ (':' :: (ws2 ++ mid))) = ':' :: (ws2 ++ mid) := by
    rw [skipWs_append hws1]
    exact skipWs_cons _ (by decide)
  have h3 : skipWs (ws2 ++ mid) = mid := by
    rw [skipWs_append hws2, hmid]
  have hred := dispatch_continue fuel mid v r hmid hd
    (fun w r' => parseObjectContinue fuel r' (mapAssign acc key w))
    (parseObjectContinue fuel mid acc)
    (.error (errObjectUnexpected (mid.head?.getD eofChar)))
  rw [parseObjectLoop_succ, hsk]
  simp only [hstr, h2, h3]
  exact hred

/-! ## Claim C1: whole-loop lemmas for arrays -/

theorem wsOnly_cons {c : Char} (hc : isValidWhitespace c = true) {l : List Char}
    (hl : wsOnly l = true) : wsOnly (c :: l) = true := by
  simp only [wsOnly, List.all_cons, hc, Bool.true_and]
  exact hl

theorem arrayLoop_go_compact (t : List JSONObject) :
    ∀ (e : JSONObject) (acc : List JSONObject) (fuel : ℕ) (rest : List Char) (b : Bool),
      Safe e = true → SafeList t = true →
      (∀ x, (x = e ∨ x ∈ t) → ∀ f, needFuel x ≤ f → SubParseOkC x f) →
      2 + needFuel e + needFuelList t ≤ fuel →
      numStopper rest = true →
      parseArrayLoop fuel
        (JSONObject.toString e ++ (arrayTailString t ++ (']' :: rest))) false b acc
        = .ok (acc ++ e :: t, rest) := by
  induction t with
  | nil =>
    intro e acc fuel rest b hse _ helem hfuel hstop
    have hnfl : needFuelList ([] : List JSONObject) = 1 := rfl
    obtain ⟨f, rfl⟩ : ∃ f, fuel = f + 1 := ⟨fuel - 1, by omega⟩
    have hsub : SubParseOkC e f := helem e (Or.inl rfl) f (by omega)
    have hrest : numStopper (']' :: rest) = true := numStopper_cons (by decide) rest
    obtain ⟨c, s1, s2, h1, _, _, hws, hc1, hc2, _⟩ := serial_heads e hse [] []
    have hd : topDispatch f (c :: (s1 ++ (']' :: rest))) = .ok (e, ']' :: rest) := by
      have := topDispatch_ok e f (']' :: rest) hse hsub hrest
      rw [h1] at this
      simpa using this
    have hstep := parseArrayLoop_elem_step f [] rfl c (s1 ++ (']' :: rest)) hws hc1 hc2 b acc
      e (']' :: rest) hd
    rw [List.nil_append] at hstep
    rw [show arrayTailString ([] : List JSONObject) = [] from rfl, List.nil_append, h1,
      List.cons_append, hstep]
    obtain ⟨f1, rfl⟩ : ∃ f1, f = f1 + 1 := ⟨f - 1, by omega⟩
    have hclose := parseArrayLoop_close f1 [] rfl rest true (acc ++ [e])
    rw [List.nil_append] at hclose
    rw [hclose]
  | cons e2 t2 ih =>
    intro e acc fuel rest b hse hst helem hfuel hstop
    have hst' : Safe e2 = true ∧ SafeList t2 = true := by
      have h := hst
      simp only [SafeList, Bool.and_eq_true] at h
      exact h
    have hnfl : needFuelList (e2 :: t2) = 2 + needFuel e2 + needFuelList t2 := rfl
    obtain ⟨f, rfl⟩ : ∃ f, fuel = f + 1 := ⟨fuel - 1, by omega⟩
    have hsub : SubParseOkC e f := helem e (Or.inl rfl) f (by omega)
    have hrest' : numStopper (arrayTailString (e2 :: t2) ++ (']' :: rest)) = true := by
      rw [show arrayTailString (e2 :: t2) =
        ',' :: (JSONObject.toString e2 ++ arrayTailString t2) from rfl, List.cons_append]
      exact numStopper_cons (by decide) _
    obtain ⟨c, s1, s2, h1, _, _, hws, hc1, hc2, _⟩ := serial_heads e hse [] []
    have hd : topDispatch f (c :: (s1 ++ (arrayTailString (e2 :: t2) ++ (']' :: rest)))) =
        .ok (e, arrayTailString (e2 :: t2) ++ (']' :: rest)) := by
      have := topDispatch_ok e f (arrayTailString (e2 :: t2) ++ (']' :: rest)) hse hsub hrest'
      rw [h1] at this
      simpa using this
    have hstep := parseArrayLoop_elem_step f [] rfl c
      (s1 ++ (arrayTailString (e2 :: t2) ++ (']' :: rest))) hws hc1 hc2 b acc e _ hd
    rw [List.nil_append] at hstep
    rw [h1, List.cons_append, hstep]
    obtain ⟨f1, rfl⟩ : ∃ f1, f = f1 + 1 := ⟨f - 1, by omega⟩
    rw [show arrayTailString (e2 :: t2) =
      ',' :: (JSONObject.toString e2 ++ arrayTailString t2) from rfl, List.cons_append,
      parseArrayLoop_comma, List.append_assoc]
    have helem' : ∀ x, (x = e2 ∨ x ∈ t2) → ∀ f', needFuel x ≤ f' → SubParseOkC x f' := by
      intro x hx f' hf'
      rcases hx with rfl | hx
      · exact helem x (Or.inr (by simp)) f' hf'
      · exact helem x (Or.inr (List.mem_cons_of_mem _ hx)) f' hf'
    have hrec := ih e2 (acc ++ [e]) f1 rest true hst'.1 hst'.2 helem' (by omega) hstop
    rw [hrec]
    simp

theorem arrayLoop_go_indented (t : List JSONObject) :
    ∀ (e : JSONObject) (acc : List JSONObject) (fuel : ℕ) (rest : List Char) (b : Bool)
      (pre cur ind : List Char),
      wsOnly pre = true → wsOnly cur = true → wsOnly ind = true →
      Safe e = true → SafeList t = true →
      (∀ x, (x = e ∨ x ∈ t) → ∀ f, needFuel x ≤ f → SubParseOkI x f (cur ++ ind) ind) →
      2 + needFuel e + needFuelList t ≤ fuel →
      numStopper rest = true →
      parseArrayLoop fuel
        (pre ++ (cur ++ (ind ++ (JSONObject.toIndentedString e (cur ++ ind) ind
          ++ (arrayTailIndented t (cur ++ ind) ind ++ ('\n' :: (cur ++ (']' :: rest))))))))
        false b acc
        = .ok (acc ++ e :: t, rest) := by
  induction t with
  | nil =>
    intro e acc fuel rest b pre cur ind hpre hcur hind hse _ helem hfuel hstop
    have hnfl : needFuelList ([] : List JSONObject) = 1 := rfl
    obtain ⟨f, rfl⟩ : ∃ f, fuel = f + 1 := ⟨fuel - 1, by omega⟩
    have hsub : SubParseOkI e f (cur ++ ind) ind := helem e (Or.inl rfl) f (by omega)
    have hrest : numStopper ('\n' :: (cur ++ (']' :: rest))) = true :=
      numStopper_cons (by decide) _
    obtain ⟨c, s1, s2, _, h2, _, hws, hc1, hc2, _⟩ := serial_heads e hse (cur ++ ind) ind
    have hd : topDispatch f (c :: (s2 ++ ('\n' :: (cur ++ (']' :: rest))))) =
        .ok (e, '\n' :: (cur ++ (']' :: rest))) := by
      have := topDispatch_okI e f (cur ++ ind) ind ('\n' :: (cur ++ (']' :: rest)))
        hse hsub hrest
      rw [h2] at this
      simpa using this
    have hstep := parseArrayLoop_elem_step f (pre ++ (cur ++ ind))
      (wsOnly_append hpre (wsOnly_append hcur hind)) c
      (s2 ++ ('\n' :: (cur ++ (']' :: rest)))) hws hc1 hc2 b acc e _ hd
    rw [show arrayTailIndented ([] : List JSONObject) (cur ++ ind) ind = [] from rfl,
      List.nil_append, h2, List.cons_append]
    rw [show pre ++ (cur ++ (ind ++ (c :: (s2 ++ ('\n' :: (cur ++ (']' :: rest))))))) =
      (pre ++ (cur ++ ind)) ++ (c :: (s2 ++ ('\n' :: (cur ++ (']' :: rest))))) by simp]
    rw [hstep]
    obtain ⟨f1, rfl⟩ : ∃ f1, f = f1 + 1 := ⟨f - 1, by omega⟩
    have hclose := parseArrayLoop_close f1 ('\n' :: cur) (wsOnly_cons (by decide) hcur)
      rest true (acc ++ [e])
    rw [show ('\n' :: cur) ++ (']' :: rest) = '\n' :: (cur ++ (']' :: rest)) by simp] at hclose
    rw [hclose]
  | cons e2 t2 ih =>
    intro e acc fuel rest b pre cur ind hpre hcur hind hse hst helem hfuel hstop
    have hst' : Safe e2 = true ∧ SafeList t2 = true := by
      have h := hst
      simp only [SafeList, Bool.and_eq_true] at h
      exact h
    have hnfl : needFuelList (e2 :: t2) = 2 + needFuel e2 + needFuelList t2 := rfl
    obtain ⟨f, rfl⟩ : ∃ f, fuel = f + 1 := ⟨fuel - 1, by omega⟩
    have hsub : SubParseOkI e f (cur ++ ind) ind := helem e (Or.inl rfl) f (by omega)
    have hrest' : numStopper (arrayTailIndented (e2 :: t2) (cur ++ ind) ind
        ++ ('\n' :: (cur ++ (']' :: rest)))) = true := by
      rw [show arrayTailIndented (e2 :: t2) (cur ++ ind) ind =
        ',' :: ('\n' :: ((cur ++ ind) ++ (JSONObject.toIndentedString e2 (cur ++ ind) ind
          ++ arrayTailIndented t2 (cur ++ ind) ind))) from by simp [arrayTailIndented],
        List.cons_append]
      exact numStopper_cons (by decide) _
    obtain ⟨c, s1, s2, _, h2, _, hws, hc1, hc2, _⟩ := serial_heads e hse (cur ++ ind) ind
    have hd : topDispatch f (c :: (s2 ++ (arrayTailIndented (e2 :: t2) (cur ++ ind) ind
        ++ ('\n' :: (cur ++ (']' :: rest)))))) =
        .ok (e, arrayTailIndented (e2 :: t2) (cur ++ ind) ind
          ++ ('\n' :: (cur ++ (']' :: rest)))) := by
      have := topDispatch_okI e f (cur ++ ind) ind _ hse hsub hrest'
      rw [h2] at this
      simpa using this
    have hstep := parseArrayLoop_elem_step f (pre ++ (cur ++ ind))
      (wsOnly_append hpre (wsOnly_append hcur hind)) c
      (s2 ++ (arrayTailIndented (e2 :: t2) (cur ++ ind) ind
        ++ ('\n' :: (cur ++ (']' :: rest))))) hws hc1 hc2 b acc e _ hd
    rw [h2, List.cons_append]
    rw [show pre ++ (cur ++ (ind ++ (c :: (s2 ++ (arrayTailIndented (e2 :: t2) (cur ++ ind) ind
        ++ ('\n' :: (cur ++ (']' :: rest)))))))) =
      (pre ++ (cur ++ ind)) ++ (c :: (s2 ++ (arrayTailIndented (e2 :: t2) (cur ++ ind) ind
        ++ ('\n' :: (cur ++ (']' :: rest)))))) by simp]
    rw [hstep]
    obtain ⟨f1, rfl⟩ : ∃ f1, f = f1 + 1 := ⟨f - 1, by omega⟩
    rw [show arrayTailIndented (e2 :: t2) (cur ++ ind) ind
        ++ ('\n' :: (cur ++ (']' :: rest))) =
      ',' :: (['\n'] ++ (cur ++ (ind ++ (JSONObject.toIndentedString e2 (cur ++ ind) ind
        ++ (arrayTailIndented t2 (cur ++ ind) ind ++ ('\n' :: (cur ++ (']' :: rest))))))))
      by simp [arrayTailIndented]]
    rw [parseArrayLoop_comma]
    have helem' : ∀ x, (x = e2 ∨ x ∈ t2) → ∀ f', needFuel x ≤ f' →
        SubParseOkI x f' (cur ++ ind) ind := by
      intro x hx f' hf'
      rcases hx with rfl | hx
      · exact helem x (Or.inr (by simp)) f' hf'
      · exact helem x (Or.inr (List.mem_cons_of_mem _ hx)) f' hf'
    have hrec := ih e2 (acc ++ [e]) f1 rest true ['\n'] cur ind (by decide) hcur hind
      hst'.1 hst'.2 helem' (by omega) hstop
    rw [hrec]
    simp

/-! ## Claim C1: whole-loop lemmas for objects -/

theorem objectLoop_go_compact (t : List (List Char × JSONObject)) :
    ∀ (k : List Char) (v : JSONObject) (acc : List (List Char × JSONObject)) (fuel : ℕ)
      (rest : List Char) (b : Bool),
      safeStr k = true → Safe v = true → SafeEntries t = true →
      keysSortedB ((k, v) :: t) = true →
      (∀ p ∈ acc, strLt p.1 k = true) →
      (∀ x, (x = v ∨ ∃ k', (k', x) ∈ t) → ∀ f, needFuel x ≤ f → SubParseOkC x f) →
      2 + needFuel v + needFuelEntries t ≤ fuel →
      numStopper rest = true →
      parseObjectLoop fuel
        ('"' :: (k ++ ('"' :: (':' :: (JSONObject.toString v
          ++ (mapTailString t ++ ('}' :: rest))))))) b acc
        = .ok (.map (acc ++ (k, v) :: t), rest) := by
  induction t with
  | nil =>
    intro k v acc fuel rest b hk hv _ _ hacc helem hfuel hstop
    have hnfe : needFuelEntries ([] : List (List Char × JSONObject)) = 1 := rfl
    obtain ⟨f, rfl⟩ : ∃ f, fuel = f + 1 := ⟨fuel - 1, by omega⟩
    have hsub : SubParseOkC v f := helem v (Or.inl rfl) f (by omega)
    have hrest : numStopper ('}' :: rest) = true := numStopper_cons (by decide) rest
    obtain ⟨c, s1, s2, h1, _, _, hws, _, _, _⟩ := serial_heads v hv [] []
    have hmid : skipWs (c :: (s1 ++ ('}' :: rest))) = c :: (s1 ++ ('}' :: rest)) :=
      skipWs_cons _ hws
    have hd : topDispatch f (c :: (s1 ++ ('}' :: rest))) = .ok (v, '}' :: rest) := by
      have := topDispatch_ok v f ('}' :: rest) hv hsub hrest
      rw [h1] at this
      simpa using this
    have hstep := parseObjectLoop_step f [] rfl k hk [] [] rfl rfl
      (c :: (s1 ++ ('}' :: rest))) hmid v ('}' :: rest) hd b acc
    simp only [List.nil_append] at hstep
    rw [show JSONObject.toString v ++ (mapTailString [] ++ ('}' :: rest)) =
      c :: (s1 ++ ('}' :: rest)) from by rw [h1]; simp [mapTailString]]
    rw [hstep]
    rw [mapAssign_append_of_gt v hacc]
    obtain ⟨f1, rfl⟩ : ∃ f1, f = f1 + 1 := ⟨f - 1, by omega⟩
    have hclose := parseObjectContinue_close f1 [] rfl rest (acc ++ [(k, v)])
    rw [List.nil_append] at hclose
    rw [hclose]
  | cons kv2 t2 ih =>
    obtain ⟨k2, v2⟩ := kv2
    intro k v acc fuel rest b hk hv hent hsorted hacc helem hfuel hstop
    have hent' : safeStr k2 = true ∧ Safe v2 = true ∧ SafeEntries t2 = true := by
      have h := hent
      simp only [SafeEntries, Bool.and_eq_true] at h
      exact ⟨h.1.1, h.1.2, h.2⟩
    have hsort2 : strLt k k2 = true ∧ keysSortedB ((k2, v2) :: t2) = true := by
      have h := hsorted
      simp only [keysSortedB, Bool.and_eq_true] at h
      exact h
    have hnfe : needFuelEntries ((k2, v2) :: t2) = 2 + needFuel v2 + needFuelEntries t2 := rfl
    obtain ⟨f, rfl⟩ : ∃ f, fuel = f + 1 := ⟨fuel - 1, by omega⟩
    have hsub : SubParseOkC v f := helem v (Or.inl rfl) f (by omega)
    have hrest' : numStopper (mapTailString ((k2, v2) :: t2) ++ ('}' :: rest)) = true := by
      rw [show mapTailString ((k2, v2) :: t2) = ',' :: (jsonStringToString k2
        ++ (':' :: (JSONObject.toString v2 ++ mapTailString t2))) from by
          simp [mapTailString], List.cons_append]
      exact numStopper_cons (by decide) _
    obtain ⟨c, s1, s2, h1, _, _, hws, _, _, _⟩ := serial_heads v hv [] []
    have hmid : skipWs (c :: (s1 ++ (mapTailString ((k2, v2) :: t2) ++ ('}' :: rest)))) =
        c :: (s1 ++ (mapTailString ((k2, v2) :: t2) ++ ('}' :: rest))) := skipWs_cons _ hws
    have hd : topDispatch f (c :: (s1 ++ (mapTailString ((k2, v2) :: t2) ++ ('}' :: rest)))) =
        .ok (v, mapTailString ((k2, v2) :: t2) ++ ('}' :: rest)) := by
      have := topDispatch_ok v f (mapTailString ((k2, v2) :: t2) ++ ('}' :: rest)) hv hsub hrest'
      rw [h1] at this
      simpa using this
    have hstep := parseObjectLoop_step f [] rfl k hk [] [] rfl rfl
      (c :: (s1 ++ (mapTailString ((k2, v2) :: t2) ++ ('}' :: rest)))) hmid v _ hd b acc
    simp only [List.nil_append] at hstep
    rw [show JSONObject.toString v ++ (mapTailString ((k2, v2) :: t2) ++ ('}' :: rest)) =
      c :: (s1 ++ (mapTailString ((k2, v2) :: t2) ++ ('}' :: rest))) from by rw [h1]; simp]
    rw [hstep]
    rw [mapAssign_append_of_gt v hacc]
    obtain ⟨f1, rfl⟩ : ∃ f1, f = f1 + 1 := ⟨f - 1, by omega⟩
    rw [show mapTailString ((k2, v2) :: t2) ++ ('}' :: rest) =
      ',' :: ('"' :: (k2 ++ ('"' :: (':' :: (JSONObject.toString v2
        ++ (mapTailString t2 ++ ('}' :: rest))))))) from by
          simp [mapTailString, jsonStringToString]]
    rw [parseObjectContinue_comma]
    have hacc' : ∀ p ∈ (acc ++ [(k, v)]), strLt p.1 k2 = true := by
      intro p hp
      rcases List.mem_append.mp hp with hp | hp
      · exact strLt_trans (hacc p hp) hsort2.1
      · rcases List.mem_singleton.mp hp with rfl
        exact hsort2.1
    have helem' : ∀ x, (x = v2 ∨ ∃ k', (k', x) ∈ t2) → ∀ f', needFuel x ≤ f' →
        SubParseOkC x f' := by
      intro x hx f' hf'
      rcases hx with rfl | ⟨k', hx⟩
      · exact helem x (Or.inr ⟨k2, by simp⟩) f' hf'
      · exact helem x (Or.inr ⟨k', List.mem_cons_of_mem _ hx⟩) f' hf'
    have hrec := ih k2 v2 (acc ++ [(k, v)]) f1 rest true hent'.1 hent'.2.1 hent'.2.2
      hsort2.2 hacc' helem' (by omega) hstop
    rw [hrec]
    simp

theorem objectLoop_go_indented (t : List (List Char × JSONObject)) :
    ∀ (k : List Char) (v : JSONObject) (acc : List (List Char × JSONObject)) (fuel : ℕ)
      (rest : List Char) (b : Bool) (pre cur ind : List Char),
      wsOnly pre = true → wsOnly cur = true → wsOnly ind = true →
      safeStr k = true → Safe v = true → SafeEntries t = true →
      keysSortedB ((k, v) :: t) = true →
      (∀ p ∈ acc, strLt p.1 k = true) →
      (∀ x, (x = v ∨ ∃ k', (k', x) ∈ t) → ∀ f, needFuel x ≤ f →
        SubParseOkI x f (cur ++ ind) ind) →
      2 + needFuel v + needFuelEntries t ≤ fuel →
      numStopper rest = true →
      parseObjectLoop fuel
        (pre ++ (cur ++ (ind ++ ('"' :: (k ++ ('"' :: (' ' :: (':' :: (' '
          :: (JSONObject.toIndentedString v (cur ++ ind) ind
            ++ (mapTailIndented t (cur ++ ind) ind
              ++ ('\n' :: (cur ++ ('}' :: rest)))))))))))))) b acc
        = .ok (.map (acc ++ (k, v) :: t), rest) := by
  induction t with
  | nil =>
    intro k v acc fuel rest b pre cur ind hpre hcur hind hk hv _ _ hacc helem hfuel hstop
    have hnfe : needFuelEntries ([] : List (List Char × JSONObject)) = 1 := rfl
    obtain ⟨f, rfl⟩ : ∃ f, fuel = f + 1 := ⟨fuel - 1, by omega⟩
    have hsub : SubParseOkI v f (cur ++ ind) ind := helem v (Or.inl rfl) f (by omega)
    have hrest : numStopper ('\n' :: (cur ++ ('}' :: rest))) = true :=
      numStopper_cons (by decide) _
    obtain ⟨c, s1, s2, _, h2, _, hws, _, _, _⟩ := serial_heads v hv (cur ++ ind) ind
    have hmid : skipWs (c :: (s2 ++ ('\n' :: (cur ++ ('}' :: rest))))) =
        c :: (s2 ++ ('\n' :: (cur ++ ('}' :: rest)))) := skipWs_cons _ hws
    have hd : topDispatch f (c :: (s2 ++ ('\n' :: (cur ++ ('}' :: rest))))) =
        .ok (v, '\n' :: (cur ++ ('}' :: rest))) := by
      have := topDispatch_okI v f (cur ++ ind) ind ('\n' :: (cur ++ ('}' :: rest)))
        hv hsub hrest
      rw [h2] at this
      simpa using this
    have hstep := parseObjectLoop_step f (pre ++ (cur ++ ind))
      (wsOnly_append hpre (wsOnly_append hcur hind)) k hk [' '] [' ']
      (by decide) (by decide)
      (c :: (s2 ++ ('\n' :: (cur ++ ('}' :: rest))))) hmid v _ hd b acc
    simp only [List.append_assoc, List.singleton_append] at hstep
    rw [show JSONObject.toIndentedString v (cur ++ ind) ind
        ++ (mapTailIndented [] (cur ++ ind) ind ++ ('\n' :: (cur ++ ('}' :: rest)))) =
      c :: (s2 ++ ('\n' :: (cur ++ ('}' :: rest)))) from by rw [h2]; simp [mapTailIndented]]
    rw [hstep]
    rw [mapAssign_append_of_gt v hacc]
    obtain ⟨f1, rfl⟩ : ∃ f1, f = f1 + 1 := ⟨f - 1, by omega⟩
    have hclose := parseObjectContinue_close f1 ('\n' :: cur) (wsOnly_cons (by decide) hcur)
      rest (acc ++ [(k, v)])
    rw [show ('\n' :: cur) ++ ('}' :: rest) = '\n' :: (cur ++ ('}' :: rest)) by simp] at hclose
    rw [hclose]
  | cons kv2 t2 ih =>
    obtain ⟨k2, v2⟩ := kv2
    intro k v acc fuel rest b pre cur ind hpre hcur hind hk hv hent hsorted hacc helem
      hfuel hstop
    have hent' : safeStr k2 = true ∧ Safe v2 = true ∧ SafeEntries t2 = true := by
      have h := hent
      simp only [SafeEntries, Bool.and_eq_true] at h
      exact ⟨h.1.1, h.1.2, h.2⟩
    have hsort2 : strLt k k2 = true ∧ keysSortedB ((k2, v2) :: t2) = true := by
      have h := hsorted
      simp only [keysSortedB, Bool.and_eq_true] at h
      exact h
    have hnfe : needFuelEntries ((k2, v2) :: t2) = 2 + needFuel v2 + needFuelEntries t2 := rfl
    obtain ⟨f, rfl⟩ : ∃ f, fuel = f + 1 := ⟨fuel - 1, by omega⟩
    have hsub : SubParseOkI v f (cur ++ ind) ind := helem v (Or.inl rfl) f (by omega)
    have hrest' : numStopper (mapTailIndented ((k2, v2) :: t2) (cur ++ ind) ind
        ++ ('\n' :: (cur ++ ('}' :: rest)))) = true := by
      rw [show mapTailIndented ((k2, v2) :: t2) (cur ++ ind) ind =
        ',' :: ('\n' :: ((cur ++ ind) ++ (jsonStringToString k2 ++ (' ' :: (':' :: (' '
          :: (JSONObject.toIndentedString v2 (cur ++ ind) ind
            ++ mapTailIndented t2 (cur ++ ind) ind))))))) from by
          simp [mapTailIndented], List.cons_append]
      exact numStopper_cons (by decide) _
    obtain ⟨c, s1, s2, _, h2, _, hws, _, _, _⟩ := serial_heads v hv (cur ++ ind) ind
    have hmid : skipWs (c :: (s2 ++ (mapTailIndented ((k2, v2) :: t2) (cur ++ ind) ind
        ++ ('\n' :: (cur ++ ('}' :: rest)))))) =
        c :: (s2 ++ (mapTailIndented ((k2, v2) :: t2) (cur ++ ind) ind
          ++ ('\n' :: (cur ++ ('}' :: rest))))) := skipWs_cons _ hws
    have hd : topDispatch f (c :: (s2 ++ (mapTailIndented ((k2, v2) :: t2) (cur ++ ind) ind
        ++ ('\n' :: (cur ++ ('}' :: rest)))))) =
        .ok (v, mapTailIndented ((k2, v2) :: t2) (cur ++ ind) ind
          ++ ('\n' :: (cur ++ ('}' :: rest)))) := by
      have := topDispatch_okI v f (cur ++ ind) ind _ hv hsub hrest'
      rw [h2] at this
      simpa using this
    have hstep := parseObjectLoop_step f (pre ++ (cur ++ ind))
      (wsOnly_append hpre (wsOnly_append hcur hind)) k hk [' '] [' ']
      (by decide) (by decide)
      (c :: (s2 ++ (mapTailIndented ((k2, v2) :: t2) (cur ++ ind) ind
        ++ ('\n' :: (cur ++ ('}' :: rest)))))) hmid v _ hd b acc
    simp only [List.append_assoc, List.singleton_append] at hstep
    rw [show JSONObject.toIndentedString v (cur ++ ind) ind
        ++ (mapTailIndented ((k2, v2) :: t2) (cur ++ ind) ind
          ++ ('\n' :: (cur ++ ('}' :: rest)))) =
      c :: (s2 ++ (mapTailIndented ((k2, v2) :: t2) (cur ++ ind) ind
        ++ ('\n' :: (cur ++ ('}' :: rest))))) from by rw [h2]; simp]
    rw [hstep]
    rw [mapAssign_append_of_gt v hacc]
    obtain ⟨f1, rfl⟩ : ∃ f1, f = f1 + 1 := ⟨f - 1, by omega⟩
    rw [show mapTailIndented ((k2, v2) :: t2) (cur ++ ind) ind
        ++ ('\n' :: (cur ++ ('}' :: rest))) =
      ',' :: (['\n'] ++ (cur ++ (ind ++ ('"' :: (k2 ++ ('"' :: (' ' :: (':' :: (' '
        :: (JSONObject.toIndentedString v2 (cur ++ ind) ind
          ++ (mapTailIndented t2 (cur ++ ind) ind
            ++ ('\n' :: (cur ++ ('}' :: rest)))))))))))))) from by
          simp [mapTailIndented, jsonStringToString]]
    rw [parseObjectContinue_comma]
    have hacc' : ∀ p ∈ (acc ++ [(k, v)]), strLt p.1 k2 = true := by
      intro p hp
      rcases List.mem_append.mp hp with hp | hp
      · exact strLt_trans (hacc p hp) hsort2.1
      · rcases List.mem_singleton.mp hp with rfl
        exact hsort2.1
    have helem' : ∀ x, (x = v2 ∨ ∃ k', (k', x) ∈ t2) → ∀ f', needFuel x ≤ f' →
        SubParseOkI x f' (cur ++ ind) ind := by
      intro x hx f' hf'
      rcases hx with rfl | ⟨k', hx⟩
      · exact helem x (Or.inr ⟨k2, by simp⟩) f' hf'
      · exact helem x (Or.inr ⟨k', List.mem_cons_of_mem _ hx⟩) f' hf'
    have hrec := ih k2 v2 (acc ++ [(k, v)]) f1 rest true ['\n'] cur ind (by decide) hcur hind
      hent'.1 hent'.2.1 hent'.2.2 hsort2.2 hacc' helem' (by omega) hstop
    rw [hrec]
    simp

/-! ## Claim C1: the main round-trip induction -/

theorem needFuelList_pos (l : List JSONObject) : 1 ≤ needFuelList l := by
  cases l with
  | nil => exact le_refl 1
  | cons e t =>
    show 1 ≤ 2 + needFuel e + needFuelList t
    omega

theorem needFuelEntries_pos (l : List (List Char × JSONObject)) : 1 ≤ needFuelEntries l := by
  cases l with
  | nil => exact le_refl 1
  | cons p t =>
    obtain ⟨k, v⟩ := p
    show 1 ≤ 2 + needFuel v + needFuelEntries t
    omega

theorem SafeList_mem {l : List JSONObject} (h : SafeList l = true) {x : JSONObject}
    (hx : x ∈ l) : Safe x = true := by
  induction l with
  | nil => exact absurd hx (List.not_mem_nil x)
  | cons e t ih =>
    have h' : Safe e = true ∧ SafeList t = true := by
      simp only [SafeList, Bool.and_eq_true] at h
      exact h
    rcases List.mem_cons.mp hx with rfl | hx
    · exact h'.1
    · exact ih h'.2 hx

theorem SafeEntries_mem {l : List (List Char × JSONObject)} (h : SafeEntries l = true)
    {k : List Char} {x : JSONObject} (hx : (k, x) ∈ l) :
    safeStr k = true ∧ Safe x = true := by
  induction l with
  | nil => exact absurd hx (List.not_mem_nil _)
  | cons p t ih =>
    obtain ⟨k', v'⟩ := p
    have h' : (safeStr k' = true ∧ Safe v' = true) ∧ SafeEntries t = true := by
      simp only [SafeEntries, Bool.and_eq_true] at h
      exact h
    rcases List.mem_cons.mp hx with heq | hx
    · have hk : k = k' := congrArg Prod.fst heq
      have hv : x = v' := congrArg Prod.snd heq
      subst hk
      subst hv
      exact h'.1
    · exact ih h'.2 hx

theorem subParse_main :
    ∀ (N : ℕ) (v : JSONObject), JSONObject.size v ≤ N → Safe v = true →
      ∀ fuel, needFuel v ≤ fuel →
        SubParseOkC v fuel ∧
        (∀ cur ind, wsOnly cur = true → wsOnly ind = true → SubParseOkI v fuel cur ind) := by
  intro N
  induction N with
  | zero =>
    intro v hsz
    exact absurd hsz (by have := size_pos v; omega)
  | succ N ih =>
    intro v hsz hsafe fuel hfuel
    cases v with
    | str s =>
      have hss : safeStr s = true := hsafe
      refine ⟨?_, ?_⟩
      · intro rest _
        show parseString (('"' :: (s ++ ['"'])) ++ rest) = .ok (s, rest)
        simpa using parseString_safe hss rest
      · intro cur ind _ _ rest _
        show parseString (('"' :: (s ++ ['"'])) ++ rest) = .ok (s, rest)
        simpa using parseString_safe hss rest
    | num n =>
      cases n with
      | floating f => simp [Safe] at hsafe
      | integer i =>
        have hi : llongMin ≤ i ∧ i ≤ llongMax := by
          have h := hsafe
          simp only [Safe, Bool.and_eq_true, decide_eq_true_eq] at h
          exact h
        refine ⟨?_, ?_⟩
        · intro rest hstop
          show parseNumber (intToString i ++ rest) = .ok (.integer i, rest)
          exact parseNumber_intToString hi.1 hi.2 rest hstop
        · intro cur ind _ _ rest hstop
          show parseNumber (intToString i ++ rest) = .ok (.integer i, rest)
          exact parseNumber_intToString hi.1 hi.2 rest hstop
    | boolean b =>
      cases b with
      | false =>
        refine ⟨?_, ?_⟩
        · intro rest _
          show parseBool ('f' :: 'a' :: 'l' :: 's' :: 'e' :: rest) = .ok (false, rest)
          exact parseBool_false_ok rest
        · intro cur ind _ _ rest _
          show parseBool ('f' :: 'a' :: 'l' :: 's' :: 'e' :: rest) = .ok (false, rest)
          exact parseBool_false_ok rest
      | true =>
        refine ⟨?_, ?_⟩
        · intro rest _
          show parseBool ('t' :: 'r' :: 'u' :: 'e' :: rest) = .ok (true, rest)
          exact parseBool_true_ok rest
        · intro cur ind _ _ rest _
          show parseBool ('t' :: 'r' :: 'u' :: 'e' :: rest) = .ok (true, rest)
          exact parseBool_true_ok rest
    | null =>
      refine ⟨?_, ?_⟩
      · intro rest _
        show parseNull ('n' :: 'u' :: 'l' :: 'l' :: rest) = .ok ((), rest)
        exact parseNull_ok rest
      · intro cur ind _ _ rest _
        show parseNull ('n' :: 'u' :: 'l' :: 'l' :: rest) = .ok ((), rest)
        exact parseNull_ok rest
    | array es =>
      have hsl : SafeList es = true := hsafe
      have hsz' : 1 + JSONObject.sizeList es ≤ N + 1 := hsz
      have hfa : 1 + needFuelList es ≤ fuel := hfuel
      have helemC : ∀ x ∈ es, ∀ f, needFuel x ≤ f → SubParseOkC x f := by
        intro x hx f hf
        have hxs : JSONObject.size x ≤ N := by
          have := size_le_sizeList_of_mem hx
          omega
        exact (ih x hxs (SafeList_mem hsl hx) f hf).1
      have helemI : ∀ x ∈ es, ∀ (cur' ind' : List Char), wsOnly cur' = true →
          wsOnly ind' = true → ∀ f, needFuel x ≤ f → SubParseOkI x f cur' ind' := by
        intro x hx cur' ind' hc hi f hf
        have hxs : JSONObject.size x ≤ N := by
          have := size_le_sizeList_of_mem hx
          omega
        exact (ih x hxs (SafeList_mem hsl hx) f hf).2 cur' ind' hc hi
      obtain ⟨f, rfl⟩ : ∃ f, fuel = f + 1 :=
        ⟨fuel - 1, by have := needFuelList_pos es; omega⟩
      refine ⟨?_, ?_⟩
      · intro rest hstop
        show parseArray (f + 1) (JSONObject.toString (.array es) ++ rest) = .ok (es, rest)
        cases es with
        | nil =>
          show parseArray (f + 1) ('[' :: (']' :: rest)) = .ok ([], rest)
          rw [parseArray_open]
          obtain ⟨f1, rfl⟩ : ∃ f1, f = f1 + 1 := ⟨f - 1, by
            have h1 : needFuelList ([] : List JSONObject) = 1 := rfl
            omega⟩
          have hclose := parseArrayLoop_close f1 [] rfl rest false []
          rw [List.nil_append] at hclose
          rw [hclose]
        | cons e t =>
          rw [toString_array_shape]
          rw [show ('[' :: ((JSONObject.toString e ++ arrayTailString t) ++ [']'])) ++ rest =
            '[' :: (JSONObject.toString e ++ (arrayTailString t ++ (']' :: rest))) by simp]
          rw [parseArray_open]
          have hse : Safe e = true ∧ SafeList t = true := by
            simp only [SafeList, Bool.and_eq_true] at hsl
            exact hsl
          have helemGo : ∀ x, (x = e ∨ x ∈ t) → ∀ f', needFuel x ≤ f' → SubParseOkC x f' := by
            intro x hx f' hf'
            refine helemC x ?_ f' hf'
            rcases hx with rfl | hx
            · exact List.mem_cons_self x t
            · exact List.mem_cons_of_mem _ hx
          have hnfl : needFuelList (e :: t) = 2 + needFuel e + needFuelList t := rfl
          have hrec := arrayLoop_go_compact t e [] f rest false hse.1 hse.2 helemGo
            (by omega) hstop
          rw [hrec]
          simp
      · intro cur ind hcur hind rest hstop
        show parseArray (f + 1) (JSONObject.toIndentedString (.array es) cur ind ++ rest)
          = .ok (es, rest)
        cases es with
        | nil =>
          show parseArray (f + 1) ('[' :: (']' :: rest)) = .ok ([], rest)
          rw [parseArray_open]
          obtain ⟨f1, rfl⟩ : ∃ f1, f = f1 + 1 := ⟨f - 1, by
            have h1 : needFuelList ([] : List JSONObject) = 1 := rfl
            omega⟩
          have hclose := parseArrayLoop_close f1 [] rfl rest false []
          rw [List.nil_append] at hclose
          rw [hclose]
        | cons e t =>
          rw [toIndented_array_shape]
          rw [show ('[' :: ('\n' :: ((cur ++ ind) ++ JSONObject.toIndentedString e (cur ++ ind) ind
              ++ arrayTailIndented t (cur ++ ind) ind) ++ '\n' :: cur ++ [']'])) ++ rest =
            '[' :: (['\n'] ++ (cur ++ (ind ++ (JSONObject.toIndentedString e (cur ++ ind) ind
              ++ (arrayTailIndented t (cur ++ ind) ind
                ++ ('\n' :: (cur ++ (']' :: rest)))))))) by simp]
          rw [parseArray_open]
          have hse : Safe e = true ∧ SafeList t = true := by
            simp only [SafeList, Bool.and_eq_true] at hsl
            exact hsl
          have helemGo : ∀ x, (x = e ∨ x ∈ t) → ∀ f', needFuel x ≤ f' →
              SubParseOkI x f' (cur ++ ind) ind := by
            intro x hx f' hf'
            refine helemI x ?_ (cur ++ ind) ind (wsOnly_append hcur hind) hind f' hf'
            rcases hx with rfl | hx
            · exact List.mem_cons_self x t
            · exact List.mem_cons_of_mem _ hx
          have hnfl : needFuelList (e :: t) = 2 + needFuel e + needFuelList t := rfl
          have hrec := arrayLoop_go_indented t e [] f rest false ['\n'] cur ind (by decide)
            hcur hind hse.1 hse.2 helemGo (by omega) hstop
          rw [hrec]
          simp
    | map kvs =>
      have hsm : keysSortedB kvs = true ∧ SafeEntries kvs = true := by
        have h := hsafe
        simp only [Safe, Bool.and_eq_true] at h
        exact h
      have hsz' : 1 + JSONObject.sizeEntries kvs ≤ N + 1 := hsz
      have hfm : 1 + needFuelEntries kvs ≤ fuel := hfuel
      have helemC : ∀ (k' : List Char) (x : JSONObject), (k', x) ∈ kvs →
          ∀ f, needFuel x ≤ f → SubParseOkC x f := by
        intro k' x hx f hf
        have hxs : JSONObject.size x ≤ N := by
          have := size_le_sizeEntries_of_mem hx
          omega
        exact (ih x hxs (SafeEntries_mem hsm.2 hx).2 f hf).1
      have helemI : ∀ (k' : List Char) (x : JSONObject), (k', x) ∈ kvs →
          ∀ (cur' ind' : List Char), wsOnly cur' = true → wsOnly ind' = true →
          ∀ f, needFuel x ≤ f → SubParseOkI x f cur' ind' := by
        intro k' x hx cur' ind' hc hi f hf
        have hxs : JSONObject.size x ≤ N := by
          have := size_le_sizeEntries_of_mem hx
          omega
        exact (ih x hxs (SafeEntries_mem hsm.2 hx).2 f hf).2 cur' ind' hc hi
      obtain ⟨f, rfl⟩ : ∃ f, fuel = f + 1 :=
        ⟨fuel - 1, by have := needFuelEntries_pos kvs; omega⟩
      refine ⟨?_, ?_⟩
      · intro rest hstop
        show parseObject (f + 1) (JSONObject.toString (.map kvs) ++ rest) = .ok (.map kvs, rest)
        cases kvs with
        | nil =>
          show parseObject (f + 1) ('{' :: ('}' :: rest)) = .ok (.map [], rest)
          rw [parseObject_open]
          obtain ⟨f1, rfl⟩ : ∃ f1, f = f1 + 1 := ⟨f - 1, by
            have h1 : needFuelEntries ([] : List (List Char × JSONObject)) = 1 := rfl
            omega⟩
          have hclose := parseObjectLoop_close f1 [] rfl rest []
          rw [List.nil_append] at hclose
          rw [hclose]
        | cons kv t =>
          obtain ⟨k, v⟩ := kv
          rw [toString_map_shape]
          rw [show ('{' :: ((jsonStringToString k ++ ':' :: JSONObject.toString v
              ++ mapTailString t) ++ ['}'])) ++ rest =
            '{' :: ('"' :: (k ++ ('"' :: (':' :: (JSONObject.toString v
              ++ (mapTailString t ++ ('}' :: rest))))))) by simp [jsonStringToString]]
          rw [parseObject_open]
          have hent : (safeStr k = true ∧ Safe v = true) ∧ SafeEntries t = true := by
            have h := hsm.2
            simp only [SafeEntries, Bool.and_eq_true] at h
            exact h
          have helemGo : ∀ x, (x = v ∨ ∃ k', (k', x) ∈ t) → ∀ f', needFuel x ≤ f' →
              SubParseOkC x f' := by
            intro x hx f' hf'
            rcases hx with rfl | ⟨k', hx⟩
            · exact helemC k x (List.mem_cons_self _ _) f' hf'
            · exact helemC k' x (List.mem_cons_of_mem _ hx) f' hf'
          have hnfe : needFuelEntries ((k, v) :: t) = 2 + needFuel v + needFuelEntries t := rfl
          have hrec := objectLoop_go_compact t k v [] f rest false hent.1.1 hent.1.2 hent.2
            hsm.1 (by simp) helemGo (by omega) hstop
          rw [hrec]
          simp
      · intro cur ind hcur hind rest hstop
        show parseObject (f + 1) (JSONObject.toIndentedString (.map kvs) cur ind ++ rest)
          = .ok (.map kvs, rest)
        cases kvs with
        | nil =>
          show parseObject (f + 1) ('{' :: ('}' :: rest)) = .ok (.map [], rest)
          rw [parseObject_open]
          obtain ⟨f1, rfl⟩ : ∃ f1, f = f1 + 1 := ⟨f - 1, by
            have h1 : needFuelEntries ([] : List (List Char × JSONObject)) = 1 := rfl
            omega⟩
          have hclose := parseObjectLoop_close f1 [] rfl rest []
          rw [List.nil_append] at hclose
          rw [hclose]
        | cons kv t =>
          obtain ⟨k, v⟩ := kv
          rw [toIndented_map_shape]
          rw [show ('{' :: ('\n' :: ((cur ++ ind) ++ jsonStringToString k ++ ' ' :: ':' :: ' '
              :: JSONObject.toIndentedString v (cur ++ ind) ind
              ++ mapTailIndented t (cur ++ ind) ind) ++ '\n' :: cur ++ ['}'])) ++ rest =
            '{' :: (['\n'] ++ (cur ++ (ind ++ ('"' :: (k ++ ('"' :: (' ' :: (':' :: (' '
              :: (JSONObject.toIndentedString v (cur ++ ind) ind
                ++ (mapTailIndented t (cur ++ ind) ind
                  ++ ('\n' :: (cur ++ ('}' :: rest)))))))))))))) by simp [jsonStringToString]]
          rw [parseObject_open]
          have hent : (safeStr k = true ∧ Safe v = true) ∧ SafeEntries t = true := by
            have h := hsm.2
            simp only [SafeEntries, Bool.and_eq_true] at h
            exact h
          have helemGo : ∀ x, (x = v ∨ ∃ k', (k', x) ∈ t) → ∀ f', needFuel x ≤ f' →
              SubParseOkI x f' (cur ++ ind) ind := by
            intro x hx f' hf'
            rcases hx with rfl | ⟨k', hx⟩
            · exact helemI k x (List.mem_cons_self _ _) (cur ++ ind) ind
                (wsOnly_append hcur hind) hind f' hf'
            · exact helemI k' x (List.mem_cons_of_mem _ hx) (cur ++ ind) ind
                (wsOnly_append hcur hind) hind f' hf'
          have hnfe : needFuelEntries ((k, v) :: t) = 2 + needFuel v + needFuelEntries t := rfl
          have hrec := objectLoop_go_indented t k v [] f rest false ['\n'] cur ind (by decide)
            hcur hind hent.1.1 hent.1.2 hent.2 hsm.1 (by simp) helemGo (by omega) hstop
          rw [hrec]
          simp

/-! ## Claim C1: the fuel budget of parseFromString is sufficient -/

theorem needFuelList_le (l : List JSONObject)
    (h : ∀ e ∈ l, needFuel e ≤ 2 * JSONObject.size e) :
    needFuelList l ≤ 2 * JSONObject.sizeList l + 1 := by
  induction l with
  | nil =>
    show (1 : ℕ) ≤ 2 * 0 + 1
    omega
  | cons e t ih =>
    have h1 := h e (List.mem_cons_self e t)
    have h2 := ih (fun x hx => h x (List.mem_cons_of_mem _ hx))
    show 2 + needFuel e + needFuelList t
      ≤ 2 * (JSONObject.size e + JSONObject.sizeList t + 1) + 1
    omega

theorem needFuelEntries_le (l : List (List Char × JSONObject))
    (h : ∀ (k : List Char) (x : JSONObject), (k, x) ∈ l → needFuel x ≤ 2 * JSONObject.size x) :
    needFuelEntries l ≤ 2 * JSONObject.sizeEntries l + 1 := by
  induction l with
  | nil =>
    show (1 : ℕ) ≤ 2 * 0 + 1
    omega
  | cons p t ih =>
    obtain ⟨k, v⟩ := p
    have h1 := h k v (List.mem_cons_self _ t)
    have h2 := ih (fun k' x hx => h k' x (List.mem_cons_of_mem _ hx))
    show 2 + needFuel v + needFuelEntries t
      ≤ 2 * (JSONObject.size v + JSONObject.sizeEntries t + 1) + 1
    omega

theorem needFuel_le : ∀ (N : ℕ) (v : JSONObject), JSONObject.size v ≤ N →
    needFuel v ≤ 2 * JSONObject.size v := by
  intro N
  induction N with
  | zero =>
    intro v hsz
    exact absurd hsz (by have := size_pos v; omega)
  | succ N ih =>
    intro v hsz
    cases v with
    | str s =>
      show (0 : ℕ) ≤ 2 * 1
      omega
    | num n =>
      show (0 : ℕ) ≤ 2 * 1
      omega
    | boolean b =>
      show (0 : ℕ) ≤ 2 * 1
      omega
    | null =>
      show (0 : ℕ) ≤ 2 * 1
      omega
    | array es =>
      have hb := needFuelList_le es (fun e he => ih e (by
        have h1 := size_le_sizeList_of_mem he
        have h2 : JSONObject.size (.array es) = 1 + JSONObject.sizeList es := rfl
        omega))
      show 1 + needFuelList es ≤ 2 * (1 + JSONObject.sizeList es)
      omega
    | map kvs =>
      have hb := needFuelEntries_le kvs (fun k x hx => ih x (by
        have h1 := size_le_sizeEntries_of_mem hx
        have h2 : JSONObject.size (.map kvs) = 1 + JSONObject.sizeEntries kvs := rfl
        omega))
      show 1 + needFuelEntries kvs ≤ 2 * (1 + JSONObject.sizeEntries kvs)
      omega

theorem intToString_ne_nil (i : Int) : intToString i ≠ [] := by
  rw [intToString]
  split
  · simp
  · exact natToString_ne_nil _

theorem floatToString_ne_nil (f : JSONFloating) : floatToString f ≠ [] := by
  cases f with
  | posInf => simp [floatToString]
  | negInf => simp [floatToString]
  | finite q => simp [floatToString]

theorem numToString_len (n : JSONNumber) : 1 ≤ (JSONNumber.toString n).length := by
  cases n with
  | floating f => exact List.length_pos.mpr (floatToString_ne_nil f)
  | integer i => exact List.length_pos.mpr (intToString_ne_nil i)

theorem arrayTailString_len (l : List JSONObject)
    (h : ∀ e ∈ l, JSONObject.size e ≤ (JSONObject.toString e).length) :
    JSONObject.sizeList l ≤ (arrayTailString l).length := by
  induction l with
  | nil =>
    show (0 : ℕ) ≤ ([] : List Char).length
    omega
  | cons e t ih =>
    have h1 := h e (List.mem_cons_self e t)
    have h2 := ih (fun x hx => h x (List.mem_cons_of_mem _ hx))
    show JSONObject.size e + JSONObject.sizeList t + 1
      ≤ (',' :: (JSONObject.toString e ++ arrayTailString t)).length
    simp only [List.length_cons, List.length_append]
    omega

theorem mapTailString_len (l : List (List Char × JSONObject))
    (h : ∀ (k : List Char) (x : JSONObject), (k, x) ∈ l →
      JSONObject.size x ≤ (JSONObject.toString x).length) :
    JSONObject.sizeEntries l ≤ (mapTailString l).length := by
  induction l with
  | nil =>
    show (0 : ℕ) ≤ ([] : List Char).length
    omega
  | cons p t ih =>
    obtain ⟨k, v⟩ := p
    have h1 := h k v (List.mem_cons_self _ t)
    have h2 := ih (fun k' x hx => h k' x (List.mem_cons_of_mem _ hx))
    rw [show mapTailString ((k, v) :: t) = ',' :: (jsonStringToString k
      ++ (':' :: (JSONObject.toString v ++ mapTailString t))) from by simp [mapTailString]]
    show JSONObject.size v + JSONObject.sizeEntries t + 1 ≤ _
    simp only [List.length_cons, List.length_append, jsonStringToString]
    omega

theorem size_le_toString_len : ∀ (N : ℕ) (v : JSONObject), JSONObject.size v ≤ N →
    JSONObject.size v ≤ (JSONObject.toString v).length := by
  intro N
  induction N with
  | zero =>
    intro v hsz
    exact absurd hsz (by have := size_pos v; omega)
  | succ N ih =>
    intro v hsz
    cases v with
    | str s =>
      show (1 : ℕ) ≤ ('"' :: (s ++ ['"'])).length
      simp only [List.length_cons]
      omega
    | num n =>
      show (1 : ℕ) ≤ (JSONNumber.toString n).length
      exact numToString_len n
    | boolean b => cases b <;> decide
    | null => decide
    | array es =>
      cases es with
      | nil => decide
      | cons e t =>
        have hmem : ∀ x ∈ e :: t, JSONObject.size x ≤ (JSONObject.toString x).length := by
          intro x hx
          refine ih x ?_
          have h1 := size_le_sizeList_of_mem hx
          have h2 : JSONObject.size (.array (e :: t)) =
            1 + (JSONObject.size e + JSONObject.sizeList t + 1) := rfl
          have h3 : JSONObject.sizeList (e :: t) =
            JSONObject.size e + JSONObject.sizeList t + 1 := rfl
          omega
        have h1 := hmem e (List.mem_cons_self e t)
        have h2 := arrayTailString_len t (fun x hx => hmem x (List.mem_cons_of_mem _ hx))
        rw [toString_array_shape]
        show 1 + (JSONObject.size e + JSONObject.sizeList t + 1) ≤ _
        simp only [List.length_cons, List.length_append]
        omega
    | map kvs =>
      cases kvs with
      | nil => decide
      | cons kv t =>
        obtain ⟨k, v⟩ := kv
        have hmem : ∀ (k' : List Char) (x : JSONObject), (k', x) ∈ (k, v) :: t →
            JSONObject.size x ≤ (JSONObject.toString x).length := by
          intro k' x hx
          refine ih x ?_
          have h1 := size_le_sizeEntries_of_mem hx
          have h2 : JSONObject.size (.map ((k, v) :: t)) =
            1 + (JSONObject.size v + JSONObject.sizeEntries t + 1) := rfl
          have h3 : JSONObject.sizeEntries ((k, v) :: t) =
            JSONObject.size v + JSONObject.sizeEntries t + 1 := rfl
          omega
        have h1 := hmem k v (List.mem_cons_self _ t)
        have h2 := mapTailString_len t (fun k' x hx => hmem k' x (List.mem_cons_of_mem _ hx))
        rw [toString_map_shape]
        show 1 + (JSONObject.size v + JSONObject.sizeEntries t + 1) ≤ _
        simp only [List.length_cons, List.length_append, jsonStringToString]
        omega

theorem arrayTailIndented_len (l : List JSONObject) (cur ind : List Char)
    (h : ∀ e ∈ l, JSONObject.size e ≤ (JSONObject.toIndentedString e cur ind).length) :
    JSONObject.sizeList l ≤ (arrayTailIndented l cur ind).length := by
  induction l with
  | nil =>
    show (0 : ℕ) ≤ ([] : List Char).length
    omega
  | cons e t ih =>
    have h1 := h e (List.mem_cons_self e t)
    have h2 := ih (fun x hx => h x (List.mem_cons_of_mem _ hx))
    rw [show arrayTailIndented (e :: t) cur ind = ',' :: ('\n' :: (cur
      ++ (JSONObject.toIndentedString e cur ind ++ arrayTailIndented t cur ind)))
      from by simp [arrayTailIndented]]
    show JSONObject.size e + JSONObject.sizeList t + 1 ≤ _
    simp only [List.length_cons, List.length_append]
    omega

theorem mapTailIndented_len (l : List (List Char × JSONObject)) (cur ind : List Char)
    (h : ∀ (k : List Char) (x : JSONObject), (k, x) ∈ l →
      JSONObject.size x ≤ (JSONObject.toIndentedString x cur ind).length) :
    JSONObject.sizeEntries l ≤ (mapTailIndented l cur ind).length := by
  induction l with
  | nil =>
    show (0 : ℕ) ≤ ([] : List Char).length
    omega
  | cons p t ih =>
    obtain ⟨k, v⟩ := p
    have h1 := h k v (List.mem_cons_self _ t)
    have h2 := ih (fun k' x hx => h k' x (List.mem_cons_of_mem _ hx))
    rw [show mapTailIndented ((k, v) :: t) cur ind = ',' :: ('\n' :: (cur
      ++ (jsonStringToString k ++ (' ' :: (':' :: (' '
        :: (JSONObject.toIndentedString v cur ind ++ mapTailIndented t cur ind)))))))
      from by simp [mapTailIndented, jsonStringToString]]
    show JSONObject.size v + JSONObject.sizeEntries t + 1 ≤ _
    simp only [List.length_cons, List.length_append, jsonStringToString]
    omega

theorem size_le_toIndented_len : ∀ (N : ℕ) (v : JSONObject) (cur ind : List Char),
    JSONObject.size v ≤ N → JSONObject.size v ≤ (JSONObject.toIndentedString v cur ind).length := by
  intro N
  induction N with
  | zero =>
    intro v cur ind hsz
    exact absurd hsz (by have := size_pos v; omega)
  | succ N ih =>
    intro v cur ind hsz
    cases v with
    | str s =>
      show (1 : ℕ) ≤ ('"' :: (s ++ ['"'])).length
      simp only [List.length_cons]
      omega
    | num n =>
      show (1 : ℕ) ≤ (JSONNumber.toString n).length
      exact numToString_len n
    | boolean b =>
      cases b with
      | false =>
        show (1 : ℕ) ≤ ('f' :: 'a' :: 'l' :: 's' :: 'e' :: []).length
        decide
      | true =>
        show (1 : ℕ) ≤ ('t' :: 'r' :: 'u' :: 'e' :: []).length
        decide
    | null =>
      show (1 : ℕ) ≤ ('n' :: 'u' :: 'l' :: 'l' :: []).length
      decide
    | array es =>
      cases es with
      | nil =>
        show (1 : ℕ) + 0 ≤ ('[' :: ']' :: []).length
        decide
      | cons e t =>
        have hmem : ∀ x ∈ e :: t, JSONObject.size x
            ≤ (JSONObject.toIndentedString x (cur ++ ind) ind).length := by
          intro x hx
          refine ih x (cur ++ ind) ind ?_
          have h1 := size_le_sizeList_of_mem hx
          have h2 : JSONObject.size (.array (e :: t)) =
            1 + (JSONObject.size e + JSONObject.sizeList t + 1) := rfl
          have h3 : JSONObject.sizeList (e :: t) =
            JSONObject.size e + JSONObject.sizeList t + 1 := rfl
          omega
        have h1 := hmem e (List.mem_cons_self e t)
        have h2 := arrayTailIndented_len t (cur ++ ind) ind
          (fun x hx => hmem x (List.mem_cons_of_mem _ hx))
        rw [toIndented_array_shape]
        show 1 + (JSONObject.size e + JSONObject.sizeList t + 1) ≤ _
        simp only [List.length_cons, List.length_append]
        omega
    | map kvs =>
      cases kvs with
      | nil =>
        show (1 : ℕ) + 0 ≤ ('{' :: '}' :: []).length
        decide
      | cons kv t =>
        obtain ⟨k, v⟩ := kv
        have hmem : ∀ (k' : List Char) (x : JSONObject), (k', x) ∈ (k, v) :: t →
            JSONObject.size x ≤ (JSONObject.toIndentedString x (cur ++ ind) ind).length := by
          intro k' x hx
          refine ih x (cur ++ ind) ind ?_
          have h1 := size_le_sizeEntries_of_mem hx
          have h2 : JSONObject.size (.map ((k, v) :: t)) =
            1 + (JSONObject.size v + JSONObject.sizeEntries t + 1) := rfl
          have h3 : JSONObject.sizeEntries ((k, v) :: t) =
            JSONObject.size v + JSONObject.sizeEntries t + 1 := rfl
          omega
        have h1 := hmem k v (List.mem_cons_self _ t)
        have h2 := mapTailIndented_len t (cur ++ ind) ind
          (fun k' x hx => hmem k' x (List.mem_cons_of_mem _ hx))
        rw [toIndented_map_shape]
        show 1 + (JSONObject.size v + JSONObject.sizeEntries t + 1) ≤ _
        simp only [List.length_cons, List.length_append, jsonStringToString]
        omega

/-! ## Claim C1: final round-trip statements -/

theorem parseFromString_dump (v : JSONObject) (hs : Safe v = true) :
    parseFromString (dumpToString v) = .ok v := by
  rw [show dumpToString v = JSONObject.toString v from rfl]
  have hlen := size_le_toString_len (JSONObject.size v) v le_rfl
  have hnf := needFuel_le (JSONObject.size v) v le_rfl
  have hfuel : needFuel v ≤ 4 * (JSONObject.toString v).length + 4 := by omega
  have hmain := (subParse_main (JSONObject.size v) v le_rfl hs
    (4 * (JSONObject.toString v).length + 4) hfuel).1
  have htop := topDispatch_ok v (4 * (JSONObject.toString v).length + 4) [] hs hmain rfl
  rw [List.append_nil] at htop
  simp [parseFromString, beginParseFromStream, htop, skipWs]

theorem parseFromString_dumpPretty (v : JSONObject) (hs : Safe v = true)
    (ind : List Char) (hind : wsOnly ind = true) :
    parseFromString (dumpToPrettyString v ind) = .ok v := by
  rw [show dumpToPrettyString v ind = JSONObject.toIndentedString v [] ind from rfl]
  have hlen := size_le_toIndented_len (JSONObject.size v) v [] ind le_rfl
  have hnf := needFuel_le (JSONObject.size v) v le_rfl
  have hfuel : needFuel v ≤ 4 * (JSONObject.toIndentedString v [] ind).length + 4 := by omega
  have hmain := (subParse_main (JSONObject.size v) v le_rfl hs
    (4 * (JSONObject.toIndentedString v [] ind).length + 4) hfuel).2 [] ind rfl hind
  have htop := topDispatch_okI v (4 * (JSONObject.toIndentedString v [] ind).length + 4)
    [] ind [] hs hmain rfl
  rw [List.append_nil] at htop
  simp [parseFromString, beginParseFromStream, htop, skipWs]

/-- C1 counterexample: the claim does not hold for every value tree.  The
serializer emits stored string contents verbatim with no re-escaping, so the
one-character string `"` serializes to three double quotes; parsing that
text reads an empty string and then fails at the trailing quote with the
expected-EOF error, so parse(serializeCompact(v)) is not v. -/
theorem claim_C1_counterexample :
    dumpToString (.str ['"']) = ['"', '"', '"'] ∧
    parseFromString (dumpToString (.str ['"'])) = .error (errExpectedEof '"') ∧
    parseFromString (dumpToString (.str ['"'])) ≠ .ok (.str ['"']) := by
  refine ⟨rfl, rfl, ?_⟩
  intro h
  rw [show parseFromString (dumpToString (.str ['"'])) =
    .error (errExpectedEof '"') from rfl] at h
  exact Except.noConfusion h

/-- C1 (amended): the round trip holds for every safe value tree — one whose
strings and keys contain no double quote, no backslash and no control
character (the serializer never re-escapes), whose numbers are integers
within the long long range (floating values reformat under %Lf), and whose
maps are sorted with unique keys (the std::map invariant) — and, for the
indented form, for every whitespace-only indent string: parsing the compact
serialization returns exactly the original value, and parsing the indented
serialization does too. -/
theorem claim_C1_amended :
    ∀ v : JSONObject, Safe v = true →
      parseFromString (dumpToString v) = .ok v ∧
      ∀ ind : List Char, wsOnly ind = true →
        parseFromString (dumpToPrettyString v ind) = .ok v :=
  fun v hs => ⟨parseFromString_dump v hs,
    fun ind hind => parseFromString_dumpPretty v hs ind hind⟩

/-- C1 witness: a nested object with a string, a number, an array with null
and a boolean round-trips in compact form and with a two-space indent -/
theorem claim_C1_amended_witness :
    Safe (.map [(['a'], .num (.integer 1)),
      (['b'], .array [.null, .boolean true, .str ['h', 'i']])]) = true ∧
    wsOnly [' ', ' '] = true ∧
    parseFromString (dumpToString (.map [(['a'], .num (.integer 1)),
      (['b'], .array [.null, .boolean true, .str ['h', 'i']])])) =
      .ok (.map [(['a'], .num (.integer 1)),
        (['b'], .array [.null, .boolean true, .str ['h', 'i']])]) ∧
    parseFromString (dumpToPrettyString (.map [(['a'], .num (.integer 1)),
      (['b'], .array [.null, .boolean true, .str ['h', 'i']])]) [' ', ' ']) =
      .ok (.map [(['a'], .num (.integer 1)),
        (['b'], .array [.null, .boolean true, .str ['h', 'i']])]) :=
  ⟨by decide, by decide,
   (claim_C1_amended (.map [(['a'], .num (.integer 1)),
     (['b'], .array [.null, .boolean true, .str ['h', 'i']])]) (by decide)).1,
   (claim_C1_amended (.map [(['a'], .num (.integer 1)),
     (['b'], .array [.null, .boolean true, .str ['h', 'i']])]) (by decide)).2
     [' ', ' '] (by decide)⟩

end SimpleJSON
